import Mathlib

/-!
# Cache model: MSI coherence policy and the remap-capable skewed cache

A shallow embedding of `cache/msi.hpp` and `cache/dynamic_random.hpp`.
Machine integers are natural numbers or integers with explicit reduction
modulo a power of two where the width matters.  A failed `assert` is the result `none`.
-/

namespace CacheModel

/-! ## Metadata (`cache/msi.hpp`) -/

/-- Template parameters of `MetadataMSI<AW, IW, TOfst, ST>`: address width,
index width and tag offset. -/
structure MetaParams where
  AW : Nat
  IW : Nat
  TOfst : Nat
deriving DecidableEq, Repr

/-- The dynamic class of a metadata object.  `MetadataMSI` may be instantiated
with the broadcast support (`MetadataMSIBrodcast`) or with
`MetadataMSIDirectorySupport`; `MetadataMSIDirectory` derives from
`MetadataMSI` and needs the directory support. -/
inductive MetaClass where
  | MetadataMSI_Brodcast
  | MetadataMSI_DirectorySupport
  | MetadataMSIDirectory
deriving DecidableEq, Repr

/-- One metadata object: the bit fields of `MetadataMSIBase` (`state` is two
bits, `dirty` and `directory` one bit each), the `tag` of `MetadataMSI`, and the
`sharer` word of the directory support (a `uint64_t`, read only by the classes
with directory support).  `relocated` is the flag of the remap metadata mixin,
which is not in `msi.hpp`; the operations of this file never touch it except
`to_relocated` and `to_unrelocated`. -/
structure Meta where
  cls : MetaClass
  state : Nat
  dirty : Bool
  directory : Bool
  tag : Nat
  sharer : Nat
  relocated : Bool
deriving DecidableEq, Repr

/-- `MetadataMSIBase()` / `MetadataMSI()`: every field zero.  The sharer word
belongs to `MetadataDirectorySupportBase`, which is not among the sources; after
the spec a fresh, Invalid entry has no sharer. -/
def Meta.fresh (k : MetaClass) : Meta :=
  { cls := k, state := 0, dirty := false, directory := false, tag := 0, sharer := 0,
    relocated := false }

/-- Tests whether the class has the directory support as `ST`. -/
def MetaClass.hasDirectorySupport : MetaClass → Bool
  | .MetadataMSI_Brodcast => false
  | .MetadataMSI_DirectorySupport => true
  | .MetadataMSIDirectory => true

/-- The shift `1ull << coh_id` on 64 bits; `coh_id` is an `int32_t`, and the
shift is defined in C++ only for `0 ≤ coh_id < 64`. -/
def sharer_bit (coh_id : Int) : Nat := (1 <<< coh_id.toNat) % 2 ^ 64

/-- `MetadataMSIDirectorySupport::add_sharer`: `sharer |= (1ull << coh_id)`. -/
def add_sharer (sharer : Nat) (coh_id : Int) : Nat := sharer ||| sharer_bit coh_id

/-- `MetadataMSIDirectorySupport::delete_sharer`: `sharer &= ~(1ull << coh_id)`. -/
def delete_sharer (sharer : Nat) (coh_id : Int) : Nat :=
  sharer &&& (2 ^ 64 - 1 - sharer_bit coh_id)

/-- `MetadataMSIDirectorySupport::is_sharer`: `((1ull << coh_id) & sharer) != 0`. -/
def is_sharer (sharer : Nat) (coh_id : Int) : Bool := (sharer_bit coh_id &&& sharer) != 0

namespace Meta

/-- `is_valid`: `return state;`. -/
def is_valid (m : Meta) : Bool := m.state != 0

/-- `is_shared`: `state == 1`. -/
def is_shared (m : Meta) : Bool := m.state == 1

/-- `is_modified`: `state == 2`. -/
def is_modified (m : Meta) : Bool := m.state == 2

/-- `is_dirty`: `return dirty;`. -/
def is_dirty (m : Meta) : Bool := m.dirty

/-- `is_directory`: `return directory;`. -/
def is_directory (m : Meta) : Bool := m.directory

/-- `to_directory`: a no-op in `MetadataMSIBase`, sets the flag in
`MetadataMSIDirectory`. -/
def to_directory (m : Meta) : Meta :=
  match m.cls with
  | .MetadataMSIDirectory => { m with directory := true }
  | _ => m

/-- `to_invalid`: `state = 0`; `MetadataMSIDirectory` also clears the directory
flag and the sharers. -/
def to_invalid (m : Meta) : Meta :=
  match m.cls with
  | .MetadataMSIDirectory => { m with state := 0, directory := false, sharer := 0 }
  | _ => { m with state := 0 }

/-- `to_shared(coh_id)`: `state = 1`; `MetadataMSIDirectory` also records the
sharer and raises the directory flag when `coh_id != -1`. -/
def to_shared (m : Meta) (coh_id : Int) : Meta :=
  match m.cls with
  | .MetadataMSIDirectory =>
    if coh_id ≠ -1 then
      to_directory { m with state := 1, sharer := add_sharer m.sharer coh_id }
    else { m with state := 1 }
  | _ => { m with state := 1 }

/-- `to_modified(coh_id)`: as `to_shared` with `state = 2`. -/
def to_modified (m : Meta) (coh_id : Int) : Meta :=
  match m.cls with
  | .MetadataMSIDirectory =>
    if coh_id ≠ -1 then
      to_directory { m with state := 2, sharer := add_sharer m.sharer coh_id }
    else { m with state := 2 }
  | _ => { m with state := 2 }

/-- `to_dirty`: `dirty = 1`. -/
def to_dirty (m : Meta) : Meta := { m with dirty := true }

/-- `to_clean`: `dirty = 0`. -/
def to_clean (m : Meta) : Meta := { m with dirty := false }

/-- `sync(coh_id)`: a no-op in `MetadataMSI`; `MetadataMSIDirectory` deletes the
sharer when `coh_id != -1`. -/
def sync (m : Meta) (coh_id : Int) : Meta :=
  match m.cls with
  | .MetadataMSIDirectory =>
    if coh_id ≠ -1 then { m with sharer := delete_sharer m.sharer coh_id } else m
  | _ => m

/-- The constant `mask = (1ull << (AW-TOfst)) - 1` of `MetadataMSI`. -/
def mask (c : MetaParams) : Nat := (1 <<< (c.AW - c.TOfst)) - 1

/-- `MetadataMSI::match`: `is_valid() && ((addr >> TOfst) & mask) == tag`. -/
def «match» (c : MetaParams) (m : Meta) (addr : Nat) : Bool :=
  m.is_valid && (((addr >>> c.TOfst) &&& mask c) == m.tag)

/-- `MetadataMSI::reset`: `tag = 0; state = 0; dirty = 0;`. -/
def reset (m : Meta) : Meta := { m with tag := 0, state := 0, dirty := false }

/-- `MetadataMSI::init`: `tag = (addr >> TOfst) & mask; state = 0; dirty = 0;`. -/
def init (c : MetaParams) (m : Meta) (addr : Nat) : Meta :=
  { m with tag := (addr >>> c.TOfst) &&& mask c, state := 0, dirty := false }

/-- The value of `tag << TOfst` as a `uint64_t`.  `tag` is a bit-field of
`AW-TOfst` bits: of at most 31 bits it is promoted to `int`, and the shift is
done on 32 bits, two's complement, and sign-extended; of 32 bits it is promoted
to `unsigned int`, and the shift is done modulo `2^32`; wider, it stays a
`uint64_t`. -/
def shifted_tag (c : MetaParams) (tag : Nat) : Nat :=
  if c.AW - c.TOfst ≤ 31 then
    let v := (tag <<< c.TOfst) % 2 ^ 32
    if v < 2 ^ 31 then v else v + (2 ^ 64 - 2 ^ 32)
  else if c.AW - c.TOfst = 32 then (tag <<< c.TOfst) % 2 ^ 32
  else (tag <<< c.TOfst) % 2 ^ 64

/-- `MetadataMSI::addr`: the tag shifted to its place, with the low `IW` bits of
the set index below it when `IW > 0`.  The index term is a `uint32_t`
expression, so it is reduced modulo `2^32` before it is or-ed into the 64-bit
address. -/
def addr (c : MetaParams) (m : Meta) (s : Nat) : Nat :=
  let a := shifted_tag c m.tag
  if 0 < c.IW then
    a ||| (((s &&& ((1 <<< c.IW) - 1)) <<< (c.TOfst - c.IW)) % 2 ^ 32)
  else a

/-- `MetadataMSI::copy`: copies `state`, `dirty` (in `MetadataMSIBase::copy`) and
`tag` from the other entry. -/
def copy (m : Meta) (src : Meta) : Meta :=
  { m with state := src.state, dirty := src.dirty, tag := src.tag }

/-- `evict_need_probe(target_id, request_id)`: `target_id != request_id`, and with
the directory support also `is_sharer(target_id)`. -/
def evict_need_probe (m : Meta) (target_id request_id : Int) : Bool :=
  if m.cls.hasDirectorySupport then
    is_sharer m.sharer target_id && (target_id != request_id)
  else target_id != request_id

/-- `writeback_need_probe(target_id, request_id)`: the same test as
`evict_need_probe`. -/
def writeback_need_probe (m : Meta) (target_id request_id : Int) : Bool :=
  if m.cls.hasDirectorySupport then
    is_sharer m.sharer target_id && (target_id != request_id)
  else target_id != request_id

end Meta

/-! ## Coherence commands and the policy base -/

/-- A coherence command `coh_cmd_t{id, msg, act}`. -/
structure coh_cmd_t where
  id : Int
  msg : Nat
  act : Nat
deriving DecidableEq, Repr

/-- Modelled from the spec: `CohPolicyBase` of `cache/coherence.hpp`, which is not
among the sources.  It holds the message and action codes handed to its
constructor, in the order acquire, release, probe, flush, then read, write,
evict, writeback. -/
structure CohPolicyBase where
  acquire_msg : Nat
  release_msg : Nat
  probe_msg : Nat
  flush_msg : Nat
  fetch_read_act : Nat
  fetch_write_act : Nat
  evict_act : Nat
  writeback_act : Nat
deriving DecidableEq, Repr

namespace CohPolicyBase

/-- Modelled from the spec: `is_acquire`, the command's message is acquire
(`coherence.hpp` is not among the sources). -/
def is_acquire (b : CohPolicyBase) (cmd : coh_cmd_t) : Bool := cmd.msg == b.acquire_msg

/-- Modelled from the spec: `is_release`, the command's message is release. -/
def is_release (b : CohPolicyBase) (cmd : coh_cmd_t) : Bool := cmd.msg == b.release_msg

/-- Modelled from the spec: `is_probe`, the command's message is probe. -/
def is_probe (b : CohPolicyBase) (cmd : coh_cmd_t) : Bool := cmd.msg == b.probe_msg

/-- Modelled from the spec: `is_flush`, the command's message is flush. -/
def is_flush (b : CohPolicyBase) (cmd : coh_cmd_t) : Bool := cmd.msg == b.flush_msg

/-- Modelled from the spec: `is_fetch_write`, the command's action is write. -/
def is_fetch_write (b : CohPolicyBase) (cmd : coh_cmd_t) : Bool := cmd.act == b.fetch_write_act

/-- Modelled from the spec: `is_fetch_read`, the command's action is read. -/
def is_fetch_read (b : CohPolicyBase) (cmd : coh_cmd_t) : Bool := cmd.act == b.fetch_read_act

/-- Modelled from the spec: `is_evict`, the command's action is evict. -/
def is_evict (b : CohPolicyBase) (cmd : coh_cmd_t) : Bool := cmd.act == b.evict_act

/-- Modelled from the spec: `is_writeback`, the command's action is writeback. -/
def is_writeback (b : CohPolicyBase) (cmd : coh_cmd_t) : Bool := cmd.act == b.writeback_act

end CohPolicyBase

/-- Modelled from the spec: `cmd_for_null` of `CohPolicyBase`, the null command:
no originator (`id = -1`), no message and no action. -/
def cmd_for_null : coh_cmd_t := { id := -1, msg := 0, act := 0 }

/-! ## `MSIPolicy` -/

/-- An `MSIPolicy<MT, isL1, isLLC>` object.  Its own codes are fixed by the
constructor; `outer` is the policy of the outer port.  `need_sync` is the
generic helper inherited from `CohPolicyBase`, whose body is not among the
sources: it is a parameter. -/
structure MSIPolicy where
  isL1 : Bool
  isLLC : Bool
  outer : CohPolicyBase
  need_sync : Meta → Int → Bool × coh_cmd_t

namespace MSIPolicy

/-- `MSIPolicy() : CohPolicyBase(1, 2, 3, 4, 0, 1, 2, 3)`. -/
def base : CohPolicyBase :=
  { acquire_msg := 1, release_msg := 2, probe_msg := 3, flush_msg := 4,
    fetch_read_act := 0, fetch_write_act := 1, evict_act := 2, writeback_act := 3 }

/-- `MSIPolicy::acquire_need_sync`. -/
def acquire_need_sync (p : MSIPolicy) (cmd : coh_cmd_t) (meta : Meta) :
    Option (Bool × coh_cmd_t) :=
  if !p.isL1 then
    if !base.is_acquire cmd then none
    else if base.is_fetch_write cmd then
      some (true, { id := cmd.id, msg := base.probe_msg, act := base.evict_act })
    else some (p.need_sync meta cmd.id)
  else some (false, cmd_for_null)

/-- `MSIPolicy::probe_need_sync`. -/
def probe_need_sync (p : MSIPolicy) (outer_cmd : coh_cmd_t) (meta : Meta) :
    Option (Bool × coh_cmd_t) :=
  if !p.isL1 then
    if !p.outer.is_probe outer_cmd then none
    else if p.outer.is_evict outer_cmd then
      some (true, { id := -1, msg := base.probe_msg, act := base.evict_act })
    else some (p.need_sync meta (-1))
  else some (false, cmd_for_null)

/-- `MSIPolicy::probe_need_probe`. -/
def probe_need_probe (cmd : coh_cmd_t) (meta : Meta) (target_inner_id : Int) :
    Option (Bool × coh_cmd_t) :=
  if !base.is_probe cmd then none
  else if (base.is_evict cmd && meta.evict_need_probe target_inner_id cmd.id) ||
      (base.is_writeback cmd && meta.writeback_need_probe target_inner_id cmd.id) then
    some (true, { cmd with id := -1 })
  else some (false, cmd_for_null)

/-- `MSIPolicy::meta_after_probe_ack`.  The source reads
`if(is_directory()) if(is_evict(cmd)) sync(..); else to_shared(..);`: in C++ the
`else` belongs to the nearest `if`, the test of `is_evict`, so an entry whose
directory flag is clear is left as it is. -/
def meta_after_probe_ack (cmd : coh_cmd_t) (meta : Meta) (inner_id : Int) : Option Meta :=
  if !base.is_probe cmd then none
  else if meta.is_directory then
    if base.is_evict cmd then some (meta.sync inner_id)
    else some (meta.to_shared (if base.is_evict cmd then -1 else inner_id))
  else some meta

end MSIPolicy

/-! ## `ExclusiveMSIPolicy` -/

namespace ExclusiveMSIPolicy

/-- `ExclusiveMSIPolicy::meta_after_release`.  `meta` may be null.  The result is
the pair of `mmeta` and `meta` after the call, or `none` when
`assert(!meta->is_dirty())` fails. -/
def meta_after_release (c : MetaParams) (_cmd : coh_cmd_t) (mmeta : Meta) (meta : Option Meta)
    (addr : Nat) (dirty : Bool) : Option (Meta × Option Meta) :=
  let meta1 := meta.map Meta.to_invalid
  if (meta1.map Meta.is_dirty).getD false then none
  else
    let m1 := (Meta.init c mmeta addr).to_shared (-1)
    let m2 := if dirty then m1.to_dirty else m1
    some (m2, meta1)

end ExclusiveMSIPolicy

/-! ## The remap-capable skewed cache (`cache/dynamic_random.hpp`) -/

/-- Template parameters of `CacheRemap<IW, NW, P, MT, DT, IDX, RPC, DLY, EnMon>`
that the model needs: index width, number of ways, number of partitions, the
parameters of the metadata type `MT`, and the hash of the indexer type `IDX`
(`IndexSkewed` is not among the sources; its hash, from a seed and an address,
is a parameter). -/
structure CacheParams where
  IW : Nat
  NW : Nat
  P : Nat
  mp : MetaParams
  hash : Nat → Nat → Nat

/-- The number of sets of one partition, `1ul << IW`. -/
def CacheParams.nset (k : CacheParams) : Nat := 1 <<< k.IW

/-- Modelled from the spec: an `IndexSkewed` object (`cache/index.hpp` is not among
the sources): `P` independent hash functions, each seeded by a 64-bit value. -/
structure IndexSkewed where
  seeds : List Nat
deriving DecidableEq, Repr

/-- Modelled from the spec: `IndexSkewed::index(addr, p)`, the hash of partition
`p` (seeded by the `p`-th seed) applied to the address, a set index in
`[0, 2^IW)`. -/
def IndexSkewed.index (k : CacheParams) (ix : IndexSkewed) (addr p : Nat) : Nat :=
  k.hash (ix.seeds.getD p 0) addr % k.nset

/-- Modelled from the spec: `IndexSkewed::seed(seeds)` replaces all the seeds. -/
def IndexSkewed.seed (_ix : IndexSkewed) (seeds : List Nat) : IndexSkewed := { seeds := seeds }

/-- The constants of `RemapHelper`. -/
def replace_for_relocate : Nat := 2408200

/-- The second constant of `RemapHelper`. -/
def replace_during_remap : Nat := 2408201

/-- The state of a `CacheRemap` object: the metadata arrays (partition, set, way),
the two indexers, the seeds kept for the next indexer, the remap pointers and the
remap flag.  Data blocks, the replacer and the monitors are not modelled. -/
structure CacheRemap where
  arrays : Nat → Nat → Nat → Meta
  indexer : IndexSkewed
  indexer_next : IndexSkewed
  indexer_seed_next : List Nat
  remap_pointer : Nat → Nat
  remap : Bool

/-- Modelled from the spec: the remap helper `is_relocated` of the metadata. -/
def Meta.is_relocated (m : Meta) : Bool := m.relocated

/-- Modelled from the spec: the remap helper `to_relocated` of the metadata. -/
def Meta.to_relocated (m : Meta) : Meta := { m with relocated := true }

/-- Modelled from the spec: the remap helper `to_unrelocated` of the metadata. -/
def Meta.to_unrelocated (m : Meta) : Meta := { m with relocated := false }

/-- Modelled from the spec: the array lookup `hit(addr, set)` of one partition
(`cache/cache.hpp` is not among the sources): it scans the `NW` ways and hits at
the first way whose metadata matches the address. -/
def array_hit (k : CacheParams) (arr : Nat → Nat → Meta) (addr s : Nat) : Option Nat :=
  (List.range k.NW).find? (fun w => (arr s w).match k.mp addr)

namespace CacheRemap

/-- The cell `access(ai, s, w)`. -/
def access (c : CacheRemap) (ai s w : Nat) : Meta := c.arrays ai s w

/-- Writing a metadata entry back into its cell (cells mutate in place). -/
def set_meta (c : CacheRemap) (ai s w : Nat) (m : Meta) : CacheRemap :=
  { c with arrays := fun a b d => if a = ai ∧ b = s ∧ d = w then m else c.arrays a b d }

/-- Modelled from the spec: `CacheSkewed::hit`, the lookup of the plain skewed
cache: for each partition in turn, the set given by the indexer is searched. -/
def skewed_hit (k : CacheParams) (c : CacheRemap) (addr : Nat) : Option (Nat × Nat × Nat) :=
  (List.range k.P).findSome? fun ai =>
    let s := c.indexer.index k addr ai
    (array_hit k (c.arrays ai) addr s).map fun w => (ai, s, w)

/-- The body of the loop of `CacheRemap::hit` for partition `ai`: the set of
the current indexer is searched when it is not below the remap pointer, then
the set of the next indexer. -/
def hit_partition (k : CacheParams) (c : CacheRemap) (addr ai : Nat) : Option (Nat × Nat × Nat) :=
  let s := c.indexer.index k addr ai
  match (if s ≥ c.remap_pointer ai then array_hit k (c.arrays ai) addr s else none) with
  | some w => some (ai, s, w)
  | none =>
    let s2 := c.indexer_next.index k addr ai
    (array_hit k (c.arrays ai) addr s2).map fun w => (ai, s2, w)

/-- `CacheRemap::hit`.  The result `some (ai, s, w)` stands for `true` with the
three out-parameters, `none` for `false`.  The arguments `prio` and
`check_and_set` are only handed on to `CacheT::hit`. -/
def hit (k : CacheParams) (c : CacheRemap) (addr : Nat) : Option (Nat × Nat × Nat) :=
  if !c.remap then skewed_hit k c addr
  else (List.range k.P).findSome? (hit_partition k c addr)

/-- `CacheRemap::replace_choose_set`: the pair `(ai, s)`, or `none` when the genre
is neither normal nor `replace_for_relocate` (the assertions fail).  `rnd` is
the value drawn from `loc_random`. -/
def replace_choose_set (k : CacheParams) (c : CacheRemap) (rnd addr genre : Nat) :
    Option (Nat × Nat) :=
  let ai := if k.P = 1 then 0 else rnd % k.P
  if genre = 0 then some (ai, c.indexer.index k addr ai)
  else if genre = replace_for_relocate then some (ai, c.indexer_next.index k addr ai)
  else none

/-- Modelled from the spec: `CacheSkewed::replace`, which chooses the set with
`replace_choose_set` and lets the replacer choose a way of that set.  `draw` is
the pair of the random value and the replacer's choice, a way below `NW`. -/
def replace (k : CacheParams) (c : CacheRemap) (draw : Nat × Nat) (addr genre : Nat) :
    Option (Nat × Nat × Nat) :=
  (replace_choose_set k c draw.1 addr genre).map fun r => (r.1, r.2, draw.2 % k.NW)

/-- Modelled from the spec: `CacheBase::relocate(addr, s_meta, d_meta, ..)`, which
moves a line: the destination is initialised with the address and takes a copy
of the source, and the source is left clean and Invalid (its way is freed).
The result is the pair (source, destination) after the call. -/
def relocate (k : CacheParams) (addr : Nat) (s_meta d_meta : Meta) : Meta × Meta :=
  (s_meta.to_clean.to_invalid, (d_meta.init k.mp addr).copy s_meta)

/-- Modelled from the spec: `CacheBase::swap(a_addr, b_addr, a_meta, b_meta, ..)`,
which exchanges two lines through a scratch entry by three moves.  The result is
the pair (a, b) after the call. -/
def swap (k : CacheParams) (a_addr b_addr : Nat) (a_meta b_meta : Meta) : Meta × Meta :=
  let r1 := relocate k a_addr a_meta (Meta.fresh a_meta.cls)
  let r2 := relocate k b_addr b_meta r1.1
  let r3 := relocate k a_addr r1.2 r2.1
  (r2.2, r3.2)

/-- `CacheRemap::move_remap_pointer`: `remap_pointer[ai]++` on 64 bits. -/
def move_remap_pointer (c : CacheRemap) (ai : Nat) : CacheRemap :=
  { c with remap_pointer := fun a =>
      if a = ai then (c.remap_pointer ai + 1) % 2 ^ 64 else c.remap_pointer a }

/-- `CacheRemap::remap_start`. -/
def remap_start (c : CacheRemap) : CacheRemap := { c with remap := true }

/-- `CacheRemap::rotate_indexer`; `fresh` holds the values drawn from
`cm_get_random_uint64` for the seeds of the next indexer. -/
def rotate_indexer (c : CacheRemap) (fresh : List Nat) : CacheRemap :=
  { c with indexer := c.indexer.seed c.indexer_seed_next,
           indexer_seed_next := fresh,
           indexer_next := c.indexer_next.seed fresh }

/-- `CacheRemap::remap_end`: clears the flag, zeroes the pointers, rotates the
indexers and clears the relocated flag of every cell of the array. -/
def remap_end (k : CacheParams) (c : CacheRemap) (fresh : List Nat) : CacheRemap :=
  let c1 := { c with remap := false, remap_pointer := fun _ => 0 }
  let c2 := rotate_indexer c1 fresh
  { c2 with arrays := fun ai idx way =>
      if ai < k.P ∧ idx < k.nset ∧ way < k.NW then (c2.arrays ai idx way).to_unrelocated
      else c2.arrays ai idx way }

end CacheRemap

/-! ## The remap of the inner port (`InnerCohPortRemapT`) -/

/-- The state the remap of `InnerCohPortRemapT` works on: the cache, the number
of draws taken so far from the random source and the replacer, and the lines
that have left the cache through `evict`, latest first. -/
structure RemapState where
  cache : CacheRemap
  tick : Nat
  evicted : List Meta

/-- Modelled from the spec: the effect of `InnerCohPortUncached::evict` on the
evicted entry (`cache/coherence.hpp` is not among the sources): the line leaves
the cache through the normal eviction path and the entry is Invalid after it. -/
def evict_meta (m : Meta) : Meta := m.to_invalid

namespace RemapState

/-- `InnerCohPortRemapT::relocation`: one step of the chain.  `orc` gives the
draws of the random source and the replacer; the result is the state with the
scratch entry `c_meta` and the address `c_addr` after the call. -/
def relocation (k : CacheParams) (orc : Nat → Nat × Nat) (st : RemapState) (c_meta : Meta)
    (c_addr : Nat) : Option (RemapState × Meta × Nat) :=
  match CacheRemap.replace k st.cache (orc st.tick) c_addr replace_for_relocate with
  | none => none
  | some (new_ai, new_idx, new_way) =>
    let m_meta := st.cache.access new_ai new_idx new_way
    let m_addr := m_meta.addr k.mp new_idx
    let evicting := m_meta.is_valid && m_meta.is_relocated
    let m_meta1 := if evicting then evict_meta m_meta else m_meta
    let r := CacheRemap.swap k m_addr c_addr m_meta1 c_meta
    some ({ cache := st.cache.set_meta new_ai new_idx new_way r.1.to_relocated,
            tick := st.tick + 1,
            evicted := if evicting then m_meta :: st.evicted else st.evicted },
          r.2, m_addr)

/-- The loop `while(c_meta->is_valid()) relocation(c_meta, c_data, c_addr);` with
a bound on the number of iterations; `none` when the bound is reached with the
scratch entry still valid. -/
def relocation_loop (k : CacheParams) (orc : Nat → Nat × Nat) :
    Nat → RemapState → Meta → Nat → Option RemapState
  | 0, st, c_meta, _ => if c_meta.is_valid then none else some st
  | fuel + 1, st, c_meta, c_addr =>
    if c_meta.is_valid then
      match relocation k orc st c_meta c_addr with
      | none => none
      | some (st1, c_meta1, c_addr1) => relocation_loop k orc fuel st1 c_meta1 c_addr1
    else some st

/-- `InnerCohPortRemapT::relocation_chain`.  The loop is given one iteration per
cell of the array. -/
def relocation_chain (k : CacheParams) (orc : Nat → Nat × Nat) (st : RemapState)
    (ai idx way : Nat) : Option RemapState :=
  let meta := st.cache.access ai idx way
  let c_addr := meta.addr k.mp idx
  if !meta.is_valid || meta.is_relocated then some st
  else
    let r := CacheRemap.relocate k c_addr meta (Meta.fresh meta.cls)
    let st1 := { st with cache := st.cache.set_meta ai idx way r.1.to_relocated }
    relocation_loop k orc (k.P * k.nset * k.NW) st1 r.2 c_addr

end RemapState

/-- One operation of the sweep of `remap()`: a call of `relocation_chain` or of
`move_remap_pointer`. -/
inductive RemapOp where
  | chain (ai idx way : Nat)
  | move (ai : Nat)
deriving DecidableEq, Repr

/-- The operations of the three nested loops of `remap()`, in order: for each
partition, for each set, the chains of all ways and then the move of the
pointer. -/
def remap_ops (P nset nway : Nat) : List RemapOp :=
  (List.range P).flatMap fun ai =>
    (List.range nset).flatMap fun idx =>
      (List.range nway).map (fun way => RemapOp.chain ai idx way) ++ [RemapOp.move ai]

namespace RemapState

/-- One operation of the sweep. -/
def step (k : CacheParams) (orc : Nat → Nat × Nat) (st : RemapState) :
    RemapOp → Option RemapState
  | .chain ai idx way => relocation_chain k orc st ai idx way
  | .move ai => some { st with cache := st.cache.move_remap_pointer ai }

/-- A sequence of operations of the sweep, run in order. -/
def run (k : CacheParams) (orc : Nat → Nat × Nat) : List RemapOp → RemapState → Option RemapState
  | [], st => some st
  | op :: ops, st =>
    match step k orc st op with
    | none => none
    | some st1 => run k orc ops st1

/-- The sweep of `remap()` between `remap_start` and `remap_end`; the three sizes
are those of `cache->size()` cast to `uint32_t`. -/
def sweep_ops (k : CacheParams) : List RemapOp :=
  remap_ops (k.P % 2 ^ 32) (k.nset % 2 ^ 32) (k.NW % 2 ^ 32)

/-- `InnerCohPortRemapT::remap`. -/
def remap (k : CacheParams) (orc : Nat → Nat × Nat) (fresh : List Nat) (st : RemapState) :
    Option RemapState :=
  match run k orc (sweep_ops k) { st with cache := st.cache.remap_start } with
  | none => none
  | some st1 => some { st1 with cache := st1.cache.remap_end k fresh }

end RemapState

/-! ## Example data -/

/-- A cache of one partition, two sets and one way; the metadata has 16-bit
addresses with the tag above bit 8.  The hash of seed 0 is the tag, the hash of
any other seed is 1. -/
def ex_params : CacheParams :=
  { IW := 1, NW := 1, P := 1, mp := ⟨16, 0, 8⟩,
    hash := fun seed a => if seed = 0 then (a >>> 8) &&& (1 <<< 8 - 1) else 1 }

/-- A Shared line with the given tag. -/
def ex_line (tag : Nat) : Meta :=
  { Meta.fresh .MetadataMSI_Brodcast with state := 1, tag := tag }

/-- The example cache: address `0x200` in set 0 and address `0x100` in set 1,
where the current indexer (seed 0) puts them; the next indexer (seed 1) puts
both in set 1. -/
def ex_cache : CacheRemap :=
  { arrays := fun p s w =>
      if p = 0 ∧ s = 0 ∧ w = 0 then ex_line 2
      else if p = 0 ∧ s = 1 ∧ w = 0 then ex_line 1
      else Meta.fresh .MetadataMSI_Brodcast,
    indexer := ⟨[0]⟩, indexer_next := ⟨[1]⟩, indexer_seed_next := [1],
    remap_pointer := fun _ => 0, remap := false }

/-- The example cache in the hands of the port, nothing drawn or evicted yet. -/
def ex_state : RemapState := { cache := ex_cache, tick := 0, evicted := [] }

/-- The draws of the example: partition 0 and way 0 every time. -/
def ex_orc : Nat → Nat × Nat := fun _ => (0, 0)

/-- The directory entry of Scenario D: Shared, with sharers 0, 1 and 2. -/
def ex_directory_meta : Meta :=
  { Meta.fresh .MetadataMSIDirectory with state := 1, directory := true, sharer := 7 }

/-! ## Vocabulary of the remap properties -/

/-- The assumptions on the template parameters: at least one partition and one
way, sizes that fit the `uint32_t` loop counters of `remap()`, a metadata layout
with the index bits below the tag inside a 64-bit address, a tag whose shift to
its place does not overflow the type it is promoted to, and an indexer whose
hash reads the address only through the bits the tag keeps. -/
structure CacheParams.WF (k : CacheParams) : Prop where
  P_pos : 0 < k.P
  P_lt : k.P < 2 ^ 32
  NW_pos : 0 < k.NW
  NW_lt : k.NW < 2 ^ 32
  IW_lt : k.IW < 32
  IW_le : k.mp.IW ≤ k.mp.TOfst
  AW_le : k.mp.AW ≤ 64
  AW_int : k.mp.AW - k.mp.TOfst ≤ 31 → k.mp.AW ≤ 31
  AW_uint : k.mp.AW - k.mp.TOfst = 32 → k.mp.AW ≤ 32
  hash_tag : ∀ seed a b,
    (a >>> k.mp.TOfst) &&& Meta.mask k.mp = (b >>> k.mp.TOfst) &&& Meta.mask k.mp →
      k.hash seed a = k.hash seed b

namespace CacheRemap

/-- The address is valid in the cache: some cell of the array matches it. -/
def holds (k : CacheParams) (c : CacheRemap) (A : Nat) : Prop :=
  ∃ p s w, p < k.P ∧ s < k.nset ∧ w < k.NW ∧ (c.access p s w).match k.mp A = true

/-- The cell needs no relocation any more: it is Invalid or marked relocated. -/
def done (c : CacheRemap) (p s w : Nat) : Prop :=
  (c.access p s w).is_valid = false ∨ (c.access p s w).is_relocated = true

/-- The state a remap starts from: no remap in progress, all remap pointers 0, no
cell marked relocated, and every valid line in the set the current indexer gives
to the addresses it matches. -/
structure Settled (k : CacheParams) (c : CacheRemap) : Prop where
  no_remap : c.remap = false
  pointers : ∀ p, c.remap_pointer p = 0
  unrelocated : ∀ p s w, p < k.P → s < k.nset → w < k.NW →
    (c.access p s w).is_relocated = false
  placed : ∀ p s w, p < k.P → s < k.nset → w < k.NW →
    ∀ A, (c.access p s w).match k.mp A = true → c.indexer.index k A p = s

/-- The placement of the lines during the sweep: a valid line not yet relocated
sits in its set under the current indexer, at or above the remap pointer; a
valid line marked relocated sits in its set under the next indexer. -/
structure Sweeping (k : CacheParams) (c : CacheRemap) : Prop where
  old : ∀ p s w, p < k.P → s < k.nset → w < k.NW →
    (c.access p s w).is_valid = true → (c.access p s w).is_relocated = false →
      c.remap_pointer p ≤ s ∧
      ∀ A, (c.access p s w).match k.mp A = true → c.indexer.index k A p = s
  new : ∀ p s w, p < k.P → s < k.nset → w < k.NW →
    (c.access p s w).is_relocated = true →
      ∀ A, (c.access p s w).match k.mp A = true → c.indexer_next.index k A p = s

/-- What a chain leaves untouched: pointers, indexers and the flag; and a cell
that needed no relocation still needs none. -/
structure Frame (c c2 : CacheRemap) : Prop where
  pointer : c2.remap_pointer = c.remap_pointer
  indexer : c2.indexer = c.indexer
  indexer_next : c2.indexer_next = c.indexer_next
  seed_next : c2.indexer_seed_next = c.indexer_seed_next
  remap : c2.remap = c.remap
  done : ∀ p s w, c.done p s w → c2.done p s w

/-- The cells of the array that hold a valid line not yet relocated. -/
def vnr (k : CacheParams) (c : CacheRemap) : Finset (Nat × Nat × Nat) :=
  ((Finset.range k.P) ×ˢ ((Finset.range k.nset) ×ˢ (Finset.range k.NW))).filter
    (fun x => (c.access x.1 x.2.1 x.2.2).is_valid = true ∧
      (c.access x.1 x.2.1 x.2.2).is_relocated = false)

end CacheRemap

namespace RemapState

/-- Every address of `V0` is still in the cache, or its line was evicted, or it
is the line in the scratch entry. -/
def Kept (k : CacheParams) (V0 : Nat → Prop) (st : RemapState) (c_meta : Meta) : Prop :=
  ∀ A, V0 A → st.cache.holds k A ∨ (∃ m, m ∈ st.evicted ∧ m.match k.mp A = true) ∨
    c_meta.match k.mp A = true

/-- The invariant of the loop of `relocation_chain`: the placement of the lines,
a scratch address that hashes like every address the scratch entry matches, and
no line of `V0` lost. -/
structure ChainInv (k : CacheParams) (V0 : Nat → Prop) (st : RemapState) (c_meta : Meta)
    (c_addr : Nat) : Prop where
  placed : st.cache.Sweeping k
  scratch : ∀ A, c_meta.match k.mp A = true → ∀ seed, k.hash seed A = k.hash seed c_addr
  kept : Kept k V0 st c_meta

/-- The invariant of the sweep between two operations, for a sweep started from
the cache `c0`: a remap is in progress, the indexers are those of `c0`, the lines
are placed, and every line of `V0` is in the cache or was evicted. -/
structure SweepInv (k : CacheParams) (c0 : CacheRemap) (V0 : Nat → Prop) (st : RemapState) :
    Prop where
  remap : st.cache.remap = true
  indexer : st.cache.indexer = c0.indexer
  indexer_next : st.cache.indexer_next = c0.indexer_next
  seed_next : st.cache.indexer_seed_next = c0.indexer_seed_next
  placed : st.cache.Sweeping k
  kept : ∀ A, V0 A → st.cache.holds k A ∨ ∃ m, m ∈ st.evicted ∧ m.match k.mp A = true

/-- The property holds after every prefix of the operations. -/
def Reach (k : CacheParams) (orc : Nat → Nat × Nat) (ops : List RemapOp) (st : RemapState)
    (Q : RemapState → Prop) : Prop :=
  ∀ n, n ≤ ops.length → ∃ st2, run k orc (ops.take n) st = some st2 ∧ Q st2

end RemapState

/-- A second example cache, with a remap pointer that is not 0: address `0x200` in
set 1, where the current indexer (seed 1) puts it; the next indexer (seed 0)
puts it in set 0. -/
def ex_cache_pointer : CacheRemap :=
  { arrays := fun p s w =>
      if p = 0 ∧ s = 1 ∧ w = 0 then ex_line 2 else Meta.fresh .MetadataMSI_Brodcast,
    indexer := ⟨[1]⟩, indexer_next := ⟨[0]⟩, indexer_seed_next := [0],
    remap_pointer := fun _ => 2, remap := false }

/-! ## Sequences of metadata transitions -/

/-- One of the state transitions of a metadata entry. -/
inductive MetaOp where
  | to_invalid
  | to_shared (coh_id : Int)
  | to_modified (coh_id : Int)
  | to_dirty
  | to_clean
  | sync (coh_id : Int)
deriving DecidableEq, Repr

/-- The coherence id of the transition, when it has one, is `-1` or an inner id
below 64. -/
def MetaOp.id_ok : MetaOp → Prop
  | .to_shared coh_id => -1 ≤ coh_id ∧ coh_id < 64
  | .to_modified coh_id => -1 ≤ coh_id ∧ coh_id < 64
  | .sync coh_id => -1 ≤ coh_id ∧ coh_id < 64
  | _ => True

/-- The entry after one transition. -/
def Meta.apply (m : Meta) : MetaOp → Meta
  | .to_invalid => m.to_invalid
  | .to_shared coh_id => m.to_shared coh_id
  | .to_modified coh_id => m.to_modified coh_id
  | .to_dirty => m.to_dirty
  | .to_clean => m.to_clean
  | .sync coh_id => m.sync coh_id

/-- The entry after a sequence of transitions, applied in order. -/
def Meta.run (m : Meta) : List MetaOp → Meta
  | [] => m
  | op :: ops => (m.apply op).run ops

/-- The sequence marks only valid entries dirty and invalidates only clean
entries. -/
def Meta.CleanDiscipline (m : Meta) : List MetaOp → Prop
  | [] => True
  | op :: ops =>
    (op = .to_dirty → m.is_valid = true) ∧ (op = .to_invalid → m.is_dirty = false) ∧
      (m.apply op).CleanDiscipline ops

/-- The sequence applies `to_modified(id)` only to entries that have no sharer
other than `id`. -/
def Meta.OwnerDiscipline (m : Meta) : List MetaOp → Prop
  | [] => True
  | op :: ops =>
    (∀ coh_id, op = .to_modified coh_id →
        ∀ j : Nat, m.sharer.testBit j = true → (j : Int) = coh_id) ∧
      (m.apply op).OwnerDiscipline ops

/-- At most one bit of the sharer word is set. -/
def at_most_one_sharer (sharer : Nat) : Prop :=
  ∀ i j : Nat, sharer.testBit i = true → sharer.testBit j = true → i = j

/-! ## Remap monitors (`cache/dynamic_random.hpp`) -/

/-- The magic id `MAGIC_ID_REMAP_ASK`. -/
def MAGIC_ID_REMAP_ASK : Nat := 2024091300

/-- The magic id `MAGIC_ID_REMAP_END`. -/
def MAGIC_ID_REMAP_END : Nat := 2024102700

/-- Modelled from the spec: the state of `SimpleAccMonitor` (`util/monitor.hpp` is
not among the sources): the access, miss, write, write-miss and invalidation
counters, all `uint64_t`, and the `active` flag. -/
structure SimpleAccMonitor where
  cnt_access : Nat
  cnt_miss : Nat
  cnt_write : Nat
  cnt_write_miss : Nat
  cnt_invalid : Nat
  active : Bool
deriving DecidableEq, Repr

/-- The state of a `RemapperBase`: the monitor it derives from, the `remap` request
flag and `remap_enable`. -/
structure RemapperBase extends SimpleAccMonitor where
  remap : Bool
  remap_enable : Bool
deriving DecidableEq, Repr

/-- `RemapperBase::magic_func`.  `magic_data` is the `bool` the pointer refers to,
`none` for a null pointer.  The result is the returned flag, the monitor and
the pointed value after the call; `none` stands for the write through a null
pointer. -/
def RemapperBase.magic_func (m : RemapperBase) (magic_id : Nat) (magic_data : Option Bool) :
    Option (Bool × RemapperBase × Option Bool) :=
  if magic_id = MAGIC_ID_REMAP_ASK then
    if m.remap_enable then
      match magic_data with
      | none => none
      | some b =>
        some (true, (if m.remap then { m with active := false } else m), some (b || m.remap))
    else some (true, m, magic_data)
  else if magic_id = MAGIC_ID_REMAP_END then
    some (true, { m with remap := false, active := true }, magic_data)
  else some (false, m, magic_data)

/-- The state of a `SimpleEVRemapper`: a `RemapperBase` and the period. -/
structure SimpleEVRemapper extends RemapperBase where
  period : Nat
deriving DecidableEq, Repr

namespace SimpleEVRemapper

/-- Modelled from the spec: `SimpleEVRemapper(period)`, freshly constructed: active,
counters zero, no remap requested, remap enabled (the constructor of
`SimpleAccMonitor` is not among the sources). -/
def fresh (period : Nat) : SimpleEVRemapper :=
  { cnt_access := 0, cnt_miss := 0, cnt_write := 0, cnt_write_miss := 0, cnt_invalid := 0,
    active := true, remap := false, remap_enable := true, period := period }

/-- `SimpleEVRemapper::invalid`: when active, counts the invalidation on 64 bits and
requests a remap when the count is not 0 and a multiple of the period. -/
def invalid (m : SimpleEVRemapper) : SimpleEVRemapper :=
  if !m.active then m
  else
    let cnt := (m.cnt_invalid + 1) % 2 ^ 64
    if cnt ≠ 0 ∧ cnt % m.period = 0 then { m with cnt_invalid := cnt, remap := true }
    else { m with cnt_invalid := cnt }

/-- The monitor after `n` invalidation events. -/
def invalid_n (m : SimpleEVRemapper) : Nat → SimpleEVRemapper
  | 0 => m
  | n + 1 => (m.invalid_n n).invalid

/-- `SimpleEVRemapper` does not override `magic_func`: the call is that of
`RemapperBase`. -/
def magic_func (m : SimpleEVRemapper) (magic_id : Nat) (magic_data : Option Bool) :
    Option (Bool × SimpleEVRemapper × Option Bool) :=
  (m.toRemapperBase.magic_func magic_id magic_data).map
    fun r => (r.1, { m with toRemapperBase := r.2.1 }, r.2.2)

end SimpleEVRemapper

/-- The state of a `ZSEVRemapper<IW>` that `magic_func` touches: the
`RemapperBase`, the two periods, the eviction counters `evicts` and the smoothed
scores `set_evict_history`, indexed by the set.  The scores are `double`s: `D`
stands for their type.  `factor`, `threshold` and the methods that compute with
them are not modelled. -/
structure ZSEVRemapper (D : Type) extends RemapperBase where
  access_period : Nat
  evict_period : Nat
  evicts : Nat → Nat
  set_evict_history : Nat → D

/-- `ZSEVRemapper::magic_func`; `dzero` is the `double` 0.0. -/
def ZSEVRemapper.magic_func {D : Type} (dzero : D) (m : ZSEVRemapper D) (magic_id : Nat)
    (magic_data : Option Bool) : Option (Bool × ZSEVRemapper D × Option Bool) :=
  if magic_id = MAGIC_ID_REMAP_ASK then
    if m.remap_enable then
      match magic_data with
      | none => none
      | some b =>
        some (true, (if m.remap then { m with active := false } else m), some (b || m.remap))
    else some (true, m, magic_data)
  else if magic_id = MAGIC_ID_REMAP_END then
    some (true,
      { m with remap := false, active := true, cnt_access := 0, cnt_miss := 0, cnt_write := 0,
               cnt_write_miss := 0, cnt_invalid := 0, evicts := fun _ => 0,
               set_evict_history := fun _ => dzero },
      magic_data)
  else some (false, m, magic_data)

/-! ## Performance-counter commands (`flexicas-pfc.h`) -/

/-- `FLEXICAS_PFC_ADDR`. -/
def FLEXICAS_PFC_ADDR : Nat := 0x00ffffffffffffff

/-- `FLEXICAS_PFC_ADDR_SIGN`. -/
def FLEXICAS_PFC_ADDR_SIGN : Nat := 0x0080000000000000

/-- `FLEXICAS_PFC_ADDR_NEGF`. -/
def FLEXICAS_PFC_ADDR_NEGF : Nat := 0xff00000000000000

/-- The macro `FLEXICAS_PFC_EXTRACT_ADDR(cmd)` on a 64-bit command word. -/
def FLEXICAS_PFC_EXTRACT_ADDR (cmd : Nat) : Nat :=
  if cmd &&& FLEXICAS_PFC_ADDR_SIGN ≠ 0 then FLEXICAS_PFC_ADDR_NEGF ||| (cmd &&& FLEXICAS_PFC_ADDR)
  else cmd &&& FLEXICAS_PFC_ADDR

/-- A cache of one partition, two sets and one way whose metadata has 36-bit
addresses with the tag above bit 6, a tag of 30 bits.  The hash of seed 0 is 1;
the hash of any other seed is 1 for the addresses of tag 0 and 0 for all
others, so it reads an address only through its tag bits. -/
def ex_params_wide : CacheParams :=
  { IW := 1, NW := 1, P := 1, mp := ⟨36, 0, 6⟩,
    hash := fun seed a =>
      if seed = 0 then 1 else if (a >>> 6) &&& Meta.mask ⟨36, 0, 6⟩ = 0 then 1 else 0 }

/-- A cache over `ex_params_wide` holding the address `0x800000000` (tag
`0x20000000`) in set 1, where the current indexer (seed 0) puts it; the next
indexer (seed 1) puts it in set 0. -/
def ex_cache_wide : CacheRemap :=
  { arrays := fun p s w =>
      if p = 0 ∧ s = 1 ∧ w = 0 then ex_line 0x20000000 else Meta.fresh .MetadataMSI_Brodcast,
    indexer := ⟨[0]⟩, indexer_next := ⟨[1]⟩, indexer_seed_next := [1],
    remap_pointer := fun _ => 0, remap := false }

/-! ## Bit-level facts about the sharer word -/

theorem sharer_bit_eq {t : Int} (h0 : 0 ≤ t) (h64 : t < 64) : sharer_bit t = 2 ^ t.toNat := by
  unfold sharer_bit
  rw [Nat.one_shiftLeft]
  apply Nat.mod_eq_of_lt
  apply Nat.pow_lt_pow_right (by decide)
  omega

theorem two_pow_and_ne_zero (n s : Nat) : ((2 ^ n &&& s) != 0) = s.testBit n := by
  cases hb : s.testBit n
  · have : 2 ^ n &&& s = 0 := by
      apply Nat.eq_of_testBit_eq
      intro i
      rw [Nat.testBit_and, Nat.testBit_two_pow, Nat.zero_testBit]
      by_cases hni : n = i
      · subst hni; simp [hb]
      · simp [hni]
    simp [this]
  · have h1 : (2 ^ n &&& s).testBit n = true := by
      rw [Nat.testBit_and, Nat.testBit_two_pow_self, hb]; rfl
    have : 2 ^ n &&& s ≠ 0 := by
      intro h0
      rw [h0, Nat.zero_testBit] at h1
      exact Bool.noConfusion h1
    simp [this]

theorem is_sharer_eq_testBit (s : Nat) {t : Int} (h0 : 0 ≤ t) (h64 : t < 64) :
    is_sharer s t = s.testBit t.toNat := by
  unfold is_sharer
  rw [sharer_bit_eq h0 h64, two_pow_and_ne_zero]

theorem testBit_delete_sharer (s : Nat) {t : Int} (h0 : 0 ≤ t) (h64 : t < 64) (i : Nat) :
    (delete_sharer s t).testBit i = (s.testBit i && decide (i < 64) && decide (i ≠ t.toNat)) := by
  unfold delete_sharer
  rw [sharer_bit_eq h0 h64, Nat.testBit_and]
  have hlt : 2 ^ t.toNat < 2 ^ 64 := Nat.pow_lt_pow_right (by decide) (by omega)
  have hsub : 2 ^ 64 - 1 - 2 ^ t.toNat = 2 ^ 64 - (2 ^ t.toNat + 1) := by omega
  rw [hsub, Nat.testBit_two_pow_sub_succ hlt, Nat.testBit_two_pow]
  by_cases h1 : i < 64 <;> by_cases h2 : i = t.toNat <;> simp [h1, h2, eq_comm]

theorem testBit_add_sharer (s : Nat) {t : Int} (h0 : 0 ≤ t) (h64 : t < 64) (i : Nat) :
    (add_sharer s t).testBit i = (s.testBit i || decide (i = t.toNat)) := by
  unfold add_sharer
  rw [sharer_bit_eq h0 h64, Nat.testBit_or, Nat.testBit_two_pow]
  by_cases h2 : i = t.toNat <;> simp [h2, eq_comm]

/-! ## The MSI policy decisions -/

/-- C4: on a policy that is not L1, a write-acquire needs a sync by an evict-probe
that carries the originator's id, and any other acquire (a read-acquire) defers
to `need_sync(meta, cmd.id)`. -/
theorem acquire_need_sync_not_L1 (p : MSIPolicy) (cmd : coh_cmd_t) (meta : Meta)
    (hL1 : p.isL1 = false) (hacq : MSIPolicy.base.is_acquire cmd = true) :
    (MSIPolicy.base.is_fetch_write cmd = true →
      ∃ probe : coh_cmd_t, p.acquire_need_sync cmd meta = some (true, probe) ∧
        MSIPolicy.base.is_probe probe = true ∧ MSIPolicy.base.is_evict probe = true ∧
        probe.id = cmd.id) ∧
    (MSIPolicy.base.is_fetch_write cmd = false →
      p.acquire_need_sync cmd meta = some (p.need_sync meta cmd.id)) := by
  constructor
  · intro hw
    refine ⟨⟨cmd.id, MSIPolicy.base.probe_msg, MSIPolicy.base.evict_act⟩, ?_, rfl, rfl, rfl⟩
    simp [MSIPolicy.acquire_need_sync, hL1, hacq, hw]
  · intro hw
    simp [MSIPolicy.acquire_need_sync, hL1, hacq, hw]

/-- Witness of C4 (Scenario C): the L2 policy answers the write-acquire of inner
cache 0 with an evict-probe. -/
theorem acquire_need_sync_not_L1_witness :
    (MSIPolicy.base.is_fetch_write ⟨0, 1, 1⟩ = true →
      ∃ probe : coh_cmd_t,
        MSIPolicy.acquire_need_sync ⟨false, false, MSIPolicy.base, fun _ _ => (false, cmd_for_null)⟩
          ⟨0, 1, 1⟩ (Meta.fresh .MetadataMSI_Brodcast) = some (true, probe) ∧
        MSIPolicy.base.is_probe probe = true ∧ MSIPolicy.base.is_evict probe = true ∧
        probe.id = (⟨0, 1, 1⟩ : coh_cmd_t).id) ∧
    (MSIPolicy.base.is_fetch_write ⟨0, 1, 1⟩ = false →
      MSIPolicy.acquire_need_sync ⟨false, false, MSIPolicy.base, fun _ _ => (false, cmd_for_null)⟩
          ⟨0, 1, 1⟩ (Meta.fresh .MetadataMSI_Brodcast) =
        some ((fun (_ : Meta) (_ : Int) => (false, cmd_for_null))
          (Meta.fresh .MetadataMSI_Brodcast) (⟨0, 1, 1⟩ : coh_cmd_t).id)) :=
  acquire_need_sync_not_L1 ⟨false, false, MSIPolicy.base, fun _ _ => (false, cmd_for_null)⟩
    ⟨0, 1, 1⟩ (Meta.fresh .MetadataMSI_Brodcast) rfl rfl

/-- C5: `probe_need_probe` answers `(true, cmd with id = -1)` exactly when the
command is an evict- or writeback-probe, the target differs from the requester
and, with the directory support, the target is a sharer; otherwise it answers
`(false, null)`.  The two metadata tests behave as the spec says. -/
theorem probe_need_probe_spec (cmd : coh_cmd_t) (meta : Meta) (t : Int)
    (hprobe : MSIPolicy.base.is_probe cmd = true) (h0 : 0 ≤ t) (h64 : t < 64) :
    MSIPolicy.probe_need_probe cmd meta t =
      (if (MSIPolicy.base.is_evict cmd = true ∨ MSIPolicy.base.is_writeback cmd = true) ∧
          t ≠ cmd.id ∧
          (meta.cls.hasDirectorySupport = true → meta.sharer.testBit t.toNat = true)
        then some (true, { id := -1, msg := cmd.msg, act := cmd.act })
        else some (false, cmd_for_null)) ∧
    (∀ r : Int, meta.cls.hasDirectorySupport = true → meta.writeback_need_probe t r = true →
      meta.sharer.testBit t.toNat = true ∧ t ≠ r) ∧
    (∀ r : Int, meta.cls.hasDirectorySupport = false →
      meta.evict_need_probe t r = (t != r) ∧
      meta.writeback_need_probe t r = (t != r)) := by
  refine ⟨?_, ?_, ?_⟩
  · unfold MSIPolicy.probe_need_probe Meta.evict_need_probe Meta.writeback_need_probe
    rw [is_sharer_eq_testBit _ h0 h64]
    cases hd : meta.cls.hasDirectorySupport <;> cases he : MSIPolicy.base.is_evict cmd <;>
      cases hw : MSIPolicy.base.is_writeback cmd <;> cases hb : meta.sharer.testBit t.toNat <;>
      by_cases hne : t = cmd.id <;> simp [hprobe, hne]
  · intro r hd hw
    unfold Meta.writeback_need_probe at hw
    rw [is_sharer_eq_testBit _ h0 h64] at hw
    simpa [hd] using hw
  · intro r hd
    simp [Meta.evict_need_probe, Meta.writeback_need_probe, hd]

/-- Witness of C5: an evict-probe from inner cache 0 on a directory entry with
sharers 0, 1 and 2, asked for target 1. -/
theorem probe_need_probe_spec_witness :
    MSIPolicy.base.is_probe ⟨0, 3, 2⟩ = true ∧
    MSIPolicy.probe_need_probe ⟨0, 3, 2⟩ ex_directory_meta 1 = some (true, ⟨-1, 3, 2⟩) := by
  have h := (probe_need_probe_spec ⟨0, 3, 2⟩ ex_directory_meta 1 rfl (by decide)
    (by decide)).1
  refine ⟨rfl, ?_⟩
  rw [h]
  decide

/-- C6: on a directory entry (class `MetadataMSIDirectory`, directory flag set)
an evict-probe acknowledgement from `inner_id` removes exactly `inner_id` from
the sharers and leaves state, dirty bit, tag and directory flag as they were. -/
theorem meta_after_probe_ack_directory_evict (cmd : coh_cmd_t) (meta : Meta) (inner_id : Int)
    (hprobe : MSIPolicy.base.is_probe cmd = true) (hev : MSIPolicy.base.is_evict cmd = true)
    (hcls : meta.cls = .MetadataMSIDirectory) (hdir : meta.is_directory = true)
    (h0 : 0 ≤ inner_id) (h64 : inner_id < 64) :
    ∃ m : Meta, MSIPolicy.meta_after_probe_ack cmd meta inner_id = some m ∧
      (∀ j : Int, 0 ≤ j → j < 64 →
        is_sharer m.sharer j = (is_sharer meta.sharer j && (j != inner_id))) ∧
      m.state = meta.state ∧ m.dirty = meta.dirty ∧ m.tag = meta.tag ∧
      m.directory = meta.directory ∧ m.cls = meta.cls := by
  have hne : inner_id ≠ -1 := by omega
  refine ⟨{ meta with sharer := delete_sharer meta.sharer inner_id }, ?_, ?_, rfl, rfl, rfl,
    rfl, rfl⟩
  · simp [MSIPolicy.meta_after_probe_ack, hprobe, hev, hdir, Meta.sync, hcls, hne]
  · intro j hj0 hj64
    rw [is_sharer_eq_testBit _ hj0 hj64, is_sharer_eq_testBit _ hj0 hj64]
    show (delete_sharer meta.sharer inner_id).testBit j.toNat = _
    rw [testBit_delete_sharer _ h0 h64]
    have hjn : j.toNat < 64 := by omega
    by_cases hji : j = inner_id
    · subst hji; simp
    · have : j.toNat ≠ inner_id.toNat := by omega
      simp [hjn, hji, this]

/-- Witness of C6 (Scenario D): sharers 0, 1 and 2, acknowledgement from inner
cache 1; the sharers left are 0 and 2. -/
theorem meta_after_probe_ack_directory_evict_witness :
    (∃ m : Meta,
      MSIPolicy.meta_after_probe_ack ⟨1, 3, 2⟩ ex_directory_meta 1 = some m ∧
      (∀ j : Int, 0 ≤ j → j < 64 →
        is_sharer m.sharer j = (is_sharer (7 : Nat) j && (j != 1))) ∧
      m.state = 1 ∧ m.dirty = false ∧ m.tag = 0 ∧ m.directory = true ∧
      m.cls = .MetadataMSIDirectory) ∧
    MSIPolicy.meta_after_probe_ack ⟨1, 3, 2⟩ ex_directory_meta 1 =
      some { Meta.fresh .MetadataMSIDirectory with state := 1, directory := true, sharer := 5 } :=
  ⟨meta_after_probe_ack_directory_evict ⟨1, 3, 2⟩ ex_directory_meta 1
    rfl rfl rfl rfl (by decide) (by decide), by decide⟩

/-- With the directory flag clear, `meta_after_probe_ack` leaves the entry as it is,
whatever the probe. -/
theorem meta_after_probe_ack_flag_clear (cmd : coh_cmd_t) (meta : Meta) (inner_id : Int)
    (hprobe : MSIPolicy.base.is_probe cmd = true) (hdir : meta.is_directory = false) :
    MSIPolicy.meta_after_probe_ack cmd meta inner_id = some meta := by
  simp [MSIPolicy.meta_after_probe_ack, hprobe, hdir]

/-- With the directory flag set, a writeback-probe acknowledgement applies
`to_shared(inner_id)`. -/
theorem meta_after_probe_ack_flag_set_writeback (cmd : coh_cmd_t) (meta : Meta)
    (inner_id : Int) (hprobe : MSIPolicy.base.is_probe cmd = true)
    (hev : MSIPolicy.base.is_evict cmd = false) (hdir : meta.is_directory = true) :
    MSIPolicy.meta_after_probe_ack cmd meta inner_id = some (meta.to_shared inner_id) := by
  simp [MSIPolicy.meta_after_probe_ack, hprobe, hdir, hev]

/-- C7, the code at the failing input: an evict-probe acknowledgement on an entry
whose directory flag is clear leaves the entry as it was, here Invalid, where
the specification has it Shared with no owner. -/
theorem meta_after_probe_ack_nondirectory_evict_unchanged :
    MSIPolicy.meta_after_probe_ack ⟨0, 3, 2⟩ (Meta.fresh .MetadataMSI_Brodcast) 0 =
        some (Meta.fresh .MetadataMSI_Brodcast) ∧
    MSIPolicy.base.is_probe ⟨0, 3, 2⟩ = true ∧ MSIPolicy.base.is_evict ⟨0, 3, 2⟩ = true ∧
    (Meta.fresh .MetadataMSI_Brodcast).is_directory = false ∧
    (Meta.fresh .MetadataMSI_Brodcast).is_shared = false ∧
    (Meta.fresh .MetadataMSI_Brodcast).to_shared (-1) ≠ Meta.fresh .MetadataMSI_Brodcast := by
  decide

/-- C8, the code at the failing input: a writeback-probe acknowledgement from
inner cache 1 on an entry whose directory flag is clear leaves the entry as it
was, here Invalid with no sharer, where the specification has it Shared with sharer 1. -/
theorem meta_after_probe_ack_writeback_nondirectory_unchanged :
    MSIPolicy.meta_after_probe_ack ⟨0, 3, 3⟩ (Meta.fresh .MetadataMSIDirectory) 1 =
        some (Meta.fresh .MetadataMSIDirectory) ∧
    MSIPolicy.base.is_probe ⟨0, 3, 3⟩ = true ∧ MSIPolicy.base.is_writeback ⟨0, 3, 3⟩ = true ∧
    (Meta.fresh .MetadataMSIDirectory).is_directory = false ∧
    (Meta.fresh .MetadataMSIDirectory).is_shared = false ∧
    is_sharer (Meta.fresh .MetadataMSIDirectory).sharer 1 = false ∧
    MSIPolicy.meta_after_probe_ack ⟨0, 3, 3⟩ (Meta.fresh .MetadataMSI_Brodcast) 1 =
        some (Meta.fresh .MetadataMSI_Brodcast) := by
  decide

/-- C9: a policy with `isL1` set never asks for a sync: `acquire_need_sync` and
`probe_need_sync` return `(false, null)` for every command and metadata. -/
theorem L1_quiescence (p : MSIPolicy) (cmd outer_cmd : coh_cmd_t) (meta : Meta)
    (hL1 : p.isL1 = true) :
    p.acquire_need_sync cmd meta = some (false, cmd_for_null) ∧
    p.probe_need_sync outer_cmd meta = some (false, cmd_for_null) := by
  simp [MSIPolicy.acquire_need_sync, MSIPolicy.probe_need_sync, hL1]

/-- Witness of C9: an L1 policy asked about a write-acquire and an evict-probe. -/
theorem L1_quiescence_witness :
    MSIPolicy.acquire_need_sync ⟨true, false, MSIPolicy.base, fun _ _ => (true, ⟨0, 3, 3⟩)⟩
        ⟨0, 1, 1⟩ (Meta.fresh .MetadataMSI_Brodcast) = some (false, cmd_for_null) ∧
    MSIPolicy.probe_need_sync ⟨true, false, MSIPolicy.base, fun _ _ => (true, ⟨0, 3, 3⟩)⟩
        ⟨-1, 3, 2⟩ (Meta.fresh .MetadataMSI_Brodcast) = some (false, cmd_for_null) :=
  L1_quiescence ⟨true, false, MSIPolicy.base, fun _ _ => (true, ⟨0, 3, 3⟩)⟩ ⟨0, 1, 1⟩ ⟨-1, 3, 2⟩
    (Meta.fresh .MetadataMSI_Brodcast) rfl

/-- C10, counterexample: `init` does not touch the sharers, so a directory entry
that had sharer 0 still has it after `meta_after_release`; and a dirty `meta`
stays dirty through `to_invalid`, so the assertion stops the call. -/
theorem meta_after_release_counterexample :
    (ExclusiveMSIPolicy.meta_after_release ⟨16, 2, 8⟩ ⟨0, 2, 2⟩
        { Meta.fresh .MetadataMSIDirectory with state := 1, directory := true, sharer := 1 }
        none 0x1200 false).map (fun r => (r.1.sharer, is_sharer r.1.sharer 0)) =
      some (1, true) ∧
    ExclusiveMSIPolicy.meta_after_release ⟨16, 2, 8⟩ ⟨0, 2, 2⟩
        (Meta.fresh .MetadataMSI_Brodcast)
        (some { Meta.fresh .MetadataMSIDirectory with state := 2, dirty := true })
        0x1200 false = none := by
  decide

/-- C10, amended: when `meta` is null or clean, `meta_after_release` returns;
`mmeta` then matches `addr`, is Shared, its dirty bit is the `dirty` argument,
and no sharer was added: sharers and directory flag are those it had before
(so it has no sharer when it had none); `meta`, when not null, is Invalid. -/
theorem meta_after_release_spec (c : MetaParams) (cmd : coh_cmd_t) (mmeta : Meta)
    (meta : Option Meta) (addr : Nat) (dirty : Bool)
    (hclean : ∀ x, meta = some x → x.is_dirty = false) :
    ∃ m2 : Meta, ∃ meta2 : Option Meta,
      ExclusiveMSIPolicy.meta_after_release c cmd mmeta meta addr dirty = some (m2, meta2) ∧
      m2.match c addr = true ∧ m2.is_shared = true ∧ m2.is_dirty = dirty ∧
      m2.sharer = mmeta.sharer ∧ m2.directory = mmeta.directory ∧
      (mmeta.sharer = 0 → ∀ j : Int, is_sharer m2.sharer j = false) ∧
      (meta = none → meta2 = none) ∧
      (∀ x, meta = some x → ∃ y, meta2 = some y ∧ y.is_valid = false) := by
  have hnd : ((meta.map Meta.to_invalid).map Meta.is_dirty).getD false = false := by
    cases meta with
    | none => rfl
    | some x =>
      have := hclean x rfl
      simp only [Option.map, Option.getD]
      unfold Meta.to_invalid Meta.is_dirty at *
      cases x.cls <;> simpa using this
  have hshared : ∀ m : Meta, (m.to_shared (-1)) = { m with state := 1 } := by
    intro m
    unfold Meta.to_shared
    cases m.cls <;> simp
  refine ⟨if dirty then ((Meta.init c mmeta addr).to_shared (-1)).to_dirty
      else (Meta.init c mmeta addr).to_shared (-1), meta.map Meta.to_invalid, ?_, ?_, ?_, ?_, ?_,
      ?_, ?_, ?_, ?_⟩
  · simp only [ExclusiveMSIPolicy.meta_after_release, hnd]
    rfl
  · rw [hshared]; cases dirty <;> simp [Meta.match, Meta.init, Meta.to_dirty, Meta.is_valid]
  · rw [hshared]; cases dirty <;> simp [Meta.is_shared, Meta.init, Meta.to_dirty]
  · rw [hshared]; cases dirty <;> simp [Meta.is_dirty, Meta.init, Meta.to_dirty]
  · rw [hshared]; cases dirty <;> simp [Meta.init, Meta.to_dirty]
  · rw [hshared]; cases dirty <;> simp [Meta.init, Meta.to_dirty]
  · intro hs j
    rw [hshared]
    have : ∀ s, s = 0 → is_sharer s j = false := by
      intro s h; subst h; simp [is_sharer]
    cases dirty <;> exact this _ (by simpa [Meta.init, Meta.to_dirty] using hs)
  · intro h; subst h; rfl
  · intro x h
    subst h
    refine ⟨x.to_invalid, rfl, ?_⟩
    unfold Meta.to_invalid Meta.is_valid
    cases x.cls <;> simp

/-- Witness of C10: the release of a dirty line of address `0x1200` into a fresh
cache entry, with a clean directory entry at hand. -/
theorem meta_after_release_spec_witness :
    (∀ x, some ex_directory_meta = some x → x.is_dirty = false) ∧
    ∃ m2 : Meta, ∃ meta2 : Option Meta,
      ExclusiveMSIPolicy.meta_after_release ⟨16, 2, 8⟩ ⟨0, 2, 2⟩
        (Meta.fresh .MetadataMSI_Brodcast) (some ex_directory_meta) 0x1200 true
        = some (m2, meta2) ∧
      m2.match ⟨16, 2, 8⟩ 0x1200 = true ∧ m2.is_shared = true ∧ m2.is_dirty = true ∧
      ∃ y, meta2 = some y ∧ y.is_valid = false :=
  ⟨by intro x hx; cases hx; rfl,
   match meta_after_release_spec ⟨16, 2, 8⟩ ⟨0, 2, 2⟩ (Meta.fresh .MetadataMSI_Brodcast)
      (some ex_directory_meta) 0x1200 true (by intro x hx; cases hx; rfl) with
   | ⟨m2, meta2, h1, h2, h3, h4, _, _, _, _, h9⟩ =>
     ⟨m2, meta2, h1, h2, h3, h4, h9 ex_directory_meta rfl⟩⟩

/-! ## Lookup in the remap-capable cache -/

theorem findSome_range_eq_none {β : Type} (f : Nat → Option β) (n : Nat) :
    (List.range n).findSome? f = none ↔ ∀ i, i < n → f i = none := by
  rw [List.findSome?_eq_none_iff]
  constructor
  · intro h i hi; exact h i (List.mem_range.mpr hi)
  · intro h i hi; exact h i (List.mem_range.mp hi)

theorem findSome_range_eq_some {β : Type} (f : Nat → Option β) (n : Nat) (b : β) :
    (List.range n).findSome? f = some b ↔
      ∃ i, i < n ∧ f i = some b ∧ ∀ j, j < i → f j = none := by
  induction n generalizing b with
  | zero => simp
  | succ n ih =>
    rw [List.range_succ, List.findSome?_append]
    cases hprev : (List.range n).findSome? f with
    | some b2 =>
      rw [Option.or_some]
      constructor
      · intro hb
        rw [hb] at hprev
        obtain ⟨i, hi, hfi, hmin⟩ := (ih b).mp hprev
        exact ⟨i, Nat.lt_succ_of_lt hi, hfi, hmin⟩
      · rintro ⟨i, hi, hfi, hmin⟩
        obtain ⟨i2, hi2, hfi2, hmin2⟩ := (ih b2).mp hprev
        rcases Nat.lt_trichotomy i i2 with hlt | heq | hgt
        · rw [hmin2 i hlt] at hfi; exact Option.noConfusion hfi
        · subst heq; rw [hfi] at hfi2; exact hfi2.symm
        · rw [hmin i2 hgt] at hfi2; exact Option.noConfusion hfi2
    | none =>
      rw [Option.none_or]
      have hnone := (findSome_range_eq_none f n).mp hprev
      constructor
      · intro hb
        have hfn : f n = some b := by
          cases hf : f n with
          | none => simp [hf] at hb
          | some b3 => simp [hf] at hb; rw [hb]
        exact ⟨n, Nat.lt_succ_self n, hfn, hnone⟩
      · rintro ⟨i, hi, hfi, hmin⟩
        have hin : i = n := by
          rcases Nat.lt_or_ge i n with hlt | hge
          · rw [hnone i hlt] at hfi; exact Option.noConfusion hfi
          · omega
        subst hin
        simp [hfi]

theorem array_hit_eq_none (k : CacheParams) (arr : Nat → Nat → Meta) (addr s : Nat) :
    array_hit k arr addr s = none ↔ ∀ w, w < k.NW → (arr s w).match k.mp addr = false := by
  unfold array_hit
  rw [List.find?_eq_none]
  constructor
  · intro h w hw
    have := h w (List.mem_range.mpr hw)
    simpa using this
  · intro h w hw
    simp [h w (List.mem_range.mp hw)]

theorem array_hit_some (k : CacheParams) (arr : Nat → Nat → Meta) (addr s w : Nat)
    (h : array_hit k arr addr s = some w) : w < k.NW ∧ (arr s w).match k.mp addr = true := by
  unfold array_hit at h
  have h2 := List.find?_some h
  exact ⟨List.mem_range.mp (List.mem_of_find?_eq_some h), h2⟩

theorem array_hit_isSome (k : CacheParams) (arr : Nat → Nat → Meta) (addr s : Nat) :
    (∃ w, array_hit k arr addr s = some w) ↔
      ∃ w, w < k.NW ∧ (arr s w).match k.mp addr = true := by
  constructor
  · rintro ⟨w, hw⟩
    exact ⟨w, array_hit_some k arr addr s w hw⟩
  · rintro ⟨w, hw, hm⟩
    cases h : array_hit k arr addr s with
    | some w2 => exact ⟨w2, rfl⟩
    | none =>
      rw [(array_hit_eq_none k arr addr s).mp h w hw] at hm
      exact Bool.noConfusion hm

theorem hit_partition_eq_none (k : CacheParams) (c : CacheRemap) (addr ai : Nat) :
    c.hit_partition k addr ai = none ↔
      ¬ (c.remap_pointer ai ≤ c.indexer.index k addr ai ∧
          ∃ w, w < k.NW ∧ (c.access ai (c.indexer.index k addr ai) w).match k.mp addr = true) ∧
      ¬ ∃ w, w < k.NW ∧ (c.access ai (c.indexer_next.index k addr ai) w).match k.mp addr = true := by
  unfold CacheRemap.hit_partition CacheRemap.access
  simp only []
  rw [← array_hit_isSome, ← array_hit_isSome]
  by_cases hp : c.remap_pointer ai ≤ c.indexer.index k addr ai
  · cases h1 : array_hit k (c.arrays ai) addr (c.indexer.index k addr ai) with
    | some w => simp [hp, h1]
    | none =>
      cases h2 : array_hit k (c.arrays ai) addr (c.indexer_next.index k addr ai) <;>
        simp [hp, h1, h2]
  · cases h2 : array_hit k (c.arrays ai) addr (c.indexer_next.index k addr ai) <;>
      simp [hp, h2]

theorem hit_partition_eq_some (k : CacheParams) (c : CacheRemap) (addr ai p s w : Nat)
    (h : c.hit_partition k addr ai = some (p, s, w)) :
    p = ai ∧ w < k.NW ∧ (c.access p s w).match k.mp addr = true ∧
    (((c.remap_pointer ai ≤ c.indexer.index k addr ai ∧
          ∃ w2, w2 < k.NW ∧ (c.access ai (c.indexer.index k addr ai) w2).match k.mp addr = true) ∧
        s = c.indexer.index k addr ai) ∨
      (¬ (c.remap_pointer ai ≤ c.indexer.index k addr ai ∧
          ∃ w2, w2 < k.NW ∧ (c.access ai (c.indexer.index k addr ai) w2).match k.mp addr = true) ∧
        s = c.indexer_next.index k addr ai)) := by
  unfold CacheRemap.hit_partition at h
  simp only [] at h
  unfold CacheRemap.access
  by_cases hp : c.remap_pointer ai ≤ c.indexer.index k addr ai
  · cases h1 : array_hit k (c.arrays ai) addr (c.indexer.index k addr ai) with
    | some w1 =>
      simp [hp, h1] at h
      obtain ⟨rfl, rfl, rfl⟩ := h
      have hw := array_hit_some k _ _ _ _ h1
      exact ⟨rfl, hw.1, hw.2, Or.inl ⟨⟨hp, w1, hw.1, hw.2⟩, rfl⟩⟩
    | none =>
      have hno := (array_hit_eq_none k _ _ _).mp h1
      cases h2 : array_hit k (c.arrays ai) addr (c.indexer_next.index k addr ai) with
      | none => simp [hp, h1, h2] at h
      | some w1 =>
        simp [hp, h1, h2] at h
        obtain ⟨rfl, rfl, rfl⟩ := h
        have hw := array_hit_some k _ _ _ _ h2
        refine ⟨rfl, hw.1, hw.2, Or.inr ⟨?_, rfl⟩⟩
        rintro ⟨-, w2, hw2, hm⟩
        rw [hno w2 hw2] at hm
        exact Bool.noConfusion hm
  · cases h2 : array_hit k (c.arrays ai) addr (c.indexer_next.index k addr ai) with
    | none => simp [hp, h2] at h
    | some w1 =>
      simp [hp, h2] at h
      obtain ⟨rfl, rfl, rfl⟩ := h
      have hw := array_hit_some k _ _ _ _ h2
      exact ⟨rfl, hw.1, hw.2, Or.inr ⟨fun hc => hp hc.1, rfl⟩⟩

theorem hit_remap_eq (k : CacheParams) (c : CacheRemap) (addr : Nat) (hr : c.remap = true) :
    c.hit k addr = (List.range k.P).findSome? (c.hit_partition k addr) := by
  simp [CacheRemap.hit, hr]

theorem hit_remap_some_iff (k : CacheParams) (c : CacheRemap) (addr : Nat)
    (hr : c.remap = true) :
    (∃ r, c.hit k addr = some r) ↔
      ∃ p, p < k.P ∧
        ((c.remap_pointer p ≤ c.indexer.index k addr p ∧
            ∃ w, w < k.NW ∧ (c.access p (c.indexer.index k addr p) w).match k.mp addr = true) ∨
          ∃ w, w < k.NW ∧
            (c.access p (c.indexer_next.index k addr p) w).match k.mp addr = true) := by
  rw [hit_remap_eq k c addr hr]
  constructor
  · rintro ⟨⟨p, s, w⟩, h⟩
    obtain ⟨i, hi, hfi, -⟩ := (findSome_range_eq_some _ _ _).mp h
    obtain ⟨rfl, hw, hm, hsite⟩ := hit_partition_eq_some k c addr i p s w hfi
    refine ⟨p, hi, ?_⟩
    rcases hsite with ⟨hold, -⟩ | ⟨-, hs⟩
    · exact Or.inl hold
    · subst hs; exact Or.inr ⟨w, hw, hm⟩
  · rintro ⟨p, hp, hsite⟩
    cases h : (List.range k.P).findSome? (c.hit_partition k addr) with
    | some r => exact ⟨r, rfl⟩
    | none =>
      have hn := (hit_partition_eq_none k c addr p).mp
        ((findSome_range_eq_none _ _).mp h p hp)
      rcases hsite with hold | hnew
      · exact absurd hold hn.1
      · exact absurd hnew hn.2

/-- C1: while a remap is in progress, `hit` succeeds exactly when some partition
holds the address in the set of the current indexer at or above the remap
pointer, or in the set of the next indexer; the reported cell matches the
address, lies in the lowest such partition, and is in the old set whenever the
old set qualifies.  With no remap in progress the result is that of the plain
skewed cache. -/
theorem hit_remap_spec (k : CacheParams) (c : CacheRemap) (addr : Nat) :
    (c.remap = true →
      ((∃ r, c.hit k addr = some r) ↔
        ∃ p, p < k.P ∧
          ((c.remap_pointer p ≤ c.indexer.index k addr p ∧
              ∃ w, w < k.NW ∧ (c.access p (c.indexer.index k addr p) w).match k.mp addr = true) ∨
            ∃ w, w < k.NW ∧
              (c.access p (c.indexer_next.index k addr p) w).match k.mp addr = true)) ∧
      (∀ p s w, c.hit k addr = some (p, s, w) →
        p < k.P ∧ w < k.NW ∧ (c.access p s w).match k.mp addr = true ∧
        (∀ q, q < p →
          ¬ (c.remap_pointer q ≤ c.indexer.index k addr q ∧
              ∃ w2, w2 < k.NW ∧
                (c.access q (c.indexer.index k addr q) w2).match k.mp addr = true) ∧
          ¬ ∃ w2, w2 < k.NW ∧
              (c.access q (c.indexer_next.index k addr q) w2).match k.mp addr = true) ∧
        (((c.remap_pointer p ≤ c.indexer.index k addr p ∧
              ∃ w2, w2 < k.NW ∧
                (c.access p (c.indexer.index k addr p) w2).match k.mp addr = true) ∧
            s = c.indexer.index k addr p) ∨
          (¬ (c.remap_pointer p ≤ c.indexer.index k addr p ∧
              ∃ w2, w2 < k.NW ∧
                (c.access p (c.indexer.index k addr p) w2).match k.mp addr = true) ∧
            s = c.indexer_next.index k addr p)))) ∧
    (c.remap = false → c.hit k addr = c.skewed_hit k addr) := by
  refine ⟨fun hr => ⟨hit_remap_some_iff k c addr hr, ?_⟩, fun hr => by simp [CacheRemap.hit, hr]⟩
  intro p s w h
  rw [hit_remap_eq k c addr hr] at h
  obtain ⟨i, hi, hfi, hmin⟩ := (findSome_range_eq_some _ _ _).mp h
  obtain ⟨rfl, hw, hm, hsite⟩ := hit_partition_eq_some k c addr i p s w hfi
  exact ⟨hi, hw, hm, fun q hq => (hit_partition_eq_none k c addr q).mp (hmin q hq), hsite⟩

/-- Witness of C1: the example cache with a remap just started; address `0x200`
is found in its old set, in partition 0, set 0, way 0. -/
theorem hit_remap_spec_witness :
    ex_cache.remap_start.remap = true ∧
    ex_cache.remap_start.hit ex_params 0x200 = some (0, 0, 0) ∧
    0 < ex_params.P ∧ 0 < ex_params.NW ∧
    (ex_cache.remap_start.access 0 0 0).match ex_params.mp 0x200 = true :=
  ⟨rfl, by decide,
   (((hit_remap_spec ex_params ex_cache.remap_start 0x200).1 rfl).2 0 0 0 (by decide)).1,
   (((hit_remap_spec ex_params ex_cache.remap_start 0x200).1 rfl).2 0 0 0 (by decide)).2.1,
   (((hit_remap_spec ex_params ex_cache.remap_start 0x200).1 rfl).2 0 0 0 (by decide)).2.2.1⟩

/-! ## Metadata facts used by the remap -/

theorem Meta.mask_eq (mp : MetaParams) : Meta.mask mp = 2 ^ (mp.AW - mp.TOfst) - 1 := by
  unfold Meta.mask
  rw [Nat.one_shiftLeft]

theorem Meta.match_iff (mp : MetaParams) (m : Meta) (A : Nat) :
    m.match mp A = true ↔
      m.is_valid = true ∧ (A >>> mp.TOfst) &&& Meta.mask mp = m.tag := by
  unfold Meta.match
  simp

theorem Meta.match_congr (mp : MetaParams) (m1 m2 : Meta) (A : Nat)
    (hs : m1.state = m2.state) (ht : m1.tag = m2.tag) : m1.match mp A = m2.match mp A := by
  unfold Meta.match Meta.is_valid
  rw [hs, ht]

theorem Meta.is_valid_congr (m1 m2 : Meta) (hs : m1.state = m2.state) :
    m1.is_valid = m2.is_valid := by
  unfold Meta.is_valid
  rw [hs]

theorem Meta.match_valid (mp : MetaParams) (m : Meta) (A : Nat) (h : m.match mp A = true) :
    m.is_valid = true := ((Meta.match_iff mp m A).mp h).1

/-- The address rebuilt from an entry has the tag bits of every address the entry
matches. -/
theorem Meta.match_addr (mp : MetaParams) (m : Meta) (A s : Nat)
    (hIW : mp.IW ≤ mp.TOfst) (hAW : mp.AW ≤ 64) (hint : mp.AW - mp.TOfst ≤ 31 → mp.AW ≤ 31)
    (huint : mp.AW - mp.TOfst = 32 → mp.AW ≤ 32) (h : m.match mp A = true) :
    (m.addr mp s >>> mp.TOfst) &&& Meta.mask mp = (A >>> mp.TOfst) &&& Meta.mask mp := by
  obtain ⟨-, ht⟩ := (Meta.match_iff mp m A).mp h
  rw [ht]
  rw [Meta.mask_eq, Nat.and_pow_two_sub_one_eq_mod] at ht ⊢
  have htag : m.tag < 2 ^ (mp.AW - mp.TOfst) := by
    rw [← ht]; exact Nat.mod_lt _ (Nat.two_pow_pos _)
  have hT : 0 < 2 ^ mp.TOfst := Nat.two_pow_pos _
  have hbound : ∀ n, mp.AW ≤ n → 2 ^ mp.TOfst * m.tag < 2 ^ n := by
    intro n hn
    by_cases hle : mp.TOfst ≤ mp.AW
    · calc 2 ^ mp.TOfst * m.tag < 2 ^ mp.TOfst * 2 ^ (mp.AW - mp.TOfst) :=
            Nat.mul_lt_mul_of_pos_left htag hT
        _ = 2 ^ mp.AW := by rw [← Nat.pow_add]; congr 1; omega
        _ ≤ 2 ^ n := Nat.pow_le_pow_right (by decide) hn
    · have h0 : mp.AW - mp.TOfst = 0 := by omega
      rw [h0] at htag
      have : m.tag = 0 := by omega
      rw [this, Nat.mul_zero]
      exact Nat.two_pow_pos n
  have hhigh : Meta.shifted_tag mp m.tag = 2 ^ mp.TOfst * m.tag := by
    unfold Meta.shifted_tag
    rw [Nat.shiftLeft_eq, Nat.mul_comm]
    by_cases h31 : mp.AW - mp.TOfst ≤ 31
    · have hb := hbound 31 (hint h31)
      have hb32 : 2 ^ mp.TOfst * m.tag < 2 ^ 32 :=
        Nat.lt_trans hb (by decide)
      rw [if_pos h31]
      simp only []
      rw [Nat.mod_eq_of_lt hb32, if_pos hb]
    · rw [if_neg h31]
      by_cases h32 : mp.AW - mp.TOfst = 32
      · rw [if_pos h32]
        exact Nat.mod_eq_of_lt (hbound 32 (huint h32))
      · rw [if_neg h32]
        exact Nat.mod_eq_of_lt (hbound 64 hAW)
  have hlow : ((s &&& ((1 <<< mp.IW) - 1)) <<< (mp.TOfst - mp.IW)) % 2 ^ 32 < 2 ^ mp.TOfst := by
    apply Nat.lt_of_le_of_lt (Nat.mod_le _ _)
    rw [Nat.shiftLeft_eq, Nat.one_shiftLeft, Nat.and_pow_two_sub_one_eq_mod]
    calc s % 2 ^ mp.IW * 2 ^ (mp.TOfst - mp.IW)
        < 2 ^ mp.IW * 2 ^ (mp.TOfst - mp.IW) :=
          Nat.mul_lt_mul_of_pos_right (Nat.mod_lt _ (Nat.two_pow_pos _)) (Nat.two_pow_pos _)
      _ = 2 ^ mp.TOfst := by rw [← Nat.pow_add]; congr 1; omega
  have hshape : ∃ low, low < 2 ^ mp.TOfst ∧ m.addr mp s = 2 ^ mp.TOfst * m.tag + low := by
    unfold Meta.addr
    simp only []
    by_cases hiw : 0 < mp.IW
    · rw [if_pos hiw, hhigh]
      exact ⟨_, hlow, (Nat.mul_add_lt_is_or hlow _).symm⟩
    · rw [if_neg hiw, hhigh]
      exact ⟨0, hT, rfl⟩
  obtain ⟨low, hl, haddr⟩ := hshape
  rw [haddr, Nat.shiftRight_eq_div_pow, Nat.mul_add_div hT, Nat.div_eq_of_lt hl, Nat.add_zero]
  exact Nat.mod_eq_of_lt htag

theorem relocate_snd_state (k : CacheParams) (a : Nat) (s d : Meta) :
    (CacheRemap.relocate k a s d).2.state = s.state ∧
    (CacheRemap.relocate k a s d).2.tag = s.tag ∧
    (CacheRemap.relocate k a s d).2.relocated = d.relocated := by
  simp [CacheRemap.relocate, Meta.copy, Meta.init]

theorem relocate_fst_invalid (k : CacheParams) (a : Nat) (s d : Meta) :
    (CacheRemap.relocate k a s d).1.is_valid = false := by
  unfold CacheRemap.relocate Meta.to_invalid Meta.to_clean Meta.is_valid
  cases s.cls <;> simp

theorem swap_state (k : CacheParams) (a b : Nat) (m c : Meta) :
    (CacheRemap.swap k a b m c).1.state = c.state ∧ (CacheRemap.swap k a b m c).1.tag = c.tag ∧
    (CacheRemap.swap k a b m c).2.state = m.state ∧ (CacheRemap.swap k a b m c).2.tag = m.tag := by
  simp [CacheRemap.swap, CacheRemap.relocate, Meta.copy, Meta.init]

theorem to_relocated_state (m : Meta) :
    m.to_relocated.state = m.state ∧ m.to_relocated.tag = m.tag ∧
    m.to_relocated.relocated = true := ⟨rfl, rfl, rfl⟩

theorem evict_meta_invalid (m : Meta) : (evict_meta m).is_valid = false := by
  unfold evict_meta Meta.to_invalid Meta.is_valid
  cases m.cls <;> simp

/-! ## One step of the relocation chain -/

theorem CacheParams.nset_eq (k : CacheParams) : k.nset = 2 ^ k.IW := by
  unfold CacheParams.nset
  rw [Nat.one_shiftLeft]

theorem CacheParams.nset_pos (k : CacheParams) : 0 < k.nset := by
  rw [k.nset_eq]; exact Nat.two_pow_pos _

theorem IndexSkewed.index_lt (k : CacheParams) (ix : IndexSkewed) (addr p : Nat) :
    ix.index k addr p < k.nset := Nat.mod_lt _ k.nset_pos

theorem IndexSkewed.index_congr (k : CacheParams) (ix : IndexSkewed) (p A B : Nat)
    (h : ∀ seed, k.hash seed A = k.hash seed B) : ix.index k A p = ix.index k B p := by
  unfold IndexSkewed.index
  rw [h]

theorem CacheRemap.replace_relocate (k : CacheParams) (hwf : k.WF) (c : CacheRemap)
    (draw : Nat × Nat) (addr : Nat) :
    ∃ ai w, ai < k.P ∧ w < k.NW ∧
      CacheRemap.replace k c draw addr replace_for_relocate =
        some (ai, c.indexer_next.index k addr ai, w) := by
  refine ⟨if k.P = 1 then 0 else draw.1 % k.P, draw.2 % k.NW, ?_, Nat.mod_lt _ hwf.NW_pos, ?_⟩
  · split
    · exact hwf.P_pos
    · exact Nat.mod_lt _ hwf.P_pos
  · simp [CacheRemap.replace, CacheRemap.replace_choose_set, replace_for_relocate]

theorem CacheRemap.set_meta_access (c : CacheRemap) (ai s w : Nat) (x : Meta) (p2 s2 w2 : Nat) :
    (c.set_meta ai s w x).access p2 s2 w2 =
      if p2 = ai ∧ s2 = s ∧ w2 = w then x else c.access p2 s2 w2 := rfl

theorem CacheRemap.Sweeping.set_relocated {k : CacheParams} {c : CacheRemap}
    (h : c.Sweeping k) (ai s w : Nat) (x : Meta) (hx : x.is_relocated = true)
    (hplace : ∀ A, x.match k.mp A = true → c.indexer_next.index k A ai = s) :
    (c.set_meta ai s w x).Sweeping k := by
  constructor
  · intro p2 s2 w2 hp hs hw hv hr
    rw [CacheRemap.set_meta_access] at hv hr ⊢
    by_cases hc : p2 = ai ∧ s2 = s ∧ w2 = w
    · rw [if_pos hc] at hr
      rw [hx] at hr
      exact Bool.noConfusion hr
    · rw [if_neg hc] at hv hr ⊢
      exact h.old p2 s2 w2 hp hs hw hv hr
  · intro p2 s2 w2 hp hs hw hr A hm
    rw [CacheRemap.set_meta_access] at hr hm
    by_cases hc : p2 = ai ∧ s2 = s ∧ w2 = w
    · rw [if_pos hc] at hm
      obtain ⟨rfl, rfl, rfl⟩ := hc
      exact hplace A hm
    · rw [if_neg hc] at hr hm
      exact h.new p2 s2 w2 hp hs hw hr A hm

theorem CacheRemap.Frame.refl (c : CacheRemap) : CacheRemap.Frame c c :=
  ⟨rfl, rfl, rfl, rfl, rfl, fun _ _ _ h => h⟩

theorem CacheRemap.Frame.trans {c1 c2 c3 : CacheRemap} (h12 : CacheRemap.Frame c1 c2)
    (h23 : CacheRemap.Frame c2 c3) : CacheRemap.Frame c1 c3 :=
  ⟨h23.pointer.trans h12.pointer, h23.indexer.trans h12.indexer,
   h23.indexer_next.trans h12.indexer_next, h23.seed_next.trans h12.seed_next,
   h23.remap.trans h12.remap, fun p s w h => h23.done p s w (h12.done p s w h)⟩

theorem CacheRemap.Frame.of_set_meta (c : CacheRemap) (ai s w : Nat) (x : Meta)
    (hx : x.is_relocated = true) : CacheRemap.Frame c (c.set_meta ai s w x) := by
  refine ⟨rfl, rfl, rfl, rfl, rfl, ?_⟩
  intro p2 s2 w2 hd
  unfold CacheRemap.done at hd ⊢
  rw [CacheRemap.set_meta_access]
  by_cases hc : p2 = ai ∧ s2 = s ∧ w2 = w
  · rw [if_pos hc]; exact Or.inr hx
  · rw [if_neg hc]; exact hd

theorem CacheRemap.mem_vnr (k : CacheParams) (c : CacheRemap) (x : Nat × Nat × Nat) :
    x ∈ c.vnr k ↔ (x.1 < k.P ∧ x.2.1 < k.nset ∧ x.2.2 < k.NW) ∧
      (c.access x.1 x.2.1 x.2.2).is_valid = true ∧
      (c.access x.1 x.2.1 x.2.2).is_relocated = false := by
  unfold CacheRemap.vnr
  simp [Finset.mem_filter, Finset.mem_product]

theorem CacheRemap.vnr_card_lt (k : CacheParams) (c : CacheRemap) (ai s w : Nat) (x : Meta)
    (hai : ai < k.P) (hs : s < k.nset) (hw : w < k.NW) (hx : x.is_relocated = true)
    (hv : (c.access ai s w).is_valid = true) (hr : (c.access ai s w).is_relocated = false) :
    ((c.set_meta ai s w x).vnr k).card < (c.vnr k).card := by
  apply Finset.card_lt_card
  rw [Finset.ssubset_iff_of_subset]
  · refine ⟨(ai, s, w), (CacheRemap.mem_vnr k c _).mpr ⟨⟨hai, hs, hw⟩, hv, hr⟩, ?_⟩
    intro hmem
    have h2 := ((CacheRemap.mem_vnr k _ _).mp hmem).2.2
    rw [CacheRemap.set_meta_access] at h2
    simp [hx] at h2
  · intro y hy
    obtain ⟨hb, hyv, hyr⟩ := (CacheRemap.mem_vnr k _ _).mp hy
    rw [CacheRemap.set_meta_access] at hyv hyr
    by_cases hc : y.1 = ai ∧ y.2.1 = s ∧ y.2.2 = w
    · rw [if_pos hc] at hyr
      rw [hx] at hyr
      exact Bool.noConfusion hyr
    · rw [if_neg hc] at hyv hyr
      exact (CacheRemap.mem_vnr k c y).mpr ⟨hb, hyv, hyr⟩

theorem CacheRemap.vnr_card_le (k : CacheParams) (c : CacheRemap) :
    (c.vnr k).card ≤ k.P * k.nset * k.NW := by
  unfold CacheRemap.vnr
  apply le_trans (Finset.card_filter_le _ _)
  rw [Finset.card_product, Finset.card_product, Finset.card_range, Finset.card_range,
    Finset.card_range, Nat.mul_assoc]

theorem CacheRemap.vnr_card_lt_total (k : CacheParams) (c : CacheRemap) (ai s w : Nat)
    (hai : ai < k.P) (hs : s < k.nset) (hw : w < k.NW) (hd : c.done ai s w) :
    (c.vnr k).card < k.P * k.nset * k.NW := by
  have hsub : c.vnr k ⊂
      (Finset.range k.P) ×ˢ ((Finset.range k.nset) ×ˢ (Finset.range k.NW)) := by
    have hss : c.vnr k ⊆
        (Finset.range k.P) ×ˢ ((Finset.range k.nset) ×ˢ (Finset.range k.NW)) :=
      Finset.filter_subset _ _
    rw [Finset.ssubset_iff_of_subset hss]
    refine ⟨(ai, s, w), by simp [Finset.mem_product, hai, hs, hw], ?_⟩
    intro hmem
    obtain ⟨-, hv, hr⟩ := (CacheRemap.mem_vnr k c _).mp hmem
    rcases hd with h | h
    · rw [h] at hv; exact Bool.noConfusion hv
    · rw [h] at hr; exact Bool.noConfusion hr
  have := Finset.card_lt_card hsub
  rwa [Finset.card_product, Finset.card_product, Finset.card_range, Finset.card_range,
    Finset.card_range, ← Nat.mul_assoc] at this

theorem swap_cell_match (k : CacheParams) (a b : Nat) (m c : Meta) (A : Nat) :
    (CacheRemap.swap k a b m c).1.to_relocated.match k.mp A = c.match k.mp A :=
  Meta.match_congr _ _ _ _ (swap_state k a b m c).1 (swap_state k a b m c).2.1

theorem swap_scratch_match (k : CacheParams) (a b : Nat) (m c : Meta) (A : Nat) :
    (CacheRemap.swap k a b m c).2.match k.mp A = m.match k.mp A :=
  Meta.match_congr _ _ _ _ (swap_state k a b m c).2.2.1 (swap_state k a b m c).2.2.2

theorem swap_scratch_valid (k : CacheParams) (a b : Nat) (m c : Meta) :
    (CacheRemap.swap k a b m c).2.is_valid = m.is_valid :=
  Meta.is_valid_congr _ _ (swap_state k a b m c).2.2.1

theorem RemapState.relocation_spec (k : CacheParams) (hwf : k.WF) (orc : Nat → Nat × Nat)
    (V0 : Nat → Prop) (st : RemapState) (cm : Meta) (ca : Nat)
    (hinv : RemapState.ChainInv k V0 st cm ca) :
    ∃ st1 c1 a1, RemapState.relocation k orc st cm ca = some (st1, c1, a1) ∧
      RemapState.ChainInv k V0 st1 c1 a1 ∧ CacheRemap.Frame st.cache st1.cache ∧
      (c1.is_valid = true → (st1.cache.vnr k).card < (st.cache.vnr k).card) := by
  obtain ⟨ai, w, hai, hw, hrep⟩ := CacheRemap.replace_relocate k hwf st.cache (orc st.tick) ca
  have hs := IndexSkewed.index_lt k st.cache.indexer_next ca ai
  generalize hsdef : st.cache.indexer_next.index k ca ai = s at hrep hs
  unfold RemapState.relocation
  rw [hrep]
  simp only []
  refine ⟨_, _, _, rfl, ⟨?_, ?_, ?_⟩, ?_, ?_⟩
  · -- placement
    refine CacheRemap.Sweeping.set_relocated hinv.placed ai s w _ ?_ ?_
    · rfl
    intro A hm
    rw [swap_cell_match] at hm
    rw [← hsdef]
    exact IndexSkewed.index_congr k _ ai A ca (hinv.scratch A hm)
  · -- the scratch address
    intro A hm seed
    rw [swap_scratch_match] at hm
    by_cases hev : ((st.cache.access ai s w).is_valid && (st.cache.access ai s w).is_relocated) = true
    · rw [if_pos hev] at hm
      have := Meta.match_valid _ _ _ hm
      rw [evict_meta_invalid] at this
      exact Bool.noConfusion this
    · rw [if_neg hev] at hm
      exact hwf.hash_tag seed A _ (Meta.match_addr k.mp _ A s hwf.IW_le hwf.AW_le hwf.AW_int hwf.AW_uint hm).symm
  · -- no line lost
    intro A hA
    rcases hinv.kept A hA with ⟨p2, s2, w2, hp2, hs2, hw2, hm⟩ | ⟨m, hmem, hm⟩ | hm
    · by_cases hc : p2 = ai ∧ s2 = s ∧ w2 = w
      · obtain ⟨rfl, rfl, rfl⟩ := hc
        by_cases hev : ((st.cache.access p2 s2 w2).is_valid &&
            (st.cache.access p2 s2 w2).is_relocated) = true
        · refine Or.inr (Or.inl ⟨st.cache.access p2 s2 w2, ?_, hm⟩)
          simp only []
          rw [if_pos hev]
          exact List.mem_cons_self _ _
        · refine Or.inr (Or.inr ?_)
          rw [swap_scratch_match, if_neg hev]
          exact hm
      · refine Or.inl ⟨p2, s2, w2, hp2, hs2, hw2, ?_⟩
        simp only []
        rw [CacheRemap.set_meta_access, if_neg hc]
        exact hm
    · refine Or.inr (Or.inl ⟨m, ?_, hm⟩)
      simp only []
      split
      · exact List.mem_cons_of_mem _ hmem
      · exact hmem
    · refine Or.inl ⟨ai, s, w, hai, hs, hw, ?_⟩
      simp only []
      rw [CacheRemap.set_meta_access, if_pos ⟨rfl, rfl, rfl⟩, swap_cell_match]
      exact hm
  · exact CacheRemap.Frame.of_set_meta _ _ _ _ _ rfl
  · intro hv1
    rw [swap_scratch_valid] at hv1
    by_cases hev : ((st.cache.access ai s w).is_valid && (st.cache.access ai s w).is_relocated) = true
    · rw [if_pos hev, evict_meta_invalid] at hv1
      exact Bool.noConfusion hv1
    · rw [if_neg hev] at hv1
      have hr : (st.cache.access ai s w).is_relocated = false := by
        rw [hv1] at hev
        simpa using hev
      exact CacheRemap.vnr_card_lt k st.cache ai s w _ hai hs hw rfl hv1 hr

/-! ## The relocation chain -/

theorem RemapState.relocation_loop_spec (k : CacheParams) (hwf : k.WF) (orc : Nat → Nat × Nat)
    (V0 : Nat → Prop) (fuel : Nat) (st : RemapState) (cm : Meta) (ca : Nat)
    (hinv : RemapState.ChainInv k V0 st cm ca)
    (hfuel : cm.is_valid = true → (st.cache.vnr k).card < fuel) :
    ∃ st2, RemapState.relocation_loop k orc fuel st cm ca = some st2 ∧
      st2.cache.Sweeping k ∧
      (∀ A, V0 A → st2.cache.holds k A ∨ ∃ m, m ∈ st2.evicted ∧ m.match k.mp A = true) ∧
      CacheRemap.Frame st.cache st2.cache := by
  have hstop : cm.is_valid = false →
      st.cache.Sweeping k ∧
      (∀ A, V0 A → st.cache.holds k A ∨ ∃ m, m ∈ st.evicted ∧ m.match k.mp A = true) := by
    intro hv
    refine ⟨hinv.placed, fun A hA => ?_⟩
    rcases hinv.kept A hA with h | h | h
    · exact Or.inl h
    · exact Or.inr h
    · rw [Meta.match_valid _ _ _ h] at hv
      exact Bool.noConfusion hv
  induction fuel generalizing st cm ca with
  | zero =>
    cases hv : cm.is_valid with
    | true => exact absurd (hfuel hv) (Nat.not_lt_zero _)
    | false =>
      refine ⟨st, ?_, (hstop hv).1, (hstop hv).2, CacheRemap.Frame.refl _⟩
      simp [RemapState.relocation_loop, hv]
  | succ fuel ih =>
    cases hv : cm.is_valid with
    | false =>
      refine ⟨st, ?_, (hstop hv).1, (hstop hv).2, CacheRemap.Frame.refl _⟩
      simp [RemapState.relocation_loop, hv]
    | true =>
      obtain ⟨st1, c1, a1, hstep, hinv1, hframe1, hdec⟩ :=
        RemapState.relocation_spec k hwf orc V0 st cm ca hinv
      have hfuel1 : c1.is_valid = true → (st1.cache.vnr k).card < fuel := by
        intro hv1
        have h1 := hdec hv1
        have h2 := hfuel hv
        omega
      have hstop1 : c1.is_valid = false →
          st1.cache.Sweeping k ∧
          (∀ A, V0 A → st1.cache.holds k A ∨
            ∃ m, m ∈ st1.evicted ∧ m.match k.mp A = true) := by
        intro hv1
        refine ⟨hinv1.placed, fun A hA => ?_⟩
        rcases hinv1.kept A hA with h | h | h
        · exact Or.inl h
        · exact Or.inr h
        · rw [Meta.match_valid _ _ _ h] at hv1
          exact Bool.noConfusion hv1
      obtain ⟨st2, hloop, hsw, hkept, hframe2⟩ := ih st1 c1 a1 hinv1 hfuel1 hstop1
      refine ⟨st2, ?_, hsw, hkept, hframe1.trans hframe2⟩
      simp only [RemapState.relocation_loop, hv, if_true, hstep]
      exact hloop

theorem RemapState.relocation_chain_spec (k : CacheParams) (hwf : k.WF) (orc : Nat → Nat × Nat)
    (c0 : CacheRemap) (V0 : Nat → Prop) (st : RemapState) (ai idx way : Nat)
    (hinv : RemapState.SweepInv k c0 V0 st) (hai : ai < k.P) (hidx : idx < k.nset)
    (hway : way < k.NW) :
    ∃ st2, RemapState.relocation_chain k orc st ai idx way = some st2 ∧
      RemapState.SweepInv k c0 V0 st2 ∧ CacheRemap.Frame st.cache st2.cache ∧
      st2.cache.done ai idx way := by
  unfold RemapState.relocation_chain
  simp only []
  by_cases hskip : (!(st.cache.access ai idx way).is_valid ||
      (st.cache.access ai idx way).is_relocated) = true
  · rw [if_pos hskip]
    refine ⟨st, rfl, hinv, CacheRemap.Frame.refl _, ?_⟩
    unfold CacheRemap.done
    cases hv : (st.cache.access ai idx way).is_valid
    · exact Or.inl rfl
    · rw [hv] at hskip
      exact Or.inr (by simpa using hskip)
  · rw [if_neg hskip]
    have hv : (st.cache.access ai idx way).is_valid = true := by
      cases h : (st.cache.access ai idx way).is_valid
      · rw [h] at hskip; simp at hskip
      · rfl
    generalize hr : CacheRemap.relocate k ((st.cache.access ai idx way).addr k.mp idx)
      (st.cache.access ai idx way) (Meta.fresh (st.cache.access ai idx way).cls) = r
    have hr1 : r.1.to_relocated.is_valid = false := by
      rw [← hr]
      exact (Meta.is_valid_congr _ _ rfl).trans (relocate_fst_invalid _ _ _ _)
    have hr2 : ∀ A, r.2.match k.mp A = (st.cache.access ai idx way).match k.mp A := by
      intro A
      rw [← hr]
      exact Meta.match_congr _ _ _ _ (relocate_snd_state _ _ _ _).1
        (relocate_snd_state _ _ _ _).2.1
    have hframe1 : CacheRemap.Frame st.cache (st.cache.set_meta ai idx way r.1.to_relocated) :=
      CacheRemap.Frame.of_set_meta _ _ _ _ _ rfl
    have hchain : RemapState.ChainInv k V0
        { st with cache := st.cache.set_meta ai idx way r.1.to_relocated } r.2
        ((st.cache.access ai idx way).addr k.mp idx) := by
      refine ⟨?_, ?_, ?_⟩
      · refine CacheRemap.Sweeping.set_relocated hinv.placed ai idx way _ ?_ ?_
        · rfl
        · intro A hm
          have h1 := Meta.match_valid _ _ _ hm
          rw [hr1] at h1
          exact Bool.noConfusion h1
      · intro A hm seed
        rw [hr2] at hm
        exact hwf.hash_tag seed A _ (Meta.match_addr k.mp _ A idx hwf.IW_le hwf.AW_le hwf.AW_int hwf.AW_uint hm).symm
      · intro A hA
        rcases hinv.kept A hA with ⟨p2, s2, w2, hp2, hs2, hw2, hm⟩ | h
        · by_cases hc : p2 = ai ∧ s2 = idx ∧ w2 = way
          · obtain ⟨rfl, rfl, rfl⟩ := hc
            exact Or.inr (Or.inr ((hr2 A).trans hm))
          · refine Or.inl ⟨p2, s2, w2, hp2, hs2, hw2, ?_⟩
            simp only []
            rw [CacheRemap.set_meta_access, if_neg hc]
            exact hm
        · exact Or.inr (Or.inl h)
    have hdone1 : (st.cache.set_meta ai idx way r.1.to_relocated).done ai idx way := by
      unfold CacheRemap.done
      rw [CacheRemap.set_meta_access, if_pos ⟨rfl, rfl, rfl⟩]
      exact Or.inr rfl
    obtain ⟨st2, hloop, hsw, hkept, hframe2⟩ :=
      RemapState.relocation_loop_spec k hwf orc V0 (k.P * k.nset * k.NW) _ _ _ hchain
        (fun _ => CacheRemap.vnr_card_lt_total k _ ai idx way hai hidx hway hdone1)
    have hframe := hframe1.trans hframe2
    exact ⟨st2, hloop,
      ⟨hframe.remap.trans hinv.remap, hframe.indexer.trans hinv.indexer,
        hframe.indexer_next.trans hinv.indexer_next, hframe.seed_next.trans hinv.seed_next,
        hsw, hkept⟩,
      hframe, hframe2.done _ _ _ hdone1⟩

/-! ## The sweep of `remap()` -/

theorem RemapState.run_append (k : CacheParams) (orc : Nat → Nat × Nat) (l1 l2 : List RemapOp)
    (st : RemapState) :
    RemapState.run k orc (l1 ++ l2) st =
      (RemapState.run k orc l1 st).bind (RemapState.run k orc l2) := by
  induction l1 generalizing st with
  | nil => rfl
  | cons op ops ih =>
    simp only [List.cons_append, RemapState.run]
    cases RemapState.step k orc st op with
    | none => rfl
    | some st1 => exact ih st1

theorem RemapState.Reach.nil (k : CacheParams) (orc : Nat → Nat × Nat) (st : RemapState)
    (Q : RemapState → Prop) (h : Q st) : RemapState.Reach k orc [] st Q := by
  intro n _
  exact ⟨st, by simp [RemapState.run], h⟩

theorem RemapState.Reach.append (k : CacheParams) (orc : Nat → Nat × Nat)
    (l1 l2 : List RemapOp) (st st1 : RemapState) (Q : RemapState → Prop)
    (hrun : RemapState.run k orc l1 st = some st1)
    (h1 : RemapState.Reach k orc l1 st Q) (h2 : RemapState.Reach k orc l2 st1 Q) :
    RemapState.Reach k orc (l1 ++ l2) st Q := by
  intro n hn
  rw [List.take_append_eq_append_take]
  by_cases hle : n ≤ l1.length
  · have h0 : n - l1.length = 0 := by omega
    rw [h0, List.take_zero, List.append_nil]
    exact h1 n hle
  · have hfull : List.take n l1 = l1 := List.take_of_length_le (by omega)
    rw [hfull, RemapState.run_append, hrun]
    apply h2
    rw [List.length_append] at hn
    omega

theorem RemapState.Reach.single (k : CacheParams) (orc : Nat → Nat × Nat) (op : RemapOp)
    (st st1 : RemapState) (Q : RemapState → Prop)
    (hstep : RemapState.step k orc st op = some st1) (h0 : Q st) (h1 : Q st1) :
    RemapState.Reach k orc [op] st Q := by
  intro n hn
  have : n = 0 ∨ n = 1 := by
    simp only [List.length_singleton] at hn
    omega
  rcases this with rfl | rfl
  · exact ⟨st, by simp [RemapState.run], h0⟩
  · exact ⟨st1, by simp [RemapState.run, hstep], h1⟩

theorem RemapState.run_single (k : CacheParams) (orc : Nat → Nat × Nat) (op : RemapOp)
    (st st1 : RemapState) (hstep : RemapState.step k orc st op = some st1) :
    RemapState.run k orc [op] st = some st1 := by
  simp [RemapState.run, hstep]

/-- A loop over `0 .. n-1` whose body keeps an invariant indexed by the counter. -/
theorem RemapState.run_range (k : CacheParams) (orc : Nat → Nat × Nat)
    (f : Nat → List RemapOp) (I : Nat → RemapState → Prop) (Q : RemapState → Prop) (n : Nat)
    (hIQ : ∀ i st, I i st → Q st)
    (hbody : ∀ i, i < n → ∀ st, I i st →
      ∃ st2, RemapState.run k orc (f i) st = some st2 ∧ I (i + 1) st2 ∧
        RemapState.Reach k orc (f i) st Q)
    (st : RemapState) (h0 : I 0 st) :
    ∃ st2, RemapState.run k orc ((List.range n).flatMap f) st = some st2 ∧ I n st2 ∧
      RemapState.Reach k orc ((List.range n).flatMap f) st Q := by
  induction n with
  | zero =>
    exact ⟨st, by simp [RemapState.run], h0, by
      simpa using RemapState.Reach.nil k orc st Q (hIQ 0 st h0)⟩
  | succ n ih =>
    obtain ⟨st1, hrun1, hI1, hreach1⟩ := ih (fun i hi => hbody i (Nat.lt_succ_of_lt hi))
    obtain ⟨st2, hrun2, hI2, hreach2⟩ := hbody n (Nat.lt_succ_self n) st1 hI1
    rw [List.range_succ, List.flatMap_append, List.flatMap_singleton]
    refine ⟨st2, ?_, hI2, RemapState.Reach.append k orc _ _ st st1 Q hrun1 hreach1 hreach2⟩
    rw [RemapState.run_append, hrun1]
    exact hrun2

theorem map_range_eq_flatMap (n : Nat) (g : Nat → RemapOp) :
    (List.range n).map g = (List.range n).flatMap (fun i => [g i]) := by
  induction n with
  | zero => rfl
  | succ n ih =>
    rw [List.range_succ, List.map_append, List.flatMap_append, ih]
    rfl

theorem CacheRemap.Sweeping.move {k : CacheParams} {c : CacheRemap} (h : c.Sweeping k)
    (ai : Nat) (hptr : c.remap_pointer ai + 1 < 2 ^ 64)
    (hdone : ∀ w, w < k.NW → c.done ai (c.remap_pointer ai) w) :
    (c.move_remap_pointer ai).Sweeping k := by
  constructor
  · intro p s w hp hs hw hv hr
    have hv0 : (c.access p s w).is_valid = true := hv
    have hr0 : (c.access p s w).is_relocated = false := hr
    obtain ⟨hle, hidx⟩ := h.old p s w hp hs hw hv0 hr0
    refine ⟨?_, hidx⟩
    show (if p = ai then (c.remap_pointer ai + 1) % 2 ^ 64 else c.remap_pointer p) ≤ s
    by_cases hpa : p = ai
    · subst hpa
      rw [if_pos rfl, Nat.mod_eq_of_lt hptr]
      have hne : s ≠ c.remap_pointer p := by
        intro heq
        subst heq
        rcases hdone w hw with hd | hd
        · rw [hd] at hv0; exact Bool.noConfusion hv0
        · rw [hd] at hr0; exact Bool.noConfusion hr0
      omega
    · rw [if_neg hpa]; exact hle
  · intro p s w hp hs hw hr A hm
    exact h.new p s w hp hs hw hr A hm

theorem RemapState.ways_spec (k : CacheParams) (hwf : k.WF) (orc : Nat → Nat × Nat)
    (c0 : CacheRemap) (V0 : Nat → Prop) (ai idx : Nat) (hai : ai < k.P) (hidx : idx < k.nset)
    (st : RemapState) (hinv : RemapState.SweepInv k c0 V0 st) :
    ∃ st2, RemapState.run k orc
        ((List.range k.NW).map (fun way => RemapOp.chain ai idx way)) st = some st2 ∧
      (RemapState.SweepInv k c0 V0 st2 ∧
        st2.cache.remap_pointer = st.cache.remap_pointer ∧
        ∀ w, w < k.NW → st2.cache.done ai idx w) ∧
      RemapState.Reach k orc ((List.range k.NW).map (fun way => RemapOp.chain ai idx way)) st
        (RemapState.SweepInv k c0 V0) := by
  rw [map_range_eq_flatMap]
  apply RemapState.run_range k orc (fun way => [RemapOp.chain ai idx way])
    (fun n s => RemapState.SweepInv k c0 V0 s ∧
      s.cache.remap_pointer = st.cache.remap_pointer ∧ ∀ w, w < n → s.cache.done ai idx w)
    (RemapState.SweepInv k c0 V0) k.NW (fun _ _ h => h.1)
  · intro way hway s1 ⟨hinv1, hptr1, hdone1⟩
    obtain ⟨s2, hchain, hinv2, hframe, hdone2⟩ :=
      RemapState.relocation_chain_spec k hwf orc c0 V0 s1 ai idx way hinv1 hai hidx hway
    refine ⟨s2, RemapState.run_single k orc _ s1 s2 hchain,
      ⟨hinv2, hframe.pointer.trans hptr1, ?_⟩,
      RemapState.Reach.single k orc _ s1 s2 _ hchain hinv1 hinv2⟩
    intro w hw
    rcases Nat.lt_succ_iff_lt_or_eq.mp hw with hlt | heq
    · exact hframe.done _ _ _ (hdone1 w hlt)
    · subst heq; exact hdone2
  · exact ⟨hinv, rfl, fun w hw => absurd hw (Nat.not_lt_zero w)⟩

theorem RemapState.set_spec (k : CacheParams) (hwf : k.WF) (orc : Nat → Nat × Nat)
    (c0 : CacheRemap) (V0 : Nat → Prop) (ai idx : Nat) (hai : ai < k.P) (hidx : idx < k.nset)
    (st : RemapState) (hinv : RemapState.SweepInv k c0 V0 st)
    (hptr : st.cache.remap_pointer ai = idx) :
    ∃ st2, RemapState.run k orc
        ((List.range k.NW).map (fun way => RemapOp.chain ai idx way) ++ [RemapOp.move ai]) st
        = some st2 ∧
      (RemapState.SweepInv k c0 V0 st2 ∧ st2.cache.remap_pointer ai = idx + 1 ∧
        ∀ p, p ≠ ai → st2.cache.remap_pointer p = st.cache.remap_pointer p) ∧
      RemapState.Reach k orc
        ((List.range k.NW).map (fun way => RemapOp.chain ai idx way) ++ [RemapOp.move ai]) st
        (RemapState.SweepInv k c0 V0) := by
  obtain ⟨st1, hrun1, ⟨hinv1, hptr1, hdone1⟩, hreach1⟩ :=
    RemapState.ways_spec k hwf orc c0 V0 ai idx hai hidx st hinv
  have hp1 : st1.cache.remap_pointer ai = idx := by rw [hptr1]; exact hptr
  have hbound : st1.cache.remap_pointer ai + 1 < 2 ^ 64 := by
    rw [hp1]
    have h1 : k.nset < 2 ^ 32 := by
      rw [k.nset_eq]
      exact Nat.pow_lt_pow_right (by decide) hwf.IW_lt
    have h2 : (2 : Nat) ^ 32 < 2 ^ 64 := by decide
    omega
  have hinv2 : RemapState.SweepInv k c0 V0
      { st1 with cache := st1.cache.move_remap_pointer ai } :=
    ⟨hinv1.remap, hinv1.indexer, hinv1.indexer_next, hinv1.seed_next,
      hinv1.placed.move ai hbound (fun w hw => by rw [hp1]; exact hdone1 w hw), hinv1.kept⟩
  have hstep : RemapState.step k orc st1 (RemapOp.move ai) =
      some { st1 with cache := st1.cache.move_remap_pointer ai } := rfl
  refine ⟨_, ?_, ⟨hinv2, ?_, ?_⟩,
    RemapState.Reach.append k orc _ _ st st1 _ hrun1 hreach1
      (RemapState.Reach.single k orc _ st1 _ _ hstep hinv1 hinv2)⟩
  · rw [RemapState.run_append, hrun1]
    exact RemapState.run_single k orc _ st1 _ hstep
  · show (if ai = ai then (st1.cache.remap_pointer ai + 1) % 2 ^ 64
      else st1.cache.remap_pointer ai) = idx + 1
    rw [if_pos rfl, Nat.mod_eq_of_lt hbound, hp1]
  · intro p hp
    show (if p = ai then (st1.cache.remap_pointer ai + 1) % 2 ^ 64
      else st1.cache.remap_pointer p) = st.cache.remap_pointer p
    rw [if_neg hp, hptr1]

theorem RemapState.sets_spec (k : CacheParams) (hwf : k.WF) (orc : Nat → Nat × Nat)
    (c0 : CacheRemap) (V0 : Nat → Prop) (ai : Nat) (hai : ai < k.P)
    (st : RemapState) (hinv : RemapState.SweepInv k c0 V0 st)
    (hptr : st.cache.remap_pointer ai = 0) :
    ∃ st2, RemapState.run k orc
        ((List.range k.nset).flatMap fun idx =>
          (List.range k.NW).map (fun way => RemapOp.chain ai idx way) ++ [RemapOp.move ai]) st
        = some st2 ∧
      (RemapState.SweepInv k c0 V0 st2 ∧ st2.cache.remap_pointer ai = k.nset ∧
        ∀ p, p ≠ ai → st2.cache.remap_pointer p = st.cache.remap_pointer p) ∧
      RemapState.Reach k orc
        ((List.range k.nset).flatMap fun idx =>
          (List.range k.NW).map (fun way => RemapOp.chain ai idx way) ++ [RemapOp.move ai]) st
        (RemapState.SweepInv k c0 V0) := by
  apply RemapState.run_range k orc
    (fun idx => (List.range k.NW).map (fun way => RemapOp.chain ai idx way) ++ [RemapOp.move ai])
    (fun n s => RemapState.SweepInv k c0 V0 s ∧ s.cache.remap_pointer ai = n ∧
      ∀ p, p ≠ ai → s.cache.remap_pointer p = st.cache.remap_pointer p)
    (RemapState.SweepInv k c0 V0) k.nset (fun _ _ h => h.1)
  · intro idx hidx s1 ⟨hinv1, hptr1, hother1⟩
    obtain ⟨s2, hrun, ⟨hinv2, hptr2, hother2⟩, hreach⟩ :=
      RemapState.set_spec k hwf orc c0 V0 ai idx hai hidx s1 hinv1 hptr1
    exact ⟨s2, hrun, ⟨hinv2, hptr2, fun p hp => (hother2 p hp).trans (hother1 p hp)⟩, hreach⟩
  · exact ⟨hinv, hptr, fun _ _ => rfl⟩

theorem RemapState.sweep_ops_eq (k : CacheParams) (hwf : k.WF) :
    RemapState.sweep_ops k = remap_ops k.P k.nset k.NW := by
  have h1 : k.nset < 2 ^ 32 := by
    rw [k.nset_eq]
    exact Nat.pow_lt_pow_right (by decide) hwf.IW_lt
  unfold RemapState.sweep_ops
  rw [Nat.mod_eq_of_lt hwf.P_lt, Nat.mod_eq_of_lt h1, Nat.mod_eq_of_lt hwf.NW_lt]

theorem RemapState.sweep_spec (k : CacheParams) (hwf : k.WF) (orc : Nat → Nat × Nat)
    (c0 : CacheRemap) (V0 : Nat → Prop) (st : RemapState)
    (hinv : RemapState.SweepInv k c0 V0 st) (hptr : ∀ p, st.cache.remap_pointer p = 0) :
    ∃ st2, RemapState.run k orc (RemapState.sweep_ops k) st = some st2 ∧
      (RemapState.SweepInv k c0 V0 st2 ∧
        (∀ p, p < k.P → st2.cache.remap_pointer p = k.nset) ∧
        ∀ p, k.P ≤ p → st2.cache.remap_pointer p = 0) ∧
      RemapState.Reach k orc (RemapState.sweep_ops k) st (RemapState.SweepInv k c0 V0) := by
  rw [RemapState.sweep_ops_eq k hwf]
  unfold remap_ops
  apply RemapState.run_range k orc
    (fun ai => (List.range k.nset).flatMap fun idx =>
      (List.range k.NW).map (fun way => RemapOp.chain ai idx way) ++ [RemapOp.move ai])
    (fun n s => RemapState.SweepInv k c0 V0 s ∧
      (∀ p, p < n → s.cache.remap_pointer p = k.nset) ∧
      ∀ p, n ≤ p → s.cache.remap_pointer p = 0)
    (RemapState.SweepInv k c0 V0) k.P (fun _ _ h => h.1)
  · intro ai hai s1 ⟨hinv1, hlow1, hhigh1⟩
    obtain ⟨s2, hrun, ⟨hinv2, hptr2, hother2⟩, hreach⟩ :=
      RemapState.sets_spec k hwf orc c0 V0 ai hai s1 hinv1 (hhigh1 ai (Nat.le_refl ai))
    refine ⟨s2, hrun, ⟨hinv2, ?_, ?_⟩, hreach⟩
    · intro p hp
      rcases Nat.lt_succ_iff_lt_or_eq.mp hp with hlt | heq
      · rw [hother2 p (by omega)]; exact hlow1 p hlt
      · subst heq; exact hptr2
    · intro p hp
      rw [hother2 p (by omega)]
      exact hhigh1 p (by omega)
  · exact ⟨hinv, fun p hp => absurd hp (Nat.not_lt_zero p), fun p _ => hptr p⟩

/-! ## Remap visibility and placement -/

theorem CacheRemap.hit_of_holds (k : CacheParams) (c : CacheRemap) (A : Nat)
    (hremap : c.remap = true) (hsw : c.Sweeping k) (h : c.holds k A) :
    ∃ r, c.hit k A = some r := by
  obtain ⟨p, s, w, hp, hs, hw, hm⟩ := h
  rw [hit_remap_some_iff k c A hremap]
  refine ⟨p, hp, ?_⟩
  cases hr : (c.access p s w).is_relocated with
  | true =>
    have hidx := hsw.new p s w hp hs hw hr A hm
    exact Or.inr ⟨w, hw, by rw [hidx]; exact hm⟩
  | false =>
    obtain ⟨hle, hidx⟩ := hsw.old p s w hp hs hw (Meta.match_valid _ _ _ hm) hr
    have hidx2 := hidx A hm
    exact Or.inl ⟨by rw [hidx2]; exact hle, w, hw, by rw [hidx2]; exact hm⟩

theorem RemapState.SweepInv.start (k : CacheParams) (st0 : RemapState)
    (hset : st0.cache.Settled k) :
    RemapState.SweepInv k st0.cache (st0.cache.holds k)
      { st0 with cache := st0.cache.remap_start } := by
  refine ⟨rfl, rfl, rfl, rfl, ⟨?_, ?_⟩, fun A hA => Or.inl hA⟩
  · intro p s w hp hs hw _ _
    refine ⟨?_, hset.placed p s w hp hs hw⟩
    show st0.cache.remap_pointer p ≤ s
    rw [hset.pointers p]
    exact Nat.zero_le s
  · intro p s w hp hs hw hr
    have h0 : (st0.cache.access p s w).is_relocated = true := hr
    rw [hset.unrelocated p s w hp hs hw] at h0
    exact Bool.noConfusion h0

theorem CacheRemap.skewed_hit_some (k : CacheParams) (c : CacheRemap) (A p s w : Nat)
    (h : c.skewed_hit k A = some (p, s, w)) :
    p < k.P ∧ s = c.indexer.index k A p ∧ w < k.NW ∧ (c.access p s w).match k.mp A = true := by
  unfold CacheRemap.skewed_hit at h
  obtain ⟨i, hi, hfi, -⟩ := (findSome_range_eq_some _ _ _).mp h
  simp only [] at hfi
  cases hah : array_hit k (c.arrays i) A (c.indexer.index k A i) with
  | none => rw [hah] at hfi; exact Option.noConfusion hfi
  | some w2 =>
    rw [hah] at hfi
    simp only [Option.map_some', Option.some.injEq, Prod.mk.injEq] at hfi
    obtain ⟨rfl, rfl, rfl⟩ := hfi
    have hw := array_hit_some k _ _ _ _ hah
    exact ⟨hi, rfl, hw.1, hw.2⟩

theorem CacheRemap.skewed_hit_of_match (k : CacheParams) (c : CacheRemap) (A p w : Nat)
    (hp : p < k.P) (hw : w < k.NW)
    (hm : (c.access p (c.indexer.index k A p) w).match k.mp A = true) :
    ∃ r, c.skewed_hit k A = some r := by
  cases h : c.skewed_hit k A with
  | some r => exact ⟨r, rfl⟩
  | none =>
    unfold CacheRemap.skewed_hit at h
    have hnone := (findSome_range_eq_none _ _).mp h p hp
    simp only [Option.map_eq_none'] at hnone
    have := (array_hit_eq_none k _ _ _).mp hnone w hw
    rw [CacheRemap.access] at hm
    rw [this] at hm
    exact Bool.noConfusion hm

theorem ex_params_wf : ex_params.WF := by
  refine ⟨by decide, by decide, by decide, by decide, by decide, by decide, by decide,
    by decide, by decide, ?_⟩
  intro seed a b h
  have h2 : (a >>> 8) &&& (1 <<< 8 - 1) = (b >>> 8) &&& (1 <<< 8 - 1) := h
  show (if seed = 0 then (a >>> 8) &&& (1 <<< 8 - 1) else 1) =
    (if seed = 0 then (b >>> 8) &&& (1 <<< 8 - 1) else 1)
  rw [h2]

theorem ex_cache_settled : ex_cache.Settled ex_params := by
  refine ⟨rfl, fun _ => rfl, ?_, ?_⟩
  · intro p s w hp hs hw
    have hp0 : p = 0 := by
      have : p < 1 := hp
      omega
    have hw0 : w = 0 := by
      have : w < 1 := hw
      omega
    have hs2 : s = 0 ∨ s = 1 := by
      have : s < 2 := hs
      omega
    subst hp0; subst hw0
    rcases hs2 with rfl | rfl <;> rfl
  · intro p s w hp hs hw A hm
    have hp0 : p = 0 := by
      have : p < 1 := hp
      omega
    have hw0 : w = 0 := by
      have : w < 1 := hw
      omega
    have hs2 : s = 0 ∨ s = 1 := by
      have : s < 2 := hs
      omega
    subst hp0; subst hw0
    rcases hs2 with rfl | rfl
    · have ht : (A >>> 8) &&& (1 <<< 8 - 1) = 2 := ((Meta.match_iff _ _ A).mp hm).2
      show ((if (0 : Nat) = 0 then (A >>> 8) &&& (1 <<< 8 - 1) else 1) % (1 <<< 1)) = 0
      rw [if_pos rfl, ht]
      decide
    · have ht : (A >>> 8) &&& (1 <<< 8 - 1) = 1 := ((Meta.match_iff _ _ A).mp hm).2
      show ((if (0 : Nat) = 0 then (A >>> 8) &&& (1 <<< 8 - 1) else 1) % (1 <<< 1)) = 1
      rw [if_pos rfl, ht]
      decide

/-- C2, counterexample: in the example cache both lines go to set 1 of the only
way under the next indexer, so the first `relocation_chain` moves `0x200` to
set 1 and then evicts it to make room for `0x100`: `0x200` was valid before the
remap and misses right after that call.  And from a cache whose remap pointer is
not 0, a line below the pointer misses before it is relocated. -/
theorem remap_visibility_counterexample :
    (ex_cache.Settled ex_params ∧
      (ex_cache.access 0 0 0).match ex_params.mp 0x200 = true ∧
      (RemapState.run ex_params ex_orc ((RemapState.sweep_ops ex_params).take 1)
          { ex_state with cache := ex_cache.remap_start }).map
        (fun st => (st.cache.remap, st.cache.hit ex_params 0x200, st.evicted.map Meta.tag))
        = some (true, none, [2])) ∧
    (ex_cache_pointer.remap = false ∧
      (ex_cache_pointer.access 0 1 0).match ex_params.mp 0x200 = true ∧
      (ex_cache_pointer.access 0 1 0).is_relocated = false ∧
      ex_cache_pointer.indexer.index ex_params 0x200 0 = 1 ∧
      (RemapState.run ex_params ex_orc ((RemapState.sweep_ops ex_params).take 1)
          { cache := ex_cache_pointer.remap_start, tick := 0, evicted := [] }).map
        (fun st => (st.cache.remap, st.cache.hit ex_params 0x200, st.evicted.map Meta.tag))
        = some (true, none, [])) := by
  refine ⟨⟨ex_cache_settled, by decide, by decide⟩, by decide, by decide, by decide, by decide,
    by decide⟩

/-- C2, amended: from a settled cache (no remap in progress, all remap pointers 0,
no cell marked relocated, every valid line in its set under the current
indexer), after every prefix of the operations of the sweep (each
`relocation_chain` call and each `move_remap_pointer`) the sweep has returned,
the remap flag is set, and every address that was valid before the remap either
hits or belongs to a line that a relocation of this remap has evicted. -/
theorem remap_visibility (k : CacheParams) (hwf : k.WF) (orc : Nat → Nat × Nat)
    (c0 : CacheRemap) (tick : Nat) (hset : c0.Settled k)
    (n : Nat) (hn : n ≤ (RemapState.sweep_ops k).length) :
    ∃ st, RemapState.run k orc ((RemapState.sweep_ops k).take n)
        { cache := c0.remap_start, tick := tick, evicted := [] } = some st ∧
      st.cache.remap = true ∧
      ∀ A, c0.holds k A →
        (∃ r, st.cache.hit k A = some r) ∨ ∃ m, m ∈ st.evicted ∧ m.match k.mp A = true := by
  obtain ⟨-, -, -, hreach⟩ := RemapState.sweep_spec k hwf orc c0 (c0.holds k)
    { cache := c0.remap_start, tick := tick, evicted := [] }
    (RemapState.SweepInv.start k { cache := c0, tick := tick, evicted := [] } hset)
    (fun p => hset.pointers p)
  obtain ⟨st, hrun, hinv⟩ := hreach n hn
  refine ⟨st, hrun, hinv.remap, fun A hA => ?_⟩
  rcases hinv.kept A hA with h | h
  · exact Or.inl (CacheRemap.hit_of_holds k st.cache A hinv.remap hinv.placed h)
  · exact Or.inr h

/-- Witness of C2: the example cache after the first `relocation_chain`. -/
theorem remap_visibility_witness :
    ex_params.WF ∧ ex_cache.Settled ex_params ∧
    1 ≤ (RemapState.sweep_ops ex_params).length ∧
    ∃ st, RemapState.run ex_params ex_orc ((RemapState.sweep_ops ex_params).take 1)
        { cache := ex_cache.remap_start, tick := 0, evicted := [] } = some st ∧
      st.cache.remap = true ∧
      ∀ A, ex_cache.holds ex_params A →
        (∃ r, st.cache.hit ex_params A = some r) ∨
          ∃ m, m ∈ st.evicted ∧ m.match ex_params.mp A = true :=
  ⟨ex_params_wf, ex_cache_settled, by decide,
    remap_visibility ex_params ex_params_wf ex_orc ex_cache 0 ex_cache_settled 1 (by decide)⟩

/-- Placement after the remap in a well-formed configuration, where the metadata
rebuilds every address without overflow: from a settled cache whose next
indexer carries the seeds kept in `indexer_seed_next`, `remap()` returns;
afterwards no remap is in progress, the current indexer is the indexer that was
next before, every cell of the array that matches an address sits in the set
this indexer gives to the address, the lookup finds the address in such a cell,
and no cell is marked relocated. -/
theorem remap_placement (k : CacheParams) (hwf : k.WF) (orc : Nat → Nat × Nat)
    (fresh : List Nat) (st0 : RemapState) (hset : st0.cache.Settled k)
    (hnext : st0.cache.indexer_next.seeds = st0.cache.indexer_seed_next) :
    ∃ st, RemapState.remap k orc fresh st0 = some st ∧
      st.cache.remap = false ∧
      st.cache.indexer = st0.cache.indexer_next ∧
      (∀ p s w, p < k.P → s < k.nset → w < k.NW →
        ∀ A, (st.cache.access p s w).match k.mp A = true →
          s = st0.cache.indexer_next.index k A p ∧
          ∃ p2 w2, p2 < k.P ∧ w2 < k.NW ∧
            st.cache.hit k A = some (p2, st0.cache.indexer_next.index k A p2, w2) ∧
            st.cache.skewed_hit k A = some (p2, st0.cache.indexer_next.index k A p2, w2) ∧
            (st.cache.access p2 (st0.cache.indexer_next.index k A p2) w2).match k.mp A = true) ∧
      ∀ p s w, p < k.P → s < k.nset → w < k.NW →
        (st.cache.access p s w).is_relocated = false := by
  obtain ⟨st1, hrun, ⟨hinv, hptr, -⟩, -⟩ :=
    RemapState.sweep_spec k hwf orc st0.cache (st0.cache.holds k)
      { st0 with cache := st0.cache.remap_start } (RemapState.SweepInv.start k st0 hset)
      (fun p => hset.pointers p)
  have hacc : ∀ p s w, p < k.P → s < k.nset → w < k.NW →
      (st1.cache.remap_end k fresh).access p s w = (st1.cache.access p s w).to_unrelocated := by
    intro p s w hp hs hw
    show (if p < k.P ∧ s < k.nset ∧ w < k.NW then _ else _) = _
    rw [if_pos ⟨hp, hs, hw⟩]
    rfl
  have hidx : (st1.cache.remap_end k fresh).indexer = st0.cache.indexer_next := by
    show IndexSkewed.seed st1.cache.indexer st1.cache.indexer_seed_next = _
    rw [hinv.seed_next, ← hnext]
    rfl
  have hplace : ∀ p s w, p < k.P → s < k.nset → w < k.NW →
      ∀ A, ((st1.cache.remap_end k fresh).access p s w).match k.mp A = true →
        s = st0.cache.indexer_next.index k A p := by
    intro p s w hp hs hw A hm
    rw [hacc p s w hp hs hw] at hm
    have hm1 : (st1.cache.access p s w).match k.mp A = true :=
      (Meta.match_congr _ _ _ _ rfl rfl).trans hm
    cases hr : (st1.cache.access p s w).is_relocated with
    | true =>
      rw [← hinv.indexer_next]
      exact (hinv.placed.new p s w hp hs hw hr A hm1).symm
    | false =>
      have hle := (hinv.placed.old p s w hp hs hw (Meta.match_valid _ _ _ hm1) hr).1
      rw [hptr p hp] at hle
      omega
  refine ⟨{ st1 with cache := st1.cache.remap_end k fresh }, ?_, rfl, hidx, ?_, ?_⟩
  · unfold RemapState.remap
    rw [hrun]
  · intro p s w hp hs hw A hm
    have hs_eq := hplace p s w hp hs hw A hm
    refine ⟨hs_eq, ?_⟩
    have hm2 : ((st1.cache.remap_end k fresh).access p
        ((st1.cache.remap_end k fresh).indexer.index k A p) w).match k.mp A = true := by
      rw [hidx, ← hs_eq]
      exact hm
    obtain ⟨⟨p2, s2, w2⟩, hhit⟩ :=
      CacheRemap.skewed_hit_of_match k (st1.cache.remap_end k fresh) A p w hp hw hm2
    obtain ⟨hp2, hs2, hw2, hmatch2⟩ := CacheRemap.skewed_hit_some k _ A p2 s2 w2 hhit
    rw [hidx] at hs2
    subst hs2
    have hhit2 : (st1.cache.remap_end k fresh).hit k A =
        (st1.cache.remap_end k fresh).skewed_hit k A := by
      have hr : (st1.cache.remap_end k fresh).remap = false := rfl
      simp [CacheRemap.hit, hr]
    exact ⟨p2, w2, hp2, hw2, hhit2.trans hhit, hhit, hmatch2⟩
  · intro p s w hp hs hw
    show ((st1.cache.remap_end k fresh).access p s w).is_relocated = false
    rw [hacc p s w hp hs hw]
    rfl

/-- The placement after the remap of the example cache. -/
theorem remap_placement_witness :
    ex_params.WF ∧ ex_state.cache.Settled ex_params ∧
    ex_state.cache.indexer_next.seeds = ex_state.cache.indexer_seed_next ∧
    ∃ st, RemapState.remap ex_params ex_orc [7] ex_state = some st ∧
      st.cache.remap = false ∧
      st.cache.indexer = ex_state.cache.indexer_next ∧
      (∀ p s w, p < ex_params.P → s < ex_params.nset → w < ex_params.NW →
        ∀ A, (st.cache.access p s w).match ex_params.mp A = true →
          s = ex_state.cache.indexer_next.index ex_params A p ∧
          ∃ p2 w2, p2 < ex_params.P ∧ w2 < ex_params.NW ∧
            st.cache.hit ex_params A =
              some (p2, ex_state.cache.indexer_next.index ex_params A p2, w2) ∧
            st.cache.skewed_hit ex_params A =
              some (p2, ex_state.cache.indexer_next.index ex_params A p2, w2) ∧
            (st.cache.access p2 (ex_state.cache.indexer_next.index ex_params A p2) w2).match
              ex_params.mp A = true) ∧
      ∀ p s w, p < ex_params.P → s < ex_params.nset → w < ex_params.NW →
        (st.cache.access p s w).is_relocated = false :=
  ⟨ex_params_wf, ex_cache_settled, rfl,
    remap_placement ex_params ex_params_wf ex_orc [7] ex_state ex_cache_settled rfl⟩

/-- The hash of `ex_params_wide` gives the same value to two addresses with the
same tag bits. -/
theorem ex_params_wide_hash_tag (seed a b : Nat)
    (h : (a >>> ex_params_wide.mp.TOfst) &&& Meta.mask ex_params_wide.mp =
      (b >>> ex_params_wide.mp.TOfst) &&& Meta.mask ex_params_wide.mp) :
    ex_params_wide.hash seed a = ex_params_wide.hash seed b := by
  have h2 : (a >>> 6) &&& Meta.mask ⟨36, 0, 6⟩ = (b >>> 6) &&& Meta.mask ⟨36, 0, 6⟩ := h
  show (if seed = 0 then 1 else if (a >>> 6) &&& Meta.mask ⟨36, 0, 6⟩ = 0 then 1 else 0) =
    (if seed = 0 then 1 else if (b >>> 6) &&& Meta.mask ⟨36, 0, 6⟩ = 0 then 1 else 0)
  rw [h2]

theorem ex_cache_wide_settled : ex_cache_wide.Settled ex_params_wide := by
  refine ⟨rfl, fun _ => rfl, ?_, ?_⟩
  · intro p s w hp hs hw
    have hp0 : p = 0 := by
      have : p < 1 := hp
      omega
    have hw0 : w = 0 := by
      have : w < 1 := hw
      omega
    have hs2 : s = 0 ∨ s = 1 := by
      have : s < 2 := hs
      omega
    subst hp0; subst hw0
    rcases hs2 with rfl | rfl <;> rfl
  · intro p s w hp hs hw A hm
    have hp0 : p = 0 := by
      have : p < 1 := hp
      omega
    have hw0 : w = 0 := by
      have : w < 1 := hw
      omega
    have hs2 : s = 0 ∨ s = 1 := by
      have : s < 2 := hs
      omega
    subst hp0; subst hw0
    rcases hs2 with rfl | rfl
    · have hv := Meta.match_valid _ _ _ hm
      exact absurd hv (by decide)
    · rfl

/-- C3, the code at the failing input: a configuration whose 30-bit tag is
promoted to `int` and shifted out of 32 bits, with sizes, address width and
hash otherwise well formed.  The cache is settled and holds `0x800000000` in
set 1.  `addr` rebuilds the address 0 for the line, so the chain moves the line
to the set the next indexer gives to 0, set 1, while the next indexer gives
set 0 to `0x800000000`.  After `remap()` the cell of set 1 still matches
`0x800000000`, the current indexer gives set 0, the lookup misses, and nothing
was evicted. -/
theorem remap_placement_wide_tag :
    ((0 < ex_params_wide.P ∧ ex_params_wide.P < 2 ^ 32 ∧ 0 < ex_params_wide.NW ∧
        ex_params_wide.NW < 2 ^ 32 ∧ ex_params_wide.IW < 32 ∧
        ex_params_wide.mp.IW ≤ ex_params_wide.mp.TOfst ∧ ex_params_wide.mp.AW ≤ 64) ∧
      (∀ seed a b,
        (a >>> ex_params_wide.mp.TOfst) &&& Meta.mask ex_params_wide.mp =
          (b >>> ex_params_wide.mp.TOfst) &&& Meta.mask ex_params_wide.mp →
        ex_params_wide.hash seed a = ex_params_wide.hash seed b) ∧
      ex_params_wide.mp.AW - ex_params_wide.mp.TOfst ≤ 31 ∧ ¬ ex_params_wide.mp.AW ≤ 31) ∧
    (ex_cache_wide.Settled ex_params_wide ∧
      ex_cache_wide.indexer_next.seeds = ex_cache_wide.indexer_seed_next ∧
      (ex_cache_wide.access 0 1 0).match ex_params_wide.mp 0x800000000 = true ∧
      ex_cache_wide.hit ex_params_wide 0x800000000 = some (0, 1, 0)) ∧
    ((ex_cache_wide.access 0 1 0).addr ex_params_wide.mp 1 = 0 ∧
      ex_cache_wide.indexer_next.index ex_params_wide 0 0 = 1 ∧
      ex_cache_wide.indexer_next.index ex_params_wide 0x800000000 0 = 0) ∧
    (RemapState.remap ex_params_wide ex_orc [7]
        { cache := ex_cache_wide, tick := 0, evicted := [] }).map
      (fun st => (st.cache.remap,
        (st.cache.access 0 1 0).match ex_params_wide.mp 0x800000000,
        (st.cache.access 0 0 0).is_valid)) = some (false, true, false) ∧
    (RemapState.remap ex_params_wide ex_orc [7]
        { cache := ex_cache_wide, tick := 0, evicted := [] }).map
      (fun st => (st.cache.indexer.index ex_params_wide 0x800000000 0,
        st.cache.hit ex_params_wide 0x800000000, st.evicted.map Meta.tag))
      = some (0, none, []) := by
  refine ⟨⟨by decide, ex_params_wide_hash_tag, by decide, by decide⟩,
    ⟨ex_cache_wide_settled, rfl, by decide, by decide⟩, by decide, by decide, by decide⟩

/-! ## Invariants of the metadata transitions -/

theorem Meta.apply_cls (m : Meta) (op : MetaOp) : (m.apply op).cls = m.cls := by
  cases op <;> simp only [Meta.apply, Meta.to_invalid, Meta.to_shared, Meta.to_modified,
    Meta.to_dirty, Meta.to_clean, Meta.sync, Meta.to_directory] <;>
    (repeat' split) <;> rfl

theorem Meta.run_cls (m : Meta) (ops : List MetaOp) : (m.run ops).cls = m.cls := by
  induction ops generalizing m with
  | nil => rfl
  | cons op ops ih => exact (ih (m.apply op)).trans (Meta.apply_cls m op)

theorem Meta.to_invalid_directory (m : Meta) (hcls : m.cls = .MetadataMSIDirectory) :
    m.to_invalid.state = 0 ∧ m.to_invalid.directory = false ∧ m.to_invalid.sharer = 0 := by
  simp [Meta.to_invalid, hcls]

theorem Meta.apply_invalid_no_sharer (m : Meta) (op : MetaOp)
    (hcls : m.cls = .MetadataMSIDirectory) (hinv : m.state = 0 → m.sharer = 0) :
    (m.apply op).state = 0 → (m.apply op).sharer = 0 := by
  cases op with
  | to_invalid => intro _; exact (Meta.to_invalid_directory m hcls).2.2
  | to_shared coh_id =>
    intro h
    simp only [Meta.apply, Meta.to_shared, hcls, Meta.to_directory] at h
    split at h <;> simp at h
  | to_modified coh_id =>
    intro h
    simp only [Meta.apply, Meta.to_modified, hcls, Meta.to_directory] at h
    split at h <;> simp at h
  | to_dirty => exact hinv
  | to_clean => exact hinv
  | sync coh_id =>
    intro h
    simp only [Meta.apply, Meta.sync, hcls] at h ⊢
    split
    · have hs : m.state = 0 := by
        split at h <;> exact h
      show delete_sharer m.sharer coh_id = 0
      rw [hinv hs]
      exact Nat.zero_and _
    · have hs : m.state = 0 := by
        split at h <;> exact h
      exact hinv hs

theorem Meta.run_invalid_no_sharer (m : Meta) (ops : List MetaOp)
    (hcls : m.cls = .MetadataMSIDirectory) (hinv : m.state = 0 → m.sharer = 0) :
    (m.run ops).state = 0 → (m.run ops).sharer = 0 := by
  induction ops generalizing m with
  | nil => exact hinv
  | cons op ops ih =>
    exact ih (m.apply op) ((Meta.apply_cls m op).trans hcls)
      (Meta.apply_invalid_no_sharer m op hcls hinv)

/-- C11: from a freshly constructed directory entry, after every sequence of the
transitions with ids in `[-1, 64)`, state Invalid comes with an empty sharer
mask; and `to_invalid` on a directory entry always leaves state Invalid, the
directory flag cleared and the sharer mask empty. -/
theorem directory_invalid_no_sharer (ops : List MetaOp) (_hids : ∀ op, op ∈ ops → op.id_ok) :
    (((Meta.fresh .MetadataMSIDirectory).run ops).state = 0 →
      ((Meta.fresh .MetadataMSIDirectory).run ops).sharer = 0) ∧
    ((((Meta.fresh .MetadataMSIDirectory).run ops).to_invalid).state = 0 ∧
      (((Meta.fresh .MetadataMSIDirectory).run ops).to_invalid).directory = false ∧
      (((Meta.fresh .MetadataMSIDirectory).run ops).to_invalid).sharer = 0) ∧
    ∀ m : Meta, m.cls = .MetadataMSIDirectory →
      m.to_invalid.state = 0 ∧ m.to_invalid.directory = false ∧ m.to_invalid.sharer = 0 := by
  refine ⟨Meta.run_invalid_no_sharer _ ops rfl (fun _ => rfl), ?_,
    fun m hm => Meta.to_invalid_directory m hm⟩
  exact Meta.to_invalid_directory _ (Meta.run_cls _ ops)

/-- Witness of C11: a line shared by inner caches 0 and 1, taken Modified by 2,
synchronised for 1 and invalidated. -/
theorem directory_invalid_no_sharer_witness :
    (∀ op, op ∈ [MetaOp.to_shared 0, .to_shared 1, .to_modified 2, .sync 1, .to_invalid] →
      op.id_ok) ∧
    ((Meta.fresh .MetadataMSIDirectory).run
        [.to_shared 0, .to_shared 1, .to_modified 2, .sync 1, .to_invalid]).state = 0 ∧
    ((Meta.fresh .MetadataMSIDirectory).run
        [.to_shared 0, .to_shared 1, .to_modified 2, .sync 1, .to_invalid]).sharer = 0 :=
  have hids : ∀ op, op ∈ [MetaOp.to_shared 0, .to_shared 1, .to_modified 2, .sync 1,
      .to_invalid] → op.id_ok := by
    intro op hop
    simp only [List.mem_cons, List.mem_singleton, List.not_mem_nil, or_false] at hop
    rcases hop with rfl | rfl | rfl | rfl | rfl <;> simp [MetaOp.id_ok]
  ⟨hids, by decide, (directory_invalid_no_sharer _ hids).1 (by decide)⟩

theorem Meta.to_invalid_dirty (m : Meta) : m.to_invalid.dirty = m.dirty := by
  unfold Meta.to_invalid
  cases m.cls <;> rfl

theorem Meta.apply_invalid_clean (m : Meta) (op : MetaOp)
    (hdirty : op = .to_dirty → m.is_valid = true)
    (hinvalid : op = .to_invalid → m.is_dirty = false)
    (hinv : m.state = 0 → m.dirty = false) :
    (m.apply op).state = 0 → (m.apply op).dirty = false := by
  cases op with
  | to_invalid =>
    intro _
    show m.to_invalid.dirty = false
    rw [Meta.to_invalid_dirty]
    exact hinvalid rfl
  | to_shared coh_id =>
    intro h
    simp only [Meta.apply, Meta.to_shared, Meta.to_directory] at h
    (repeat' split at h) <;> simp at h
  | to_modified coh_id =>
    intro h
    simp only [Meta.apply, Meta.to_modified, Meta.to_directory] at h
    (repeat' split at h) <;> simp at h
  | to_dirty =>
    intro h
    have hv := hdirty rfl
    have hs : m.state = 0 := h
    simp [Meta.is_valid, hs] at hv
  | to_clean => intro _; rfl
  | sync coh_id =>
    intro h
    simp only [Meta.apply, Meta.sync] at h ⊢
    (repeat' split) <;> (repeat' split at h) <;> exact hinv h

theorem Meta.run_invalid_clean (m : Meta) (ops : List MetaOp)
    (hdisc : m.CleanDiscipline ops) (hinv : m.state = 0 → m.dirty = false) :
    (m.run ops).state = 0 → (m.run ops).dirty = false := by
  induction ops generalizing m with
  | nil => exact hinv
  | cons op ops ih =>
    obtain ⟨h1, h2, h3⟩ := hdisc
    exact ih (m.apply op) h3 (Meta.apply_invalid_clean m op h1 h2 hinv)

theorem meta_after_release_eq_none (c : MetaParams) (cmd : coh_cmd_t) (mmeta : Meta)
    (meta : Option Meta) (addr : Nat) (dirty : Bool) :
    ExclusiveMSIPolicy.meta_after_release c cmd mmeta meta addr dirty = none ↔
      ∃ x, meta = some x ∧ x.is_dirty = true := by
  unfold ExclusiveMSIPolicy.meta_after_release
  cases meta with
  | none => simp
  | some x =>
    simp only [Option.map_some', Option.getD_some, Meta.is_dirty, Meta.to_invalid_dirty]
    cases hd : x.dirty <;> simp [hd]

/-- C12, counterexample: `to_dirty` on a fresh entry, or `to_invalid` on a dirty
one, leaves an entry that is Invalid and dirty, for both metadata classes; and
handed such an entry, `meta_after_release` stops at its assertion. -/
theorem invalid_clean_counterexample :
    (((Meta.fresh .MetadataMSI_Brodcast).run [.to_dirty]).state = 0 ∧
      ((Meta.fresh .MetadataMSI_Brodcast).run [.to_dirty]).is_dirty = true) ∧
    (((Meta.fresh .MetadataMSIDirectory).run [.to_shared 0, .to_dirty, .to_invalid]).state = 0 ∧
      ((Meta.fresh .MetadataMSIDirectory).run [.to_shared 0, .to_dirty, .to_invalid]).is_dirty
        = true) ∧
    ExclusiveMSIPolicy.meta_after_release ⟨16, 2, 8⟩ ⟨0, 2, 2⟩ (Meta.fresh .MetadataMSI_Brodcast)
      (some ((Meta.fresh .MetadataMSIDirectory).run [.to_shared 0, .to_dirty]))
      0x1200 false = none := by
  decide

/-- C12, amended: from a freshly constructed entry of any class, after every
sequence of transitions that marks only valid entries dirty and invalidates only
clean entries, state Invalid comes with a clear dirty bit.  `to_invalid` itself
leaves the dirty bit as it is, so the assertion of `meta_after_release` fails
exactly when `meta` is not null and dirty before the call. -/
theorem invalid_clean_disciplined (k : MetaClass) (ops : List MetaOp)
    (hdisc : (Meta.fresh k).CleanDiscipline ops) :
    (((Meta.fresh k).run ops).state = 0 → ((Meta.fresh k).run ops).is_dirty = false) ∧
    (∀ m : Meta, m.to_invalid.is_dirty = m.is_dirty) ∧
    ∀ (c : MetaParams) (cmd : coh_cmd_t) (mmeta : Meta) (meta : Option Meta) (addr : Nat)
      (dirty : Bool),
      ExclusiveMSIPolicy.meta_after_release c cmd mmeta meta addr dirty = none ↔
        ∃ x, meta = some x ∧ x.is_dirty = true :=
  ⟨Meta.run_invalid_clean _ ops hdisc (fun _ => rfl), Meta.to_invalid_dirty,
    meta_after_release_eq_none⟩

/-- Witness of C12: a line shared, marked dirty, cleaned and invalidated. -/
theorem invalid_clean_disciplined_witness :
    (Meta.fresh .MetadataMSIDirectory).CleanDiscipline
      [.to_shared 0, .to_dirty, .to_clean, .to_invalid] ∧
    ((Meta.fresh .MetadataMSIDirectory).run
      [.to_shared 0, .to_dirty, .to_clean, .to_invalid]).state = 0 ∧
    ((Meta.fresh .MetadataMSIDirectory).run
      [.to_shared 0, .to_dirty, .to_clean, .to_invalid]).is_dirty = false :=
  have hdisc : (Meta.fresh .MetadataMSIDirectory).CleanDiscipline
      [.to_shared 0, .to_dirty, .to_clean, .to_invalid] := by
    simp [Meta.CleanDiscipline, Meta.apply, Meta.fresh, Meta.to_shared, Meta.to_directory,
      Meta.to_dirty, Meta.to_clean, Meta.is_valid, Meta.is_dirty, add_sharer]
  ⟨hdisc, by decide,
    (invalid_clean_disciplined .MetadataMSIDirectory _ hdisc).1 (by decide)⟩

theorem Meta.apply_owner (m : Meta) (op : MetaOp) (hcls : m.cls = .MetadataMSIDirectory)
    (hid : op.id_ok)
    (hguard : ∀ coh_id, op = .to_modified coh_id →
      ∀ j : Nat, m.sharer.testBit j = true → (j : Int) = coh_id)
    (hinv : m.state = 2 → at_most_one_sharer m.sharer) :
    (m.apply op).state = 2 → at_most_one_sharer (m.apply op).sharer := by
  cases op with
  | to_invalid =>
    intro h
    have := (Meta.to_invalid_directory m hcls).1
    have h2 : m.to_invalid.state = 2 := h
    omega
  | to_shared coh_id =>
    intro h
    simp only [Meta.apply, Meta.to_shared, hcls, Meta.to_directory] at h
    split at h <;> simp at h
  | to_modified coh_id =>
    intro _
    have hg := hguard coh_id rfl
    simp only [Meta.apply, Meta.to_modified, hcls, Meta.to_directory]
    by_cases hne : coh_id = -1
    · rw [if_neg (by simpa using hne)]
      intro i j hi _
      have := hg i hi
      omega
    · rw [if_pos hne]
      have h0 : 0 ≤ coh_id := by
        have := hid.1
        omega
      have h64 : coh_id < 64 := hid.2
      have hbit : ∀ i : Nat, (add_sharer m.sharer coh_id).testBit i = true →
          i = coh_id.toNat := by
        intro i hi
        rw [testBit_add_sharer _ h0 h64] at hi
        rcases Bool.or_eq_true _ _ ▸ hi with h | h
        · have := hg i h
          omega
        · exact of_decide_eq_true h
      intro i j hi hj
      exact (hbit i hi).trans (hbit j hj).symm
  | to_dirty => exact hinv
  | to_clean => exact hinv
  | sync coh_id =>
    intro h
    simp only [Meta.apply, Meta.sync, hcls] at h ⊢
    by_cases hne : coh_id = -1
    · rw [if_neg (by simpa using hne)] at h ⊢
      exact hinv h
    · rw [if_pos hne] at h ⊢
      have h0 : 0 ≤ coh_id := by
        have := hid.1
        omega
      have h64 : coh_id < 64 := hid.2
      have hold := hinv h
      intro i j hi hj
      have hi2 : (delete_sharer m.sharer coh_id).testBit i = true := hi
      have hj2 : (delete_sharer m.sharer coh_id).testBit j = true := hj
      rw [testBit_delete_sharer _ h0 h64] at hi2 hj2
      simp only [Bool.and_eq_true] at hi2 hj2
      exact hold i j hi2.1.1 hj2.1.1

theorem Meta.run_owner (m : Meta) (ops : List MetaOp) (hcls : m.cls = .MetadataMSIDirectory)
    (hids : ∀ op, op ∈ ops → op.id_ok) (hdisc : m.OwnerDiscipline ops)
    (hinv : m.state = 2 → at_most_one_sharer m.sharer) :
    (m.run ops).state = 2 → at_most_one_sharer (m.run ops).sharer := by
  induction ops generalizing m with
  | nil => exact hinv
  | cons op ops ih =>
    obtain ⟨h1, h2⟩ := hdisc
    exact ih (m.apply op) ((Meta.apply_cls m op).trans hcls)
      (fun o ho => hids o (List.mem_cons_of_mem _ ho)) h2
      (Meta.apply_owner m op hcls (hids op (List.mem_cons_self _ _)) h1 hinv)

/-- C13, counterexample: `to_modified(1)` on a line shared by inner cache 0 adds
sharer 1 and keeps sharer 0: the entry is Modified with two bits of the mask
set. -/
theorem single_owner_counterexample :
    (∀ op, op ∈ [MetaOp.to_shared 0, .to_modified 1] → op.id_ok) ∧
    ((Meta.fresh .MetadataMSIDirectory).run [.to_shared 0, .to_modified 1]).is_modified = true ∧
    ((Meta.fresh .MetadataMSIDirectory).run [.to_shared 0, .to_modified 1]).sharer = 3 ∧
    ((Meta.fresh .MetadataMSIDirectory).run [.to_shared 0, .to_modified 1]).sharer.testBit 0
      = true ∧
    ((Meta.fresh .MetadataMSIDirectory).run [.to_shared 0, .to_modified 1]).sharer.testBit 1
      = true ∧
    ¬ at_most_one_sharer
      ((Meta.fresh .MetadataMSIDirectory).run [.to_shared 0, .to_modified 1]).sharer := by
  refine ⟨?_, by decide, by decide, by decide, by decide, ?_⟩
  · intro op hop
    simp only [List.mem_cons, List.mem_singleton, List.not_mem_nil, or_false] at hop
    rcases hop with rfl | rfl <;> simp [MetaOp.id_ok]
  · intro h
    have := h 0 1 (by decide) (by decide)
    omega

/-- C13, amended: from a freshly constructed directory entry, after every
sequence of the transitions with ids in `[-1, 64)` that applies `to_modified(id)`
only to entries with no sharer other than `id`, state Modified comes with at
most one bit of the sharer mask set. -/
theorem single_owner_disciplined (ops : List MetaOp) (hids : ∀ op, op ∈ ops → op.id_ok)
    (hdisc : (Meta.fresh .MetadataMSIDirectory).OwnerDiscipline ops) :
    ((Meta.fresh .MetadataMSIDirectory).run ops).state = 2 →
      at_most_one_sharer ((Meta.fresh .MetadataMSIDirectory).run ops).sharer :=
  Meta.run_owner _ ops rfl hids hdisc (fun h => absurd h (by decide))

/-- Witness of C13: a line shared by inner caches 0 and 1, synchronised for 0,
then taken Modified by 1. -/
theorem single_owner_disciplined_witness :
    (∀ op, op ∈ [MetaOp.to_shared 0, .to_shared 1, .sync 0, .to_modified 1] → op.id_ok) ∧
    (Meta.fresh .MetadataMSIDirectory).OwnerDiscipline
      [.to_shared 0, .to_shared 1, .sync 0, .to_modified 1] ∧
    ((Meta.fresh .MetadataMSIDirectory).run
      [.to_shared 0, .to_shared 1, .sync 0, .to_modified 1]).state = 2 ∧
    at_most_one_sharer ((Meta.fresh .MetadataMSIDirectory).run
      [.to_shared 0, .to_shared 1, .sync 0, .to_modified 1]).sharer :=
  have hids : ∀ op, op ∈ [MetaOp.to_shared 0, .to_shared 1, .sync 0, .to_modified 1] →
      op.id_ok := by
    intro op hop
    simp only [List.mem_cons, List.mem_singleton, List.not_mem_nil, or_false] at hop
    rcases hop with rfl | rfl | rfl | rfl <;> simp [MetaOp.id_ok]
  have hdisc : (Meta.fresh .MetadataMSIDirectory).OwnerDiscipline
      [.to_shared 0, .to_shared 1, .sync 0, .to_modified 1] := by
    refine ⟨fun c h => (nomatch h), fun c h => (nomatch h), fun c h => (nomatch h), ?_,
      trivial⟩
    intro c h j hj
    cases h
    have hs : ((((Meta.fresh .MetadataMSIDirectory).apply (.to_shared 0)).apply
        (.to_shared 1)).apply (.sync 0)).sharer = 2 := by decide
    rw [hs] at hj
    have hj1 : j = 1 := by
      by_contra hne
      have h2 : (2 : Nat) = 2 ^ 1 := rfl
      rw [h2, Nat.testBit_two_pow] at hj
      exact hne (of_decide_eq_true hj).symm
    subst hj1
    rfl
  ⟨hids, hdisc, by decide, single_owner_disciplined _ hids hdisc (by decide)⟩

/-! ## `MetadataMSI::match` and `MetadataMSI::addr` -/

theorem Meta.tag_field_eq (mp : MetaParams) (addr : Nat) :
    (addr >>> mp.TOfst) &&& Meta.mask mp = addr / 2 ^ mp.TOfst % 2 ^ (mp.AW - mp.TOfst) := by
  rw [Meta.mask_eq, Nat.and_pow_two_sub_one_eq_mod, Nat.shiftRight_eq_div_pow]

theorem mod_two_pow_eq_iff_testBit (x t w : Nat) (ht : t < 2 ^ w) :
    x % 2 ^ w = t ↔ ∀ i, i < w → x.testBit i = t.testBit i := by
  constructor
  · intro h i hi
    rw [← h, Nat.testBit_mod_two_pow]
    simp [hi]
  · intro h
    apply Nat.eq_of_testBit_eq
    intro i
    rw [Nat.testBit_mod_two_pow]
    by_cases hi : i < w
    · simp [hi, h i hi]
    · have hle : w ≤ i := Nat.le_of_not_lt hi
      have : t.testBit i = false :=
        Nat.testBit_lt_two_pow (Nat.lt_of_lt_of_le ht (Nat.pow_le_pow_right (by decide) hle))
      simp [hi, this]

/-- C14: `match(addr)` is true exactly when the state is not Invalid and bits
`[TOfst, AW)` of the address are the stored tag: the field
`addr / 2^TOfst mod 2^(AW-TOfst)` equals the tag, that is, for a tag that fits
its `AW-TOfst` bits, bit `TOfst + i` of the address is bit `i` of the tag for
every `i < AW - TOfst`. -/
theorem match_spec (mp : MetaParams) (m : Meta) (addr : Nat) (_haddr : addr < 2 ^ 64) :
    (m.match mp addr = true ↔
      m.state ≠ 0 ∧ addr / 2 ^ mp.TOfst % 2 ^ (mp.AW - mp.TOfst) = m.tag) ∧
    (m.tag < 2 ^ (mp.AW - mp.TOfst) →
      (m.match mp addr = true ↔
        m.state ≠ 0 ∧ ∀ i, i < mp.AW - mp.TOfst →
          addr.testBit (mp.TOfst + i) = m.tag.testBit i)) := by
  have h1 : m.match mp addr = true ↔
      m.state ≠ 0 ∧ addr / 2 ^ mp.TOfst % 2 ^ (mp.AW - mp.TOfst) = m.tag := by
    rw [Meta.match_iff, Meta.tag_field_eq]
    simp [Meta.is_valid]
  refine ⟨h1, fun ht => ?_⟩
  rw [h1, mod_two_pow_eq_iff_testBit _ _ _ ht]
  have hbit : ∀ i, (addr / 2 ^ mp.TOfst).testBit i = addr.testBit (mp.TOfst + i) := by
    intro i
    rw [← Nat.shiftRight_eq_div_pow, Nat.testBit_shiftRight]
  simp only [hbit]

/-- Witness of C14 (Scenario A, `AW = 16`, `TOfst = 8`): an entry initialised with
`0x1200` and made Shared matches `0x1200` and does not match `0x1300`. -/
theorem match_spec_witness :
    (0x1200 : Nat) < 2 ^ 64 ∧ (0x1300 : Nat) < 2 ^ 64 ∧
    ((((Meta.fresh .MetadataMSI_Brodcast).init ⟨16, 2, 8⟩ 0x1200).to_shared 0).match
      ⟨16, 2, 8⟩ 0x1200 = true) ∧
    ¬ ((((Meta.fresh .MetadataMSI_Brodcast).init ⟨16, 2, 8⟩ 0x1200).to_shared 0).match
      ⟨16, 2, 8⟩ 0x1300 = true) :=
  ⟨by decide, by decide,
    (match_spec ⟨16, 2, 8⟩ _ 0x1200 (by decide)).1.mpr ⟨by decide, by decide⟩,
    fun h => absurd ((match_spec ⟨16, 2, 8⟩ _ 0x1300 (by decide)).1.mp h).2 (by decide)⟩

/-- C16: `replace_choose_set` with at least one partition: the partition is below
`P`, and 0 when `P = 1`; the normal genre gives the set of the current indexer,
`replace_for_relocate` the set of the next indexer, and every other genre,
`replace_during_remap` among them, fails. -/
theorem replace_choose_set_spec (k : CacheParams) (c : CacheRemap) (rnd addr genre : Nat)
    (hP : 0 < k.P) :
    (genre = 0 →
      ∃ p, p < k.P ∧ (k.P = 1 → p = 0) ∧
        c.replace_choose_set k rnd addr genre = some (p, c.indexer.index k addr p)) ∧
    (genre = replace_for_relocate →
      ∃ p, p < k.P ∧ (k.P = 1 → p = 0) ∧
        c.replace_choose_set k rnd addr genre = some (p, c.indexer_next.index k addr p)) ∧
    (genre = replace_during_remap → c.replace_choose_set k rnd addr genre = none) ∧
    (genre ≠ 0 → genre ≠ replace_for_relocate →
      c.replace_choose_set k rnd addr genre = none) := by
  have hp : (if k.P = 1 then 0 else rnd % k.P) < k.P := by
    split
    · exact hP
    · exact Nat.mod_lt _ hP
  have hp1 : k.P = 1 → (if k.P = 1 then 0 else rnd % k.P) = 0 := fun h => if_pos h
  refine ⟨?_, ?_, ?_, ?_⟩
  · intro hg
    exact ⟨_, hp, hp1, by simp [CacheRemap.replace_choose_set, hg]⟩
  · intro hg
    exact ⟨_, hp, hp1, by simp [CacheRemap.replace_choose_set, hg, replace_for_relocate]⟩
  · intro hg
    simp [CacheRemap.replace_choose_set, hg, replace_for_relocate, replace_during_remap]
  · intro h0 h1
    simp [CacheRemap.replace_choose_set, h0, h1]

/-- Witness of C16: the example cache, asked for the set of address `0x200` with
the three genres. -/
theorem replace_choose_set_spec_witness :
    0 < ex_params.P ∧
    ex_cache.replace_choose_set ex_params 5 0x200 0 = some (0, 0) ∧
    ex_cache.replace_choose_set ex_params 5 0x200 replace_for_relocate = some (0, 1) ∧
    ex_cache.replace_choose_set ex_params 5 0x200 replace_during_remap = none :=
  ⟨by decide, by decide, by decide,
    (replace_choose_set_spec ex_params ex_cache 5 0x200 replace_during_remap
      (by decide)).2.2.1 rfl⟩

/-! ## Performance-counter address extraction -/

theorem pfc_extract_addr_eq (cmd : Nat) :
    FLEXICAS_PFC_EXTRACT_ADDR cmd =
      2 ^ 56 * (if cmd.testBit 55 then 255 else 0) + cmd % 2 ^ 56 := by
  have haddr : FLEXICAS_PFC_ADDR = 2 ^ 56 - 1 := by decide
  have hsign : FLEXICAS_PFC_ADDR_SIGN = 2 ^ 55 := by decide
  have hnegf : FLEXICAS_PFC_ADDR_NEGF = 2 ^ 56 * 255 := by decide
  have hlow : cmd % 2 ^ 56 < 2 ^ 56 := Nat.mod_lt _ (Nat.two_pow_pos _)
  have hbit : (cmd &&& 2 ^ 55 ≠ 0) ↔ cmd.testBit 55 = true := by
    have := two_pow_and_ne_zero 55 cmd
    rw [Nat.and_comm] at this
    rw [← this]
    simp
  unfold FLEXICAS_PFC_EXTRACT_ADDR
  rw [haddr, hsign, hnegf, Nat.and_pow_two_sub_one_eq_mod]
  by_cases hb : cmd.testBit 55 = true
  · rw [if_pos (hbit.mpr hb), if_pos hb]
    exact (Nat.mul_add_lt_is_or hlow 255).symm
  · rw [if_neg (fun h => hb (hbit.mp h)), if_neg hb]
    simp

/-- C20: `FLEXICAS_PFC_EXTRACT_ADDR(cmd)` keeps the low 56 bits of the command
word, has its top 8 bits all ones when bit 55 of the word is set and all zeros
otherwise, and so is, read as a signed 64-bit number, the low 56 bits of the
word read as a signed 56-bit number. -/
theorem pfc_extract_addr_spec (cmd : Nat) (_hcmd : cmd < 2 ^ 64) :
    FLEXICAS_PFC_EXTRACT_ADDR cmd < 2 ^ 64 ∧
    FLEXICAS_PFC_EXTRACT_ADDR cmd % 2 ^ 56 = cmd % 2 ^ 56 ∧
    FLEXICAS_PFC_EXTRACT_ADDR cmd / 2 ^ 56 = (if cmd.testBit 55 then 255 else 0) ∧
    (if FLEXICAS_PFC_EXTRACT_ADDR cmd < 2 ^ 63 then (FLEXICAS_PFC_EXTRACT_ADDR cmd : Int)
      else (FLEXICAS_PFC_EXTRACT_ADDR cmd : Int) - 2 ^ 64) =
      (if cmd % 2 ^ 56 < 2 ^ 55 then ((cmd % 2 ^ 56 : Nat) : Int)
        else ((cmd % 2 ^ 56 : Nat) : Int) - 2 ^ 56) := by
  have hlow : cmd % 2 ^ 56 < 2 ^ 56 := Nat.mod_lt _ (Nat.two_pow_pos _)
  have hsignbit : cmd.testBit 55 = true ↔ 2 ^ 55 ≤ cmd % 2 ^ 56 := by
    have h1 : (cmd % 2 ^ 56).testBit 55 = cmd.testBit 55 := by
      rw [Nat.testBit_mod_two_pow]
      simp
    rw [← h1, Nat.testBit_to_div_mod]
    simp only [decide_eq_true_eq]
    omega
  rw [pfc_extract_addr_eq]
  by_cases hb : cmd.testBit 55 = true
  · have hge := hsignbit.mp hb
    simp only [hb, if_true]
    refine ⟨by omega, by omega, by omega, ?_⟩
    rw [if_neg (by omega), if_neg (by omega)]
    push_cast
    omega
  · have hlt : cmd % 2 ^ 56 < 2 ^ 55 := by
      by_contra hc
      exact hb (hsignbit.mpr (by omega))
    simp only [hb, Bool.false_eq_true, if_false]
    refine ⟨by omega, by omega, by omega, ?_⟩
    rw [if_pos (by omega), if_pos hlt]
    push_cast
    omega

/-- Witness of C20: the command word `0x900000000000ABCD`, bit 55 clear, gives the
address `0x000000000000ABCD`. -/
theorem pfc_extract_addr_spec_witness :
    (0x900000000000ABCD : Nat) < 2 ^ 64 ∧
    FLEXICAS_PFC_EXTRACT_ADDR 0x900000000000ABCD = 0x000000000000ABCD ∧
    FLEXICAS_PFC_EXTRACT_ADDR 0x900000000000ABCD % 2 ^ 56 = 0x900000000000ABCD % 2 ^ 56 ∧
    FLEXICAS_PFC_EXTRACT_ADDR 0x900000000000ABCD / 2 ^ 56 =
      (if (0x900000000000ABCD : Nat).testBit 55 then 255 else 0) :=
  ⟨by decide, by decide,
    (pfc_extract_addr_spec 0x900000000000ABCD (by decide)).2.1,
    (pfc_extract_addr_spec 0x900000000000ABCD (by decide)).2.2.1⟩

theorem Meta.shifted_tag_eq (mp : MetaParams) (tag : Nat) (htag : tag < 2 ^ (mp.AW - mp.TOfst))
    (hAW : mp.AW ≤ 64) (hint : mp.AW - mp.TOfst ≤ 31 → mp.AW ≤ 31)
    (huint : mp.AW - mp.TOfst = 32 → mp.AW ≤ 32) :
    Meta.shifted_tag mp tag = 2 ^ mp.TOfst * tag := by
  have hT : 0 < 2 ^ mp.TOfst := Nat.two_pow_pos _
  have hbound : ∀ n, mp.AW ≤ n → 2 ^ mp.TOfst * tag < 2 ^ n := by
    intro n hn
    by_cases hle : mp.TOfst ≤ mp.AW
    · calc 2 ^ mp.TOfst * tag < 2 ^ mp.TOfst * 2 ^ (mp.AW - mp.TOfst) :=
            Nat.mul_lt_mul_of_pos_left htag hT
        _ = 2 ^ mp.AW := by rw [← Nat.pow_add]; congr 1; omega
        _ ≤ 2 ^ n := Nat.pow_le_pow_right (by decide) hn
    · have h0 : mp.AW - mp.TOfst = 0 := by omega
      rw [h0] at htag
      have : tag = 0 := by omega
      rw [this, Nat.mul_zero]
      exact Nat.two_pow_pos n
  unfold Meta.shifted_tag
  rw [Nat.shiftLeft_eq, Nat.mul_comm]
  by_cases h31 : mp.AW - mp.TOfst ≤ 31
  · have hb := hbound 31 (hint h31)
    have hb32 : 2 ^ mp.TOfst * tag < 2 ^ 32 := Nat.lt_trans hb (by decide)
    rw [if_pos h31]
    simp only []
    rw [Nat.mod_eq_of_lt hb32, if_pos hb]
  · rw [if_neg h31]
    by_cases h32 : mp.AW - mp.TOfst = 32
    · rw [if_pos h32]
      exact Nat.mod_eq_of_lt (hbound 32 (huint h32))
    · rw [if_neg h32]
      exact Nat.mod_eq_of_lt (hbound 64 hAW)

/-- Where no shift overflows (a tag that is not promoted to a 32-bit type it does
not fit, and an index term within 32 bits), `addr(s)` is the 64-bit expression
`(tag << TOfst) | ((s & ((1 << IW) - 1)) << (TOfst - IW))`, with the tag in bits
`[TOfst, AW)` and the low `IW` bits of `s` in bits `[TOfst - IW, TOfst)`. -/
theorem Meta.addr_of_fits (mp : MetaParams) (m : Meta) (s : Nat)
    (hIW : mp.IW ≤ mp.TOfst) (hT : mp.TOfst ≤ 32) (hAW : mp.AW ≤ 64)
    (hint : mp.AW - mp.TOfst ≤ 31 → mp.AW ≤ 31) (huint : mp.AW - mp.TOfst = 32 → mp.AW ≤ 32)
    (htag : m.tag < 2 ^ (mp.AW - mp.TOfst)) :
    m.addr mp s = (m.tag <<< mp.TOfst) ||| ((s &&& ((1 <<< mp.IW) - 1)) <<< (mp.TOfst - mp.IW)) ∧
    m.addr mp s = 2 ^ mp.TOfst * m.tag + s % 2 ^ mp.IW * 2 ^ (mp.TOfst - mp.IW) ∧
    m.addr mp s / 2 ^ mp.TOfst % 2 ^ (mp.AW - mp.TOfst) = m.tag ∧
    m.addr mp s / 2 ^ (mp.TOfst - mp.IW) % 2 ^ mp.IW = s % 2 ^ mp.IW := by
  have hTpos : 0 < 2 ^ mp.TOfst := Nat.two_pow_pos _
  have hidx : (s &&& ((1 <<< mp.IW) - 1)) <<< (mp.TOfst - mp.IW) =
      s % 2 ^ mp.IW * 2 ^ (mp.TOfst - mp.IW) := by
    rw [Nat.shiftLeft_eq, Nat.one_shiftLeft, Nat.and_pow_two_sub_one_eq_mod]
  have hlow : s % 2 ^ mp.IW * 2 ^ (mp.TOfst - mp.IW) < 2 ^ mp.TOfst := by
    calc s % 2 ^ mp.IW * 2 ^ (mp.TOfst - mp.IW)
        < 2 ^ mp.IW * 2 ^ (mp.TOfst - mp.IW) :=
          Nat.mul_lt_mul_of_pos_right (Nat.mod_lt _ (Nat.two_pow_pos _)) (Nat.two_pow_pos _)
      _ = 2 ^ mp.TOfst := by rw [← Nat.pow_add]; congr 1; omega
  have hlow32 : s % 2 ^ mp.IW * 2 ^ (mp.TOfst - mp.IW) < 2 ^ 32 :=
    Nat.lt_of_lt_of_le hlow (Nat.pow_le_pow_right (by decide) hT)
  have hsum : m.addr mp s = 2 ^ mp.TOfst * m.tag + s % 2 ^ mp.IW * 2 ^ (mp.TOfst - mp.IW) := by
    unfold Meta.addr
    simp only []
    rw [Meta.shifted_tag_eq mp m.tag htag hAW hint huint]
    by_cases hiw : 0 < mp.IW
    · rw [if_pos hiw, hidx, Nat.mod_eq_of_lt hlow32]
      exact (Nat.mul_add_lt_is_or hlow _).symm
    · have h0 : mp.IW = 0 := by omega
      rw [if_neg hiw, h0]
      simp [Nat.mod_one]
  refine ⟨?_, hsum, ?_, ?_⟩
  · rw [hsum, hidx, Nat.shiftLeft_eq, Nat.mul_comm m.tag]
    exact Nat.mul_add_lt_is_or hlow _
  · rw [hsum, Nat.mul_add_div hTpos, Nat.div_eq_of_lt hlow, Nat.add_zero]
    exact Nat.mod_eq_of_lt htag
  · have hsplit : 2 ^ mp.TOfst = 2 ^ (mp.TOfst - mp.IW) * 2 ^ mp.IW := by
      rw [← Nat.pow_add]; congr 1; omega
    have hpos : 0 < 2 ^ (mp.TOfst - mp.IW) := Nat.two_pow_pos _
    rw [hsum, hsplit, Nat.mul_assoc, Nat.mul_comm (s % 2 ^ mp.IW), ← Nat.mul_add,
      Nat.mul_div_cancel_left _ hpos, Nat.mul_add_mod]
    exact Nat.mod_eq_of_lt (Nat.mod_lt _ (Nat.two_pow_pos _))

/-- C15, the code at the failing inputs: a tag of at most 31 bits is promoted to
`int`, so `tag << TOfst` is a 32-bit shift.  With `AW = 32`, `TOfst = 12` the
entry of address `0x80000000` rebuilds `0xFFFFFFFF80000000`, and with `AW = 40`,
`TOfst = 12` the entry of address `0x8000000000` rebuilds 0, where the 64-bit
expression gives the address back. -/
theorem addr_narrow_tag :
    (((Meta.fresh .MetadataMSI_Brodcast).init ⟨32, 6, 12⟩ 0x80000000).tag = 0x80000 ∧
      ((Meta.fresh .MetadataMSI_Brodcast).init ⟨32, 6, 12⟩ 0x80000000).addr ⟨32, 6, 12⟩ 0
        = 0xFFFFFFFF80000000 ∧
      ((0x80000 : Nat) <<< 12) ||| (((0 : Nat) &&& ((1 <<< 6) - 1)) <<< (12 - 6))
        = 0x80000000) ∧
    (((Meta.fresh .MetadataMSI_Brodcast).init ⟨40, 6, 12⟩ 0x8000000000).tag = 0x8000000 ∧
      ((Meta.fresh .MetadataMSI_Brodcast).init ⟨40, 6, 12⟩ 0x8000000000).addr ⟨40, 6, 12⟩ 0
        = 0 ∧
      ((0x8000000 : Nat) <<< 12) ||| (((0 : Nat) &&& ((1 <<< 6) - 1)) <<< (12 - 6))
        = 0x8000000000) := by
  decide

/-! ## The remap monitors -/

/-- C17: on a `RemapperBase` and on a `ZSEVRemapper`, `magic_func` with
`REMAP_ASK` returns true, or-s `remap_enable && remap` into the payload, clears
`active` exactly when `remap_enable` and `remap` are both set, and changes
nothing else; a second `REMAP_ASK` right after it gives the same monitor and the
same payload as the first. -/
theorem remap_ask_spec {D : Type} (dzero : D) (m : RemapperBase) (z : ZSEVRemapper D)
    (b : Bool) :
    (m.magic_func MAGIC_ID_REMAP_ASK (some b) =
      some (true, { m with active := m.active && !(m.remap_enable && m.remap) },
        some (b || (m.remap_enable && m.remap)))) ∧
    (z.magic_func dzero MAGIC_ID_REMAP_ASK (some b) =
      some (true, { z with active := z.active && !(z.remap_enable && z.remap) },
        some (b || (z.remap_enable && z.remap)))) ∧
    ((m.magic_func MAGIC_ID_REMAP_ASK (some b)).bind
        (fun r => r.2.1.magic_func MAGIC_ID_REMAP_ASK r.2.2) =
      m.magic_func MAGIC_ID_REMAP_ASK (some b)) ∧
    ((z.magic_func dzero MAGIC_ID_REMAP_ASK (some b)).bind
        (fun r => r.2.1.magic_func dzero MAGIC_ID_REMAP_ASK r.2.2) =
      z.magic_func dzero MAGIC_ID_REMAP_ASK (some b)) := by
  obtain ⟨⟨a1, a2, a3, a4, a5, act⟩, rm, en⟩ := m
  obtain ⟨⟨⟨c1, c2, c3, c4, c5, zact⟩, zrm, zen⟩, ap, ep, ev, hist⟩ := z
  refine ⟨?_, ?_, ?_, ?_⟩
  · cases act <;> cases rm <;> cases en <;> cases b <;> rfl
  · cases zact <;> cases zrm <;> cases zen <;> cases b <;> rfl
  · cases act <;> cases rm <;> cases en <;> cases b <;> rfl
  · cases zact <;> cases zrm <;> cases zen <;> cases b <;> rfl

/-- C18, counterexample: `SimpleEVRemapper` uses `RemapperBase::magic_func`, whose
`REMAP_END` branch clears `remap` and sets `active` but leaves the counters: a
monitor that counted 5 invalidations still counts 5 after `REMAP_END`. -/
theorem remap_end_counterexample :
    ((SimpleEVRemapper.fresh 5).invalid_n 5).cnt_invalid = 5 ∧
    ((SimpleEVRemapper.fresh 5).invalid_n 5).remap = true ∧
    (((SimpleEVRemapper.fresh 5).invalid_n 5).magic_func MAGIC_ID_REMAP_END none).map
        (fun r => (r.1, r.2.1.remap, r.2.1.active, r.2.1.cnt_invalid)) =
      some (true, false, true, 5) := by
  decide

/-- C18, amended: from every monitor state `magic_func` with `REMAP_END` returns
true and leaves `remap` false and `active` true, so that a following `REMAP_ASK`
does not change the payload.  On a `ZSEVRemapper` it also zeroes the five
counters, every `evicts[s]` and every score; on a `SimpleEVRemapper` it leaves
the counters and the period as they are. -/
theorem remap_end_spec {D : Type} (dzero : D) (m : SimpleEVRemapper) (z : ZSEVRemapper D)
    (data : Option Bool) (b : Bool) :
    (m.magic_func MAGIC_ID_REMAP_END data =
        some (true, { m with remap := false, active := true }, data) ∧
      SimpleEVRemapper.magic_func { m with remap := false, active := true }
          MAGIC_ID_REMAP_ASK (some b) =
        some (true, { m with remap := false, active := true }, some b)) ∧
    (∃ z2, z.magic_func dzero MAGIC_ID_REMAP_END data = some (true, z2, data) ∧
      z2.remap = false ∧ z2.active = true ∧
      z2.cnt_access = 0 ∧ z2.cnt_miss = 0 ∧ z2.cnt_write = 0 ∧ z2.cnt_write_miss = 0 ∧
      z2.cnt_invalid = 0 ∧ (∀ s, z2.evicts s = 0) ∧ (∀ s, z2.set_evict_history s = dzero) ∧
      z2.remap_enable = z.remap_enable ∧ z2.access_period = z.access_period ∧
      z2.evict_period = z.evict_period ∧
      z2.magic_func dzero MAGIC_ID_REMAP_ASK (some b) = some (true, z2, some b)) := by
  obtain ⟨⟨⟨a1, a2, a3, a4, a5, act⟩, rm, en⟩, per⟩ := m
  obtain ⟨⟨⟨c1, c2, c3, c4, c5, zact⟩, zrm, zen⟩, ap, ep, ev, hist⟩ := z
  refine ⟨⟨rfl, ?_⟩, ⟨_, rfl, rfl, rfl, rfl, rfl, rfl, rfl, rfl, fun _ => rfl, fun _ => rfl, rfl,
    rfl, rfl, ?_⟩⟩
  · cases en <;> cases b <;> rfl
  · cases zen <;> cases b <;> rfl

theorem SimpleEVRemapper.invalid_active (m : SimpleEVRemapper) (ha : m.active = true) :
    m.invalid.active = true ∧ m.invalid.period = m.period ∧
    m.invalid.cnt_invalid = (m.cnt_invalid + 1) % 2 ^ 64 ∧
    (m.invalid.remap = true ↔
      m.remap = true ∨
        ((m.cnt_invalid + 1) % 2 ^ 64 ≠ 0 ∧ (m.cnt_invalid + 1) % 2 ^ 64 % m.period = 0)) := by
  unfold SimpleEVRemapper.invalid
  simp only [ha, Bool.not_true, Bool.false_eq_true, if_false]
  by_cases hc : (m.cnt_invalid + 1) % 2 ^ 64 ≠ 0 ∧ (m.cnt_invalid + 1) % 2 ^ 64 % m.period = 0
  · rw [if_pos hc]
    exact ⟨rfl, rfl, rfl, ⟨fun _ => Or.inr hc, fun _ => rfl⟩⟩
  · rw [if_neg hc]
    refine ⟨rfl, rfl, rfl, ⟨fun h => Or.inl h, fun h => ?_⟩⟩
    rcases h with h | h
    · exact h
    · exact absurd h hc

theorem SimpleEVRemapper.invalid_inactive (m : SimpleEVRemapper) (ha : m.active = false) :
    m.invalid = m := by
  simp [SimpleEVRemapper.invalid, ha]

theorem SimpleEVRemapper.invalid_n_fresh (period n : Nat) (h1 : 1 ≤ period)
    (h2 : period < 2 ^ 64) :
    ((SimpleEVRemapper.fresh period).invalid_n n).active = true ∧
    ((SimpleEVRemapper.fresh period).invalid_n n).period = period ∧
    ((SimpleEVRemapper.fresh period).invalid_n n).cnt_invalid = n % 2 ^ 64 ∧
    (((SimpleEVRemapper.fresh period).invalid_n n).remap = true ↔ period ≤ n) := by
  induction n with
  | zero =>
    refine ⟨rfl, rfl, rfl, ?_⟩
    constructor
    · intro h; exact Bool.noConfusion h
    · intro h; omega
  | succ n ih =>
    obtain ⟨ha, hp, hc, hr⟩ := ih
    obtain ⟨ha2, hp2, hc2, hr2⟩ :=
      SimpleEVRemapper.invalid_active ((SimpleEVRemapper.fresh period).invalid_n n) ha
    have hcnt : (((SimpleEVRemapper.fresh period).invalid_n n).cnt_invalid + 1) % 2 ^ 64 =
        (n + 1) % 2 ^ 64 := by
      rw [hc]; omega
    rw [hcnt, hp] at hr2
    rw [hcnt] at hc2
    refine ⟨ha2, hp2.trans hp, hc2, ?_⟩
    show ((SimpleEVRemapper.fresh period).invalid_n n).invalid.remap = true ↔ period ≤ n + 1
    rw [hr2, hr]
    constructor
    · rintro (h | ⟨hne, hmod⟩)
      · omega
      · have hdvd : period ∣ (n + 1) % 2 ^ 64 := Nat.dvd_of_mod_eq_zero hmod
        have hle : period ≤ (n + 1) % 2 ^ 64 := Nat.le_of_dvd (by omega) hdvd
        have : (n + 1) % 2 ^ 64 ≤ n + 1 := Nat.mod_le _ _
        omega
    · intro h
      by_cases hn : period ≤ n
      · exact Or.inl hn
      · have heq : n + 1 = period := by omega
        refine Or.inr ?_
        rw [heq, Nat.mod_eq_of_lt h2]
        exact ⟨by omega, Nat.mod_self period⟩

/-- C19: a freshly constructed `SimpleEVRemapper` with a period of at least 1 has,
after `n` invalidation events, counted them and requested a remap exactly when
`n` is at least the period; an event on an active monitor raises the flag
exactly when the new count is a multiple of the period (and not 0), and an event
on a monitor that is not active changes nothing. -/
theorem simple_ev_trigger (period n : Nat) (h1 : 1 ≤ period) (h2 : period < 2 ^ 64) :
    (((SimpleEVRemapper.fresh period).invalid_n n).remap = true ↔ period ≤ n) ∧
    ((SimpleEVRemapper.fresh period).invalid_n n).cnt_invalid = n % 2 ^ 64 ∧
    (∀ m : SimpleEVRemapper, m.active = true →
      m.invalid.cnt_invalid = (m.cnt_invalid + 1) % 2 ^ 64 ∧
      (m.invalid.remap = true ↔
        m.remap = true ∨
          (m.invalid.cnt_invalid ≠ 0 ∧ m.invalid.cnt_invalid % m.period = 0))) ∧
    (∀ m : SimpleEVRemapper, m.active = false → m.invalid = m) := by
  obtain ⟨-, -, hc, hr⟩ := SimpleEVRemapper.invalid_n_fresh period n h1 h2
  refine ⟨hr, hc, fun m ha => ?_, SimpleEVRemapper.invalid_inactive⟩
  obtain ⟨-, -, hc2, hr2⟩ := SimpleEVRemapper.invalid_active m ha
  rw [hc2]
  exact ⟨rfl, hr2⟩

/-- Witness of C19: period 3; no request after two invalidations, a request after
three. -/
theorem simple_ev_trigger_witness :
    (1 : Nat) ≤ 3 ∧ (3 : Nat) < 2 ^ 64 ∧
    ((SimpleEVRemapper.fresh 3).invalid_n 2).remap = false ∧
    ((SimpleEVRemapper.fresh 3).invalid_n 3).remap = true ∧
    ((SimpleEVRemapper.fresh 3).invalid_n 3).cnt_invalid = 3 :=
  ⟨by decide, by decide, by decide,
    (simple_ev_trigger 3 3 (by decide) (by decide)).1.mpr (Nat.le_refl 3), by decide⟩

/-! ## Scenario F -/

/-- An extracted address whose top byte is all ones has bit 55 set: no command
word gives `0xff0000000080ABCD`. -/
theorem pfc_extract_addr_ne (cmd : Nat) : FLEXICAS_PFC_EXTRACT_ADDR cmd ≠ 0xff0000000080ABCD := by
  rw [pfc_extract_addr_eq]
  have hlow : cmd % 2 ^ 56 < 2 ^ 56 := Nat.mod_lt _ (Nat.two_pow_pos _)
  have hsignbit : cmd.testBit 55 = true ↔ 2 ^ 55 ≤ cmd % 2 ^ 56 := by
    have h1 : (cmd % 2 ^ 56).testBit 55 = cmd.testBit 55 := by
      rw [Nat.testBit_mod_two_pow]
      simp
    rw [← h1, Nat.testBit_to_div_mod]
    simp only [decide_eq_true_eq]
    omega
  by_cases hb : cmd.testBit 55 = true
  · have := hsignbit.mp hb
    simp only [hb, if_true]
    omega
  · simp only [hb, Bool.false_eq_true, if_false]
    omega

/-- C21, counterexample: in `0x900000000080ABCD` the byte `0x80` sits in bits 16
to 23; bit 55 of the word is clear, and the extracted address is not
`0xff0000000080ABCD`. -/
theorem scenario_F_counterexample :
    ¬ ((0x900000000080ABCD : Nat).testBit 55 = true ∧
      FLEXICAS_PFC_EXTRACT_ADDR 0x900000000080ABCD = 0xff0000000080ABCD) := by
  decide

/-- C21, amended: for the command word `0x900000000080ABCD` bit 55 is clear (the
bit set by `0x80` is bit 23) and `FLEXICAS_PFC_EXTRACT_ADDR` gives
`0x000000000080ABCD`. -/
theorem scenario_F_literal :
    (0x900000000080ABCD : Nat).testBit 55 = false ∧
    (0x900000000080ABCD : Nat).testBit 23 = true ∧
    FLEXICAS_PFC_EXTRACT_ADDR 0x900000000080ABCD = 0x000000000080ABCD := by
  decide

/-! ## Termination of the relocation chain -/

theorem CacheRemap.replace_relocate_pos (k : CacheParams) (hP : 0 < k.P) (hNW : 0 < k.NW)
    (c : CacheRemap) (draw : Nat × Nat) (addr : Nat) :
    ∃ ai w, ai < k.P ∧ w < k.NW ∧
      CacheRemap.replace k c draw addr replace_for_relocate =
        some (ai, c.indexer_next.index k addr ai, w) := by
  refine ⟨if k.P = 1 then 0 else draw.1 % k.P, draw.2 % k.NW, ?_, Nat.mod_lt _ hNW, ?_⟩
  · split
    · exact hP
    · exact Nat.mod_lt _ hP
  · simp [CacheRemap.replace, CacheRemap.replace_choose_set, replace_for_relocate]

/-- One call of `relocation` writes one cell of the array, marked relocated; when
the scratch entry is valid after it, that cell held a valid line not yet
relocated. -/
theorem RemapState.relocation_progress (k : CacheParams) (hP : 0 < k.P) (hNW : 0 < k.NW)
    (orc : Nat → Nat × Nat) (st : RemapState) (cm : Meta) (ca : Nat) :
    ∃ ai idx way x st1 c1 a1, ai < k.P ∧ idx < k.nset ∧ way < k.NW ∧
      x.is_relocated = true ∧
      RemapState.relocation k orc st cm ca = some (st1, c1, a1) ∧
      st1.cache = st.cache.set_meta ai idx way x ∧
      (c1.is_valid = true →
        (st.cache.access ai idx way).is_valid = true ∧
        (st.cache.access ai idx way).is_relocated = false) := by
  obtain ⟨ai, w, hai, hw, hrep⟩ :=
    CacheRemap.replace_relocate_pos k hP hNW st.cache (orc st.tick) ca
  have hs := IndexSkewed.index_lt k st.cache.indexer_next ca ai
  generalize st.cache.indexer_next.index k ca ai = s at hrep hs
  unfold RemapState.relocation
  rw [hrep]
  simp only []
  refine ⟨ai, s, w, _, _, _, _, hai, hs, hw, ?_, rfl, rfl, ?_⟩
  · rfl
  · intro hv1
    rw [swap_scratch_valid] at hv1
    by_cases hev : ((st.cache.access ai s w).is_valid &&
        (st.cache.access ai s w).is_relocated) = true
    · rw [if_pos hev, evict_meta_invalid] at hv1
      exact Bool.noConfusion hv1
    · rw [if_neg hev] at hv1
      refine ⟨hv1, ?_⟩
      rw [hv1] at hev
      simpa using hev

theorem RemapState.relocation_loop_invalid (k : CacheParams) (orc : Nat → Nat × Nat)
    (fuel : Nat) (st : RemapState) (cm : Meta) (ca : Nat) (hv : cm.is_valid = false) :
    RemapState.relocation_loop k orc fuel st cm ca = some st := by
  cases fuel <;> simp [RemapState.relocation_loop, hv]

theorem RemapState.relocation_loop_total (k : CacheParams) (hP : 0 < k.P) (hNW : 0 < k.NW)
    (orc : Nat → Nat × Nat) (fuel : Nat) (st : RemapState) (cm : Meta) (ca : Nat)
    (hfuel : cm.is_valid = true → (st.cache.vnr k).card < fuel) :
    ∃ st2, RemapState.relocation_loop k orc fuel st cm ca = some st2 ∧
      CacheRemap.Frame st.cache st2.cache ∧
      ∀ j, RemapState.relocation_loop k orc (fuel + j) st cm ca = some st2 := by
  induction fuel generalizing st cm ca with
  | zero =>
    cases hv : cm.is_valid with
    | true => exact absurd (hfuel hv) (Nat.not_lt_zero _)
    | false =>
      exact ⟨st, RemapState.relocation_loop_invalid k orc 0 st cm ca hv,
        CacheRemap.Frame.refl _,
        fun j => RemapState.relocation_loop_invalid k orc _ st cm ca hv⟩
  | succ fuel ih =>
    cases hv : cm.is_valid with
    | false =>
      exact ⟨st, RemapState.relocation_loop_invalid k orc _ st cm ca hv,
        CacheRemap.Frame.refl _,
        fun j => RemapState.relocation_loop_invalid k orc _ st cm ca hv⟩
    | true =>
      obtain ⟨ai, idx, way, x, st1, c1, a1, hai, hidx, hway, hx, hstep, hcache, hwas⟩ :=
        RemapState.relocation_progress k hP hNW orc st cm ca
      have hframe1 : CacheRemap.Frame st.cache st1.cache := by
        rw [hcache]
        exact CacheRemap.Frame.of_set_meta _ _ _ _ _ hx
      have hfuel1 : c1.is_valid = true → (st1.cache.vnr k).card < fuel := by
        intro hv1
        obtain ⟨hwv, hwr⟩ := hwas hv1
        have h1 : (st1.cache.vnr k).card < (st.cache.vnr k).card := by
          rw [hcache]
          exact CacheRemap.vnr_card_lt k st.cache ai idx way x hai hidx hway hx hwv hwr
        have h2 := hfuel hv
        omega
      obtain ⟨st2, hloop, hframe2, hmore⟩ := ih st1 c1 a1 hfuel1
      refine ⟨st2, ?_, hframe1.trans hframe2, fun j => ?_⟩
      · simp only [RemapState.relocation_loop, hv, if_true, hstep]
        exact hloop
      · have hj : fuel + 1 + j = (fuel + j) + 1 := by omega
        rw [hj]
        simp only [RemapState.relocation_loop, hv, if_true, hstep]
        exact hmore j

theorem RemapState.relocation_chain_total (k : CacheParams) (orc : Nat → Nat × Nat)
    (st : RemapState) (ai idx way : Nat) (hai : ai < k.P) (hidx : idx < k.nset)
    (hway : way < k.NW) :
    ∃ st2, RemapState.relocation_chain k orc st ai idx way = some st2 ∧
      CacheRemap.Frame st.cache st2.cache ∧ st2.cache.done ai idx way := by
  have hP : 0 < k.P := Nat.lt_of_le_of_lt (Nat.zero_le _) hai
  have hNW : 0 < k.NW := Nat.lt_of_le_of_lt (Nat.zero_le _) hway
  unfold RemapState.relocation_chain
  simp only []
  by_cases hskip : (!(st.cache.access ai idx way).is_valid ||
      (st.cache.access ai idx way).is_relocated) = true
  · rw [if_pos hskip]
    refine ⟨st, rfl, CacheRemap.Frame.refl _, ?_⟩
    unfold CacheRemap.done
    cases hv : (st.cache.access ai idx way).is_valid
    · exact Or.inl rfl
    · rw [hv] at hskip
      exact Or.inr (by simpa using hskip)
  · rw [if_neg hskip]
    generalize CacheRemap.relocate k ((st.cache.access ai idx way).addr k.mp idx)
      (st.cache.access ai idx way) (Meta.fresh (st.cache.access ai idx way).cls) = r
    have hframe1 : CacheRemap.Frame st.cache (st.cache.set_meta ai idx way r.1.to_relocated) :=
      CacheRemap.Frame.of_set_meta _ _ _ _ _ rfl
    have hdone1 : (st.cache.set_meta ai idx way r.1.to_relocated).done ai idx way := by
      unfold CacheRemap.done
      rw [CacheRemap.set_meta_access, if_pos ⟨rfl, rfl, rfl⟩]
      exact Or.inr rfl
    obtain ⟨st2, hloop, hframe2, -⟩ :=
      RemapState.relocation_loop_total k hP hNW orc (k.P * k.nset * k.NW)
        { st with cache := st.cache.set_meta ai idx way r.1.to_relocated } r.2
        ((st.cache.access ai idx way).addr k.mp idx)
        (fun _ => CacheRemap.vnr_card_lt_total k _ ai idx way hai hidx hway hdone1)
    exact ⟨st2, hloop, hframe1.trans hframe2, hframe2.done _ _ _ hdone1⟩

/-- C22: for every state of a cache of `P x 2^IW x NW` cells and every choice of
the replacer and the random source, `relocation_chain(p, s, w)` returns, its
loop making at most `P * 2^IW * NW` iterations.  Each call of `relocation`
returns, and either leaves the scratch entry invalid or has marked relocated a
cell of the array that held a valid line not yet relocated, so that the number
of such cells has dropped; a loop started with more iterations allowed than
there are such cells returns, with the same result however many more are
allowed. -/
theorem relocation_chain_terminates (k : CacheParams) (orc : Nat → Nat × Nat)
    (st : RemapState) (p s w : Nat) (hp : p < k.P) (hs : s < k.nset) (hw : w < k.NW) :
    (∃ st2, RemapState.relocation_chain k orc st p s w = some st2) ∧
    (∀ (st1 : RemapState) (cm : Meta) (ca : Nat),
      ∃ st2 c2 a2, RemapState.relocation k orc st1 cm ca = some (st2, c2, a2) ∧
        (c2.is_valid = false ∨
          ∃ ai idx way, ai < k.P ∧ idx < k.nset ∧ way < k.NW ∧
            (st1.cache.access ai idx way).is_valid = true ∧
            (st1.cache.access ai idx way).is_relocated = false ∧
            (st2.cache.access ai idx way).is_relocated = true ∧
            (st2.cache.vnr k).card < (st1.cache.vnr k).card)) ∧
    (∀ (fuel : Nat) (st1 : RemapState) (cm : Meta) (ca : Nat),
      (st1.cache.vnr k).card < fuel →
        ∃ st2, RemapState.relocation_loop k orc fuel st1 cm ca = some st2 ∧
          ∀ j, RemapState.relocation_loop k orc (fuel + j) st1 cm ca = some st2) ∧
    (st.cache.vnr k).card ≤ k.P * 2 ^ k.IW * k.NW := by
  have hP : 0 < k.P := Nat.lt_of_le_of_lt (Nat.zero_le _) hp
  have hNW : 0 < k.NW := Nat.lt_of_le_of_lt (Nat.zero_le _) hw
  refine ⟨?_, ?_, ?_, ?_⟩
  · obtain ⟨st2, h, -⟩ := RemapState.relocation_chain_total k orc st p s w hp hs hw
    exact ⟨st2, h⟩
  · intro st1 cm ca
    obtain ⟨ai, idx, way, x, st2, c2, a2, hai, hidx, hway, hx, hstep, hcache, hwas⟩ :=
      RemapState.relocation_progress k hP hNW orc st1 cm ca
    refine ⟨st2, c2, a2, hstep, ?_⟩
    cases hv : c2.is_valid with
    | false => exact Or.inl rfl
    | true =>
      obtain ⟨hwv, hwr⟩ := hwas hv
      refine Or.inr ⟨ai, idx, way, hai, hidx, hway, hwv, hwr, ?_, ?_⟩
      · rw [hcache, CacheRemap.set_meta_access, if_pos ⟨rfl, rfl, rfl⟩]
        exact hx
      · rw [hcache]
        exact CacheRemap.vnr_card_lt k st1.cache ai idx way x hai hidx hway hx hwv hwr
  · intro fuel st1 cm ca hfuel
    obtain ⟨st2, h, -, hmore⟩ :=
      RemapState.relocation_loop_total k hP hNW orc fuel st1 cm ca (fun _ => hfuel)
    exact ⟨st2, h, hmore⟩
  · rw [← k.nset_eq]
    exact CacheRemap.vnr_card_le k st.cache

/-- Witness of C22: the chain of the first cell of the example cache, which moves
`0x200`, displaces `0x100` and evicts `0x200` again, returns. -/
theorem relocation_chain_terminates_witness :
    0 < ex_params.P ∧ 0 < ex_params.nset ∧ 0 < ex_params.NW ∧
    (∃ st2, RemapState.relocation_chain ex_params ex_orc
      { cache := ex_cache.remap_start, tick := 0, evicted := [] } 0 0 0 = some st2) ∧
    (RemapState.relocation_chain ex_params ex_orc
      { cache := ex_cache.remap_start, tick := 0, evicted := [] } 0 0 0).map
        (fun st2 => st2.tick) = some 2 :=
  ⟨by decide, by decide, by decide,
    (relocation_chain_terminates ex_params ex_orc
      { cache := ex_cache.remap_start, tick := 0, evicted := [] } 0 0 0
      (by decide) (by decide) (by decide)).1, by decide⟩

/-! ## The remap pointers during the sweep, and `remap_end` -/

/-- A loop over `0 .. n-1` whose body returns and keeps an invariant indexed by
the counter returns. -/
theorem RemapState.run_range_total (k : CacheParams) (orc : Nat → Nat × Nat)
    (f : Nat → List RemapOp) (I : Nat → RemapState → Prop) (n : Nat)
    (hbody : ∀ i, i < n → ∀ st, I i st →
      ∃ st2, RemapState.run k orc (f i) st = some st2 ∧ I (i + 1) st2)
    (st : RemapState) (h0 : I 0 st) :
    ∃ st2, RemapState.run k orc ((List.range n).flatMap f) st = some st2 ∧ I n st2 := by
  induction n with
  | zero => exact ⟨st, by simp [RemapState.run], h0⟩
  | succ n ih =>
    obtain ⟨st1, hrun1, hI1⟩ := ih (fun i hi => hbody i (Nat.lt_succ_of_lt hi))
    obtain ⟨st2, hrun2, hI2⟩ := hbody n (Nat.lt_succ_self n) st1 hI1
    rw [List.range_succ, List.flatMap_append, List.flatMap_singleton]
    refine ⟨st2, ?_, hI2⟩
    rw [RemapState.run_append, hrun1]
    exact hrun2

/-- The chains of the ways of one set return and leave the remap pointers as they
were. -/
theorem RemapState.ways_total (k : CacheParams) (orc : Nat → Nat × Nat) (ai idx : Nat)
    (hai : ai < k.P) (hidx : idx < k.nset) (st : RemapState) :
    ∃ st2, RemapState.run k orc
        ((List.range k.NW).map (fun way => RemapOp.chain ai idx way)) st = some st2 ∧
      st2.cache.remap_pointer = st.cache.remap_pointer := by
  rw [map_range_eq_flatMap]
  apply RemapState.run_range_total k orc (fun way => [RemapOp.chain ai idx way])
    (fun _ s => s.cache.remap_pointer = st.cache.remap_pointer) k.NW
  · intro way hway s1 hptr1
    obtain ⟨s2, hchain, hframe, -⟩ :=
      RemapState.relocation_chain_total k orc s1 ai idx way hai hidx hway
    exact ⟨s2, RemapState.run_single k orc _ s1 s2 hchain, hframe.pointer.trans hptr1⟩
  · rfl

/-- The body of the loop over the sets: the pointer of the partition is
incremented once, the other pointers are left as they were. -/
theorem RemapState.set_total (k : CacheParams) (orc : Nat → Nat × Nat) (ai idx : Nat)
    (hai : ai < k.P) (hidx : idx < k.nset) (st : RemapState) :
    ∃ st2, RemapState.run k orc
        ((List.range k.NW).map (fun way => RemapOp.chain ai idx way) ++ [RemapOp.move ai]) st
        = some st2 ∧
      st2.cache.remap_pointer ai = (st.cache.remap_pointer ai + 1) % 2 ^ 64 ∧
      ∀ p, p ≠ ai → st2.cache.remap_pointer p = st.cache.remap_pointer p := by
  obtain ⟨st1, hrun1, hptr1⟩ := RemapState.ways_total k orc ai idx hai hidx st
  have hstep : RemapState.step k orc st1 (RemapOp.move ai) =
      some { st1 with cache := st1.cache.move_remap_pointer ai } := rfl
  refine ⟨{ st1 with cache := st1.cache.move_remap_pointer ai }, ?_, ?_, ?_⟩
  · rw [RemapState.run_append, hrun1]
    exact RemapState.run_single k orc _ st1 _ hstep
  · show (if ai = ai then (st1.cache.remap_pointer ai + 1) % 2 ^ 64
      else st1.cache.remap_pointer ai) = (st.cache.remap_pointer ai + 1) % 2 ^ 64
    rw [if_pos rfl, hptr1]
  · intro p hp
    show (if p = ai then (st1.cache.remap_pointer ai + 1) % 2 ^ 64
      else st1.cache.remap_pointer p) = st.cache.remap_pointer p
    rw [if_neg hp, hptr1]

/-- The loop over the sets of one partition: the pointer of the partition has
advanced by the number of sets, on 64 bits. -/
theorem RemapState.sets_total (k : CacheParams) (orc : Nat → Nat × Nat) (ai : Nat)
    (hai : ai < k.P) (st : RemapState) :
    ∃ st2, RemapState.run k orc
        ((List.range k.nset).flatMap fun idx =>
          (List.range k.NW).map (fun way => RemapOp.chain ai idx way) ++ [RemapOp.move ai]) st
        = some st2 ∧
      (st.cache.remap_pointer ai < 2 ^ 64 →
        st2.cache.remap_pointer ai = (st.cache.remap_pointer ai + k.nset) % 2 ^ 64) ∧
      ∀ p, p ≠ ai → st2.cache.remap_pointer p = st.cache.remap_pointer p := by
  apply RemapState.run_range_total k orc
    (fun idx => (List.range k.NW).map (fun way => RemapOp.chain ai idx way) ++ [RemapOp.move ai])
    (fun n s => (st.cache.remap_pointer ai < 2 ^ 64 →
        s.cache.remap_pointer ai = (st.cache.remap_pointer ai + n) % 2 ^ 64) ∧
      ∀ p, p ≠ ai → s.cache.remap_pointer p = st.cache.remap_pointer p) k.nset
  · intro idx hidx s1 ⟨hptr1, hother1⟩
    obtain ⟨s2, hrun, hptr2, hother2⟩ := RemapState.set_total k orc ai idx hai hidx s1
    refine ⟨s2, hrun, ?_, fun p hp => (hother2 p hp).trans (hother1 p hp)⟩
    intro hlt
    rw [hptr2, hptr1 hlt]
    omega
  · refine ⟨fun hlt => ?_, fun _ _ => rfl⟩
    rw [Nat.add_zero, Nat.mod_eq_of_lt hlt]

/-- The sweep of `remap()` returns from every state; the pointer of every
partition has advanced by the number of sets. -/
theorem RemapState.sweep_total (k : CacheParams) (orc : Nat → Nat × Nat) (st : RemapState) :
    ∃ st2, RemapState.run k orc (remap_ops k.P k.nset k.NW) st = some st2 ∧
      (∀ p, p < k.P → st.cache.remap_pointer p < 2 ^ 64 →
        st2.cache.remap_pointer p = (st.cache.remap_pointer p + k.nset) % 2 ^ 64) ∧
      ∀ p, k.P ≤ p → st2.cache.remap_pointer p = st.cache.remap_pointer p := by
  unfold remap_ops
  apply RemapState.run_range_total k orc
    (fun ai => (List.range k.nset).flatMap fun idx =>
      (List.range k.NW).map (fun way => RemapOp.chain ai idx way) ++ [RemapOp.move ai])
    (fun n s => (∀ p, p < n → st.cache.remap_pointer p < 2 ^ 64 →
        s.cache.remap_pointer p = (st.cache.remap_pointer p + k.nset) % 2 ^ 64) ∧
      ∀ p, n ≤ p → s.cache.remap_pointer p = st.cache.remap_pointer p) k.P
  · intro ai hai s1 ⟨hlow1, hhigh1⟩
    obtain ⟨s2, hrun, hptr2, hother2⟩ := RemapState.sets_total k orc ai hai s1
    refine ⟨s2, hrun, ?_, ?_⟩
    · intro p hp hlt
      rcases Nat.lt_succ_iff_lt_or_eq.mp hp with hlt2 | heq
      · rw [hother2 p (by omega)]; exact hlow1 p hlt2 hlt
      · subst heq
        have h0 := hhigh1 p (Nat.le_refl p)
        rw [h0] at hptr2
        exact hptr2 hlt
    · intro p hp
      rw [hother2 p (by omega)]
      exact hhigh1 p (by omega)
  · exact ⟨fun p hp => absurd hp (Nat.not_lt_zero p), fun _ _ => rfl⟩

theorem remap_ops_count_chain (p ai idx nway : Nat) :
    List.count (RemapOp.move p) ((List.range nway).map (fun way => RemapOp.chain ai idx way))
      = 0 := by
  apply List.count_eq_zero_of_not_mem
  intro hmem
  obtain ⟨w, -, hw⟩ := List.mem_map.mp hmem
  exact RemapOp.noConfusion hw

theorem remap_ops_count_sets (p ai nset nway : Nat) :
    List.count (RemapOp.move p) ((List.range nset).flatMap fun idx =>
      (List.range nway).map (fun way => RemapOp.chain ai idx way) ++ [RemapOp.move ai])
      = if ai = p then nset else 0 := by
  induction nset with
  | zero => simp
  | succ n ih =>
    rw [List.range_succ, List.flatMap_append, List.flatMap_singleton, List.count_append,
      List.count_append, ih, remap_ops_count_chain, List.count_singleton]
    by_cases h : ai = p
    · subst h; simp
    · have h2 : ¬ (RemapOp.move ai = RemapOp.move p) := fun e => h (RemapOp.move.inj e)
      simp [h, h2]

/-- The sweep holds one `move_remap_pointer(p)` per set for each partition `p` of
the cache, and none for any other `p`. -/
theorem remap_ops_count_move (p P nset nway : Nat) :
    List.count (RemapOp.move p) (remap_ops P nset nway) = if p < P then nset else 0 := by
  unfold remap_ops
  induction P with
  | zero => simp
  | succ n ih =>
    rw [List.range_succ, List.flatMap_append, List.flatMap_singleton, List.count_append, ih,
      remap_ops_count_sets]
    by_cases h1 : p < n
    · have h2 : n ≠ p := by omega
      have h3 : p < n + 1 := by omega
      simp [h1, h2, h3]
    · by_cases h2 : n = p
      · subst h2; simp
      · have h3 : ¬ p < n + 1 := by omega
        simp [h1, h2, h3]

theorem CacheRemap.remap_end_access (k : CacheParams) (c : CacheRemap) (fresh : List Nat)
    (p s w : Nat) :
    (c.remap_end k fresh).access p s w =
      if p < k.P ∧ s < k.nset ∧ w < k.NW then (c.access p s w).to_unrelocated
      else c.access p s w := rfl

/-- C23: after `remap_end()`, from every state of the cache, the remap flag is
false, every remap pointer is 0, no cell `(p, s, w)` with `p < P`, `s < 2^IW`,
`w < NW` is marked relocated, and the state, the dirty bit and the tag of every
cell are those before the call.  The sweep of `remap()` returns from every
state; it calls `move_remap_pointer(p)` once per set, `2^IW` times, for each
partition `p < P`, so that a pointer that was 0 at `remap_start` is `2^IW`
before `remap_end`; and `remap()` returns the state of the sweep after
`remap_end`.  The loop counters are 32 bits wide, hence the bounds on the
sizes. -/
theorem remap_end_resets (k : CacheParams) (orc : Nat → Nat × Nat) (fresh : List Nat)
    (st : RemapState) (hIW : k.IW < 32) (hP : k.P < 2 ^ 32) (hNW : k.NW < 2 ^ 32) :
    (∀ c : CacheRemap,
      (c.remap_end k fresh).remap = false ∧
      (∀ p, (c.remap_end k fresh).remap_pointer p = 0) ∧
      (∀ p s w, p < k.P → s < 2 ^ k.IW → w < k.NW →
        ((c.remap_end k fresh).access p s w).is_relocated = false) ∧
      (∀ p s w, ((c.remap_end k fresh).access p s w).state = (c.access p s w).state ∧
        ((c.remap_end k fresh).access p s w).dirty = (c.access p s w).dirty ∧
        ((c.remap_end k fresh).access p s w).tag = (c.access p s w).tag)) ∧
    (∀ p, List.count (RemapOp.move p) (RemapState.sweep_ops k) =
      if p < k.P then 2 ^ k.IW else 0) ∧
    (∃ st1, RemapState.run k orc (RemapState.sweep_ops k)
        { st with cache := st.cache.remap_start } = some st1 ∧
      (∀ p, p < k.P → st.cache.remap_pointer p < 2 ^ 64 →
        st1.cache.remap_pointer p = (st.cache.remap_pointer p + 2 ^ k.IW) % 2 ^ 64) ∧
      (∀ p, p < k.P → st.cache.remap_pointer p = 0 → st1.cache.remap_pointer p = 2 ^ k.IW) ∧
      RemapState.remap k orc fresh st = some { st1 with cache := st1.cache.remap_end k fresh }) := by
  have hnset : k.nset < 2 ^ 32 := by
    rw [k.nset_eq]
    exact Nat.pow_lt_pow_right (by decide) hIW
  have hops : RemapState.sweep_ops k = remap_ops k.P k.nset k.NW := by
    unfold RemapState.sweep_ops
    rw [Nat.mod_eq_of_lt hP, Nat.mod_eq_of_lt hnset, Nat.mod_eq_of_lt hNW]
  refine ⟨fun c => ⟨rfl, fun _ => rfl, ?_, ?_⟩, ?_, ?_⟩
  · intro p s w hp hs hw
    rw [← k.nset_eq] at hs
    rw [CacheRemap.remap_end_access, if_pos ⟨hp, hs, hw⟩]
    rfl
  · intro p s w
    rw [CacheRemap.remap_end_access]
    split
    · exact ⟨rfl, rfl, rfl⟩
    · exact ⟨rfl, rfl, rfl⟩
  · intro p
    rw [hops, remap_ops_count_move, k.nset_eq]
  · obtain ⟨st1, hrun, hlow, -⟩ :=
      RemapState.sweep_total k orc { st with cache := st.cache.remap_start }
    have hlow2 : ∀ p, p < k.P → st.cache.remap_pointer p < 2 ^ 64 →
        st1.cache.remap_pointer p = (st.cache.remap_pointer p + 2 ^ k.IW) % 2 ^ 64 := by
      intro p hp hlt
      rw [← k.nset_eq]
      exact hlow p hp hlt
    refine ⟨st1, ?_, hlow2, ?_, ?_⟩
    · rw [hops]; exact hrun
    · intro p hp h0
      rw [hlow2 p hp (by rw [h0]; exact Nat.two_pow_pos 64), h0, Nat.zero_add, ← k.nset_eq]
      apply Nat.mod_eq_of_lt
      have h2 : (2 : Nat) ^ 32 < 2 ^ 64 := by decide
      omega
    · unfold RemapState.remap
      rw [hops, hrun]

/-- Witness of C23: the example cache of one partition, two sets and one way; the
sweep calls `move_remap_pointer(0)` twice, and after `remap()` the pointer is 0
and the flag is false. -/
theorem remap_end_resets_witness :
    ex_params.IW < 32 ∧ ex_params.P < 2 ^ 32 ∧ ex_params.NW < 2 ^ 32 ∧
    (List.count (RemapOp.move 0) (RemapState.sweep_ops ex_params) =
      if 0 < ex_params.P then 2 ^ ex_params.IW else 0) ∧
    List.count (RemapOp.move 0) (RemapState.sweep_ops ex_params) = 2 ∧
    (RemapState.run ex_params ex_orc (RemapState.sweep_ops ex_params)
      { ex_state with cache := ex_state.cache.remap_start }).map
        (fun st1 => st1.cache.remap_pointer 0) = some 2 ∧
    (RemapState.remap ex_params ex_orc [] ex_state).map
        (fun st2 => (st2.cache.remap_pointer 0, st2.cache.remap)) = some (0, false) :=
  ⟨by decide, by decide, by decide,
    (remap_end_resets ex_params ex_orc [] ex_state (by decide) (by decide) (by decide)).2.1 0,
    by decide, by decide, by decide⟩

end CacheModel
